import Mathlib

/-!
Verification development for the spec-string front end of the package manager:
the tokenizer (`spack/tokenize.py` interface as used by `spack/spec_parser.py`),
the recursive-descent spec parser (`spack/spec_parser.py`), and the legacy
spec-string rewriter (`spack/cmd/style.py`).

The regular expressions of the source are embedded as executable matchers over
`List Char`; each matcher's doc comment names the regex it embeds and the
deterministic reading of its backtracking behaviour.  The `spack.tokenize`
module and the `spack.spec.Spec` node type are not part of the sources under
verification; they are modelled from the specification (see the doc comments
starting with "Modelled from the spec:").
-/

set_option linter.unusedVariables false

namespace Spack

/-! ## Character classes

Each definition embeds a character class of the source regexes in
`spec_parser.py` (ASCII classes written out explicitly there). -/

/-- `[a-zA-Z_0-9]` — the class `\w` restricted to ASCII as written in the
source patterns (`IDENTIFIER`, `NAME`, `HASH`, first chars of versions). -/
def isWordChar (c : Char) : Bool :=
  ('a' ≤ c && c ≤ 'z') || ('A' ≤ c && c ≤ 'Z') || ('0' ≤ c && c ≤ '9') || c = '_'

/-- Tail class of `IDENTIFIER`: `[a-zA-Z_0-9\-]`. -/
def isIdChar (c : Char) : Bool := isWordChar c || c = '-'

/-- Tail class of `NAME` (and of version ids): `[a-zA-Z_0-9\-.]`. -/
def isNameChar (c : Char) : Bool := isWordChar c || c = '-' || c = '.'

/-- Tail class of `GIT_REF`: `[a-zA-Z_0-9./\-]`. -/
def isGitRefChar (c : Char) : Bool := isWordChar c || c = '.' || c = '/' || c = '-'

/-- `GIT_HASH` class `[A-Fa-f0-9]`. -/
def isHexChar (c : Char) : Bool :=
  ('a' ≤ c && c ≤ 'f') || ('A' ≤ c && c ≤ 'F') || ('0' ≤ c && c ≤ '9')

/-- `VALUE` class: `[a-zA-Z_0-9\-+\*.,:=%^\~\/\\]`. -/
def isValueChar (c : Char) : Bool :=
  isWordChar c || c = '-' || c = '+' || c = '*' || c = '.' || c = ',' || c = ':' ||
    c = '=' || c = '%' || c = '^' || c = '~' || c = '/' || c = '\\'

/-- Python `\s` (ASCII range): space, tab, newline, carriage return, form feed,
vertical tab. -/
def isSpaceChar (c : Char) : Bool :=
  c = ' ' || c = '\t' || c = '\n' || c = '\r' || c = '\x0b' || c = '\x0c'

/-- Filename prefix class `[a-zA-Z0-9-_]` (`UNIX_FILENAME`). -/
def isFnPrefixChar (c : Char) : Bool :=
  ('a' ≤ c && c ≤ 'z') || ('A' ≤ c && c ≤ 'Z') || ('0' ≤ c && c ≤ '9') ||
    c = '-' || c = '_'

/-- Filename body class `[a-zA-Z0-9-_\.\/]` (`UNIX_FILENAME`). -/
def isFnChar (c : Char) : Bool := isFnPrefixChar c || c = '.' || c = '/'

/-- `NO_QUOTES_NEEDED` class: `[a-zA-Z0-9,/_.\-\[\]]`. -/
def isNoQuoteChar (c : Char) : Bool :=
  ('a' ≤ c && c ≤ 'z') || ('A' ≤ c && c ≤ 'Z') || ('0' ≤ c && c ≤ '9') ||
    c = ',' || c = '/' || c = '_' || c = '.' || c = '-' || c = '[' || c = ']'

/-! ## Token kinds and tokens -/

/-- The named capture groups of `VIRTUAL_ASSIGNMENT`
(`(?P<virtuals>...)=(?P<substitute>...)`), the only capture groups in the
token patterns.  Mirrors the `subvalues` mapping of a token. -/
structure Subvalues where
  virtuals : String
  substitute : String
deriving DecidableEq, Repr

/-- `SpecTokens` enumeration from `spec_parser.py`, in declaration order
(the order is the match priority of the combined tokenizer regex). -/
inductive SpecTokens where
  | START_EDGE_PROPERTIES
  | END_EDGE_PROPERTIES
  | DEPENDENCY
  | VERSION_HASH_PAIR
  | GIT_VERSION
  | VERSION
  | PROPAGATED_BOOL_VARIANT
  | BOOL_VARIANT
  | PROPAGATED_KEY_VALUE_PAIR
  | KEY_VALUE_PAIR
  | FILENAME
  | FULLY_QUALIFIED_PACKAGE_NAME
  | UNQUALIFIED_PACKAGE_NAME
  | DAG_HASH
  | WS
  | UNEXPECTED
deriving DecidableEq, Repr

/-- `_LegacySpecTokens` enumeration from `cmd/style.py`, in declaration
order; it reuses the current-grammar regexes but adds the old bare
`COMPILER`/`COMPILER_AND_VERSION` clauses and drops `%` from the
dependency sigils. -/
inductive LegacyTokens where
  | START_EDGE_PROPERTIES
  | END_EDGE_PROPERTIES
  | DEPENDENCY
  | VERSION_HASH_PAIR
  | GIT_VERSION
  | VERSION
  | PROPAGATED_BOOL_VARIANT
  | BOOL_VARIANT
  | PROPAGATED_KEY_VALUE_PAIR
  | KEY_VALUE_PAIR
  | COMPILER_AND_VERSION
  | COMPILER
  | FILENAME
  | FULLY_QUALIFIED_PACKAGE_NAME
  | UNQUALIFIED_PACKAGE_NAME
  | DAG_HASH
  | WS
  | UNEXPECTED
deriving DecidableEq, Repr

/-- Modelled from the spec: the `Token` of the external `spack.tokenize`
module — `(kind, value, start_offset, end_offset, subvalues?)` (§3 of the
spec); `start`/`end` default to 0 for synthesized tokens.  `end` is a Lean
keyword, so the field is called `endPos`. -/
structure Token (κ : Type) where
  kind : κ
  value : String
  start : Nat := 0
  endPos : Nat := 0
  subvalues : Option Subvalues := none
deriving DecidableEq, Repr

/-! ## Generic matcher helpers

`runLen p cs` is the length of the maximal prefix of `cs` whose characters
satisfy `p` — the greedy match of a starred character class. -/

def runLen (p : Char → Bool) (cs : List Char) : Nat := (cs.takeWhile p).length

/-- Greedy match of `IDENTIFIER = [a-zA-Z_0-9][a-zA-Z_0-9\-]*`: length of the
match at the front of `cs`, or `none`. -/
def matchId (cs : List Char) : Option Nat :=
  match cs with
  | [] => none
  | c :: rest => if isWordChar c then some (1 + runLen isIdChar rest) else none

/-- Greedy length of `(?:\.{IDENTIFIER})*` (the dotted tail of
`DOTTED_IDENTIFIER`), together with the number of groups matched.  The
fuel argument only bounds the recursion; every caller passes at least
`cs.length`, which is always sufficient since each group consumes at
least two characters. -/
def dottedTailAux (fuel : Nat) (cs : List Char) : Nat × Nat :=
  match fuel with
  | 0 => (0, 0)
  | fuel + 1 =>
    match cs with
    | '.' :: rest =>
      match matchId rest with
      | some n =>
        let next := dottedTailAux fuel (rest.drop n)
        (1 + n + next.1, 1 + next.2)
      | none => (0, 0)
    | _ => (0, 0)

def dottedTail (cs : List Char) : Nat × Nat := dottedTailAux cs.length cs

/-- Greedy match of `DOTTED_IDENTIFIER = {IDENTIFIER}(\.{IDENTIFIER})+`. -/
def matchDottedId (cs : List Char) : Option Nat :=
  match matchId cs with
  | none => none
  | some n =>
    let (extra, groups) := dottedTail (cs.drop n)
    if groups = 0 then none else some (n + extra)

/-- Greedy match of `NAME = [a-zA-Z_0-9][a-zA-Z_0-9\-.]*`. -/
def matchName (cs : List Char) : Option Nat :=
  match cs with
  | [] => none
  | c :: rest => if isWordChar c then some (1 + runLen isNameChar rest) else none

/-- Greedy length of `(?:,{IDENTIFIER})*` — the comma-separated tail of the
`virtuals` capture group.  Each iteration needs a comma followed by an
identifier, so the star stops at a comma not followed by one (fuel as in
`dottedTailAux`). -/
def commaIdTailAux (fuel : Nat) (cs : List Char) : Nat :=
  match fuel with
  | 0 => 0
  | fuel + 1 =>
    match cs with
    | ',' :: rest =>
      match matchId rest with
      | some n => 1 + n + commaIdTailAux fuel (rest.drop n)
      | none => 0
    | _ => 0

def commaIdTail (cs : List Char) : Nat := commaIdTailAux cs.length cs

/-- Match of `VIRTUAL_ASSIGNMENT =
(?P<virtuals>{IDENTIFIER}(?:,{IDENTIFIER})*)=(?P<substitute>{DOTTED_IDENTIFIER}|{IDENTIFIER})`.
The identifier classes exclude `,` and `=`, so the greedy reading is
deterministic: the comma-list is maximal, then `=` must follow directly, and
the substitute prefers the dotted form (the alternation is final in the
pattern, so no outer backtracking can revisit it). -/
def matchVirtualAssignment (cs : List Char) : Option (Nat × Subvalues) :=
  match matchId cs with
  | none => none
  | some n =>
    let vlen := n + commaIdTail (cs.drop n)
    match cs.drop vlen with
    | '=' :: sub =>
      match matchDottedId sub <|> matchId sub with
      | some slen =>
        some (vlen + 1 + slen, ⟨(cs.take vlen).asString, (sub.take slen).asString⟩)
      | none => none
    | _ => none

/-- The admissible match lengths of `VERSION =
=?(?:[a-zA-Z0-9_][a-zA-Z_0-9\-\.]*\b)`, in decreasing (greedy-first) order.
The star may stop at any position where the trailing `\b` holds: the last
consumed character is a word character and the next input character is not
(positions inside the greedy run qualify exactly before a `.` or `-`).
Lengths include the optional leading `=`. -/
def versionStops (cs : List Char) : List Nat :=
  let eq : Nat := if cs.head? = some '=' then 1 else 0
  let body := cs.drop eq
  match body.head? with
  | some c =>
    if isWordChar c then
      let run := runLen isNameChar body
      (((List.range run).reverse.map (· + 1)).filter (fun k =>
        isWordChar (body.getD (k - 1) ' ') && !isWordChar (body.getD k ' '))).map (· + eq)
    else []
  | none => []

/-- Greedy match of `VERSION` (the longest admissible stop). -/
def matchVersionCore (cs : List Char) : Option Nat := (versionStops cs).head?

/-- The right-hand `(?:{VERSION}(?!\s*=))?` of a version range: the longest
admissible `VERSION` stop after which the negative lookahead `(?!\s*=)`
holds, or the empty match. -/
def rightVersionLen (rest : List Char) : Nat :=
  match (versionStops rest).find? (fun r =>
      ((rest.drop r).dropWhile isSpaceChar).head? ≠ some '=') with
  | some r => r
  | none => 0

/-- Match of `VERSION_RANGE = (?:{VERSION})?:(?:{VERSION}(?!\s*=))?`.
The left `VERSION` backtracks through its admissible stops (longest first,
then the empty option) until a `:` follows; the right `VERSION` backtracks
through its stops until the negative lookahead holds, and otherwise
matches empty. -/
def matchVersionRange (cs : List Char) : Option Nat :=
  let leftCands := versionStops cs ++ [0]
  match leftCands.find? (fun l => cs.getD l ' ' = ':') with
  | none => none
  | some l => some (l + 1 + rightVersionLen (cs.drop (l + 1)))

/-- One element of `VERSION_LIST`: `({VERSION_RANGE}|{VERSION})`, range
preferred per the alternation order. -/
def matchVersionItem (cs : List Char) : Option Nat :=
  matchVersionRange cs <|> matchVersionCore cs

/-- Greedy length of `(?:\s*,\s*({VERSION_RANGE}|{VERSION}))*` (fuel as in
`dottedTailAux`; each iteration consumes at least the comma). -/
def versionListTailAux (fuel : Nat) (cs : List Char) : Nat :=
  match fuel with
  | 0 => 0
  | fuel + 1 =>
    let ws1 := runLen isSpaceChar cs
    match cs.drop ws1 with
    | ',' :: rest =>
      let ws2 := runLen isSpaceChar rest
      match matchVersionItem (rest.drop ws2) with
      | some n => ws1 + 1 + ws2 + n + versionListTailAux fuel (rest.drop (ws2 + n))
      | none => 0
    | _ => 0

def versionListTail (cs : List Char) : Nat := versionListTailAux cs.length cs

/-- Match of `VERSION_LIST`. -/
def matchVersionList (cs : List Char) : Option Nat :=
  match matchVersionItem cs with
  | some n => some (n + versionListTail (cs.drop n))
  | none => none

/-- Match of the `VERSION` token kind: `@\s*{VERSION_LIST}`. -/
def matchVersionToken (cs : List Char) : Option Nat :=
  match cs with
  | '@' :: rest =>
    let ws := runLen isSpaceChar rest
    match matchVersionList (rest.drop ws) with
    | some n => some (1 + ws + n)
    | none => none
  | _ => none

/-- Match of `GIT_VERSION_PATTERN = (?:git\.(?:{GIT_REF}))|(?:{GIT_HASH})`:
the `git.` branch first, else exactly forty hex characters. -/
def matchGitVersionPattern (cs : List Char) : Option Nat :=
  let gitBranch :=
    match cs with
    | 'g' :: 'i' :: 't' :: '.' :: rest =>
      match rest with
      | c :: tail =>
        if isWordChar c then some (4 + 1 + runLen isGitRefChar tail) else none
      | [] => none
    | _ => none
  match gitBranch with
  | some n => some n
  | none => if cs.length ≥ 40 && (cs.take 40).all isHexChar then some 40 else none

/-- Match of the `VERSION_HASH_PAIR` token: `@(?:{GIT_VERSION_PATTERN})=(?:{VERSION})`. -/
def matchVersionHashPair (cs : List Char) : Option Nat :=
  match cs with
  | '@' :: rest =>
    match matchGitVersionPattern rest with
    | some g =>
      match rest.drop g with
      | '=' :: vrest =>
        match matchVersionCore vrest with
        | some v => some (1 + g + 1 + v)
        | none => none
      | _ => none
    | none => none
  | _ => none

/-- Match of the `GIT_VERSION` token: `@(?:{GIT_VERSION_PATTERN})`. -/
def matchGitVersion (cs : List Char) : Option Nat :=
  match cs with
  | '@' :: rest =>
    match matchGitVersionPattern rest with
    | some g => some (1 + g)
    | none => none
  | _ => none

/-- Match of `PROPAGATED_BOOL_VARIANT = (?:\+\+|~~|--)\s*{NAME}`. -/
def matchPropagatedBoolVariant (cs : List Char) : Option Nat :=
  match cs with
  | a :: b :: rest =>
    if (a = '+' && b = '+') || (a = '~' && b = '~') || (a = '-' && b = '-') then
      let ws := runLen isSpaceChar rest
      match matchName (rest.drop ws) with
      | some n => some (2 + ws + n)
      | none => none
    else none
  | _ => none

/-- Match of `BOOL_VARIANT = [~+-]\s*{NAME}`. -/
def matchBoolVariant (cs : List Char) : Option Nat :=
  match cs with
  | a :: rest =>
    if a = '~' || a = '+' || a = '-' then
      let ws := runLen isSpaceChar rest
      match matchName (rest.drop ws) with
      | some n => some (1 + ws + n)
      | none => none
    else none
  | [] => none

/-- Closing-quote position for `QUOTED_VALUE` content
(`'(?:[^']|(?<=\\)')*'` and the double-quote twin): a quote character is
content when the preceding input character is a backslash; the greedy star
then closes at the first unescaped quote, or — when every quote is escaped —
backtracks so the last quote of the run closes the literal. -/
def quotedCloseAux (q : Char) (prev : Char) (idx : Nat) (lastQ : Option Nat) :
    List Char → Option Nat
  | [] => lastQ
  | c :: rest =>
    if c = q && prev ≠ '\\' then some idx
    else quotedCloseAux q c (idx + 1) (if c = q then some idx else lastQ) rest

/-- Match of `QUOTED_VALUE = '(?:[^']|(?<=\\)')*'|"(?:[^"]|(?<=\\)")*"`. -/
def matchQuotedValue (cs : List Char) : Option Nat :=
  match cs with
  | q :: rest =>
    if q = '\'' || q = '"' then
      match quotedCloseAux q q 0 none rest with
      | some close => some (close + 2)
      | none => none
    else none
  | [] => none

/-- Match of `{VALUE}|{QUOTED_VALUE}`: the bare-value class excludes both
quote characters, so the alternation is deterministic on the first
character. -/
def matchValueOrQuoted (cs : List Char) : Option Nat :=
  let bare := runLen isValueChar cs
  if bare ≥ 1 then some bare else matchQuotedValue cs

/-- Match of `KEY_VALUE_PAIR = {NAME}:?=({VALUE}|{QUOTED_VALUE})` when
`eqs = 1`, and of `PROPAGATED_KEY_VALUE_PAIR = {NAME}:?==(...)` when
`eqs = 2`.  `NAME` excludes `:` and `=`, so the greedy reading is
deterministic. -/
def matchKvpWith (eqs : Nat) (cs : List Char) : Option Nat :=
  match matchName cs with
  | none => none
  | some n =>
    let rest := cs.drop n
    let colon : Nat := if rest.head? = some ':' then 1 else 0
    let rest2 := rest.drop colon
    if (rest2.take eqs) = List.replicate eqs '=' then
      match matchValueOrQuoted (rest2.drop eqs) with
      | some v => some (n + colon + eqs + v)
      | none => none
    else none

/-- Match of `UNIX_FILENAME =
(?:\.|\/|[a-zA-Z0-9-_]*\/)(?:[a-zA-Z0-9-_\.\/]*)(?:\.json|\.yaml)`.
The three prefix alternatives are disjoint on their first character; the
greedy body star backtracks so the latest possible `.json`/`.yaml`
occurrence inside the body run closes the match. -/
def fnSuffixSearch (rest : List Char) : Nat → Option Nat
  | 0 =>
    if (rest.take 5) = ".json".data || (rest.take 5) = ".yaml".data then some 0 else none
  | k + 1 =>
    if ((rest.drop (k + 1)).take 5) = ".json".data ||
        ((rest.drop (k + 1)).take 5) = ".yaml".data then some (k + 1)
    else fnSuffixSearch rest k

def matchFilename (cs : List Char) : Option Nat :=
  let prefixLen : Option Nat :=
    match cs with
    | '.' :: _ => some 1
    | '/' :: _ => some 1
    | _ =>
      let r := runLen isFnPrefixChar cs
      if cs.getD r ' ' = '/' then some (r + 1) else none
  match prefixLen with
  | none => none
  | some p =>
    let rest := cs.drop p
    match fnSuffixSearch rest (runLen isFnChar rest) with
    | some k => some (p + k + 5)
    | none => none

/-- Match of `DAG_HASH = /(?:[a-zA-Z_0-9]+)`. -/
def matchDagHash (cs : List Char) : Option Nat :=
  match cs with
  | '/' :: rest =>
    let r := runLen isWordChar rest
    if r ≥ 1 then some (1 + r) else none
  | _ => none

/-- Match of `WS = \s+`. -/
def matchWs (cs : List Char) : Option Nat :=
  let r := runLen isSpaceChar cs
  if r ≥ 1 then some r else none

/-- Match of `UNEXPECTED = .[\s]*` — one character (never reached on
whitespace, which the `WS` kind claims first) plus trailing whitespace. -/
def matchUnexpected (cs : List Char) : Option Nat :=
  match cs with
  | _ :: rest => some (1 + runLen isSpaceChar rest)
  | [] => none

/-- Match of `START_EDGE_PROPERTIES = [\^%]\[`. -/
def matchStartEdgeProperties (cs : List Char) : Option Nat :=
  match cs with
  | a :: '[' :: _ => if a = '^' || a = '%' then some 2 else none
  | _ => none

/-- Match of `END_EDGE_PROPERTIES = \](?:\s*{VIRTUAL_ASSIGNMENT})?`. -/
def matchEndEdgeProperties (cs : List Char) : Option (Nat × Option Subvalues) :=
  match cs with
  | ']' :: rest =>
    let ws := runLen isSpaceChar rest
    match matchVirtualAssignment (rest.drop ws) with
    | some (n, sv) => some (1 + ws + n, some sv)
    | none => some (1, none)
  | _ => none

/-- Match of `DEPENDENCY = [\^\%](?:\s*{VIRTUAL_ASSIGNMENT})?`. -/
def matchDependency (cs : List Char) : Option (Nat × Option Subvalues) :=
  match cs with
  | a :: rest =>
    if a = '^' || a = '%' then
      let ws := runLen isSpaceChar rest
      match matchVirtualAssignment (rest.drop ws) with
      | some (n, sv) => some (1 + ws + n, some sv)
      | none => some (1, none)
    else none
  | [] => none

/-- Match of `UNQUALIFIED_PACKAGE_NAME = {IDENTIFIER}|{STAR}`. -/
def matchUnqualifiedName (cs : List Char) : Option Nat :=
  match matchId cs with
  | some n => some n
  | none => match cs with
    | '*' :: _ => some 1
    | _ => none

/-! ## The tokenizers

Modelled from the spec: the external `spack.tokenize.Tokenizer` joins the
kind regexes of the enumeration in declaration order into one alternation
and repeatedly takes, at the current offset, the first kind whose pattern
matches (§4.1: "trying, at each input offset, the ordered list of kind
patterns and taking the first ... match per the list's declared priority
order"); every character is matched by some kind because `WS` and
`UNEXPECTED` are catch-alls, and the raw tokenizer never raises. -/

/-- One tokenizer step for the `SpecTokens` table: the first kind, in
declaration order, matching at the head of `cs`. -/
def specNextToken (cs : List Char) : Option (SpecTokens × Nat × Option Subvalues) :=
  match matchStartEdgeProperties cs with
  | some n => some (.START_EDGE_PROPERTIES, n, none)
  | none =>
  match matchEndEdgeProperties cs with
  | some (n, sv) => some (.END_EDGE_PROPERTIES, n, sv)
  | none =>
  match matchDependency cs with
  | some (n, sv) => some (.DEPENDENCY, n, sv)
  | none =>
  match matchVersionHashPair cs with
  | some n => some (.VERSION_HASH_PAIR, n, none)
  | none =>
  match matchGitVersion cs with
  | some n => some (.GIT_VERSION, n, none)
  | none =>
  match matchVersionToken cs with
  | some n => some (.VERSION, n, none)
  | none =>
  match matchPropagatedBoolVariant cs with
  | some n => some (.PROPAGATED_BOOL_VARIANT, n, none)
  | none =>
  match matchBoolVariant cs with
  | some n => some (.BOOL_VARIANT, n, none)
  | none =>
  match matchKvpWith 2 cs with
  | some n => some (.PROPAGATED_KEY_VALUE_PAIR, n, none)
  | none =>
  match matchKvpWith 1 cs with
  | some n => some (.KEY_VALUE_PAIR, n, none)
  | none =>
  match matchFilename cs with
  | some n => some (.FILENAME, n, none)
  | none =>
  match matchDottedId cs with
  | some n => some (.FULLY_QUALIFIED_PACKAGE_NAME, n, none)
  | none =>
  match matchUnqualifiedName cs with
  | some n => some (.UNQUALIFIED_PACKAGE_NAME, n, none)
  | none =>
  match matchDagHash cs with
  | some n => some (.DAG_HASH, n, none)
  | none =>
  match matchWs cs with
  | some n => some (.WS, n, none)
  | none =>
  match matchUnexpected cs with
  | some n => some (.UNEXPECTED, n, none)
  | none => none

/-- Match of `COMPILER_AND_VERSION = %\s*(?:{NAME})(?:[\s]*)@\s*(?:{VERSION_LIST})`
from `_LegacySpecTokens`. -/
def matchCompilerAndVersion (cs : List Char) : Option Nat :=
  match cs with
  | '%' :: rest =>
    let ws1 := runLen isSpaceChar rest
    match matchName (rest.drop ws1) with
    | some n =>
      let rest2 := rest.drop (ws1 + n)
      let ws2 := runLen isSpaceChar rest2
      match rest2.drop ws2 with
      | '@' :: vrest =>
        let ws3 := runLen isSpaceChar vrest
        match matchVersionList (vrest.drop ws3) with
        | some v => some (1 + ws1 + n + ws2 + 1 + ws3 + v)
        | none => none
      | _ => none
    | none => none
  | _ => none

/-- Match of `COMPILER = %\s*(?:{NAME})` from `_LegacySpecTokens`. -/
def matchCompiler (cs : List Char) : Option Nat :=
  match cs with
  | '%' :: rest =>
    let ws := runLen isSpaceChar rest
    match matchName (rest.drop ws) with
    | some n => some (1 + ws + n)
    | none => none
  | _ => none

/-- One tokenizer step for the `_LegacySpecTokens` table of `cmd/style.py`,
in its declaration order (`START_EDGE_PROPERTIES = \^\[`,
`END_EDGE_PROPERTIES = \]`, `DEPENDENCY = \^`, then the current-grammar
version/variant/key-value kinds, then the old compiler clauses, then
filenames, names, hash, whitespace, unexpected). -/
def legacyNextToken (cs : List Char) : Option (LegacyTokens × Nat × Option Subvalues) :=
  match cs with
  | '^' :: '[' :: _ => some (.START_EDGE_PROPERTIES, 2, none)
  | _ =>
  match cs with
  | ']' :: _ => some (.END_EDGE_PROPERTIES, 1, none)
  | _ =>
  match cs with
  | '^' :: _ => some (.DEPENDENCY, 1, none)
  | _ =>
  match matchVersionHashPair cs with
  | some n => some (.VERSION_HASH_PAIR, n, none)
  | none =>
  match matchGitVersion cs with
  | some n => some (.GIT_VERSION, n, none)
  | none =>
  match matchVersionToken cs with
  | some n => some (.VERSION, n, none)
  | none =>
  match matchPropagatedBoolVariant cs with
  | some n => some (.PROPAGATED_BOOL_VARIANT, n, none)
  | none =>
  match matchBoolVariant cs with
  | some n => some (.BOOL_VARIANT, n, none)
  | none =>
  match matchKvpWith 2 cs with
  | some n => some (.PROPAGATED_KEY_VALUE_PAIR, n, none)
  | none =>
  match matchKvpWith 1 cs with
  | some n => some (.KEY_VALUE_PAIR, n, none)
  | none =>
  match matchCompilerAndVersion cs with
  | some n => some (.COMPILER_AND_VERSION, n, none)
  | none =>
  match matchCompiler cs with
  | some n => some (.COMPILER, n, none)
  | none =>
  match matchFilename cs with
  | some n => some (.FILENAME, n, none)
  | none =>
  match matchDottedId cs with
  | some n => some (.FULLY_QUALIFIED_PACKAGE_NAME, n, none)
  | none =>
  match matchUnqualifiedName cs with
  | some n => some (.UNQUALIFIED_PACKAGE_NAME, n, none)
  | none =>
  match matchDagHash cs with
  | some n => some (.DAG_HASH, n, none)
  | none =>
  match matchWs cs with
  | some n => some (.WS, n, none)
  | none =>
  match matchUnexpected cs with
  | some n => some (.UNEXPECTED, n, none)
  | none => none

/-- Generic tokenizer loop over a step function: repeatedly take the first
matching kind, record its span, and continue after it.  The fuel is the
input length, which suffices because every step consumes at least one
character. -/
def tokenizeWithAux {κ : Type} (step : List Char → Option (κ × Nat × Option Subvalues)) :
    Nat → Nat → List Char → List (Token κ)
  | 0, _, _ => []
  | fuel + 1, pos, cs =>
    match step cs with
    | none => []
    | some (k, n, sv) =>
      ⟨k, (cs.take n).asString, pos, pos + n, sv⟩ ::
        tokenizeWithAux step fuel (pos + n) (cs.drop n)

/-- The raw token sequence of `text` under the `SpecTokens` table
(`SPEC_TOKENIZER.tokenize(text)`); total — the raw tokenizer never raises. -/
def tokenizeRaw (text : String) : List (Token SpecTokens) :=
  tokenizeWithAux specNextToken text.data.length 0 text.data

/-- The raw token sequence of `text` under the `_LegacySpecTokens` table
(`Tokenizer(_LegacySpecTokens).tokenize(spec_str)` in `cmd/style.py`). -/
def legacyTokenizeRaw (text : String) : List (Token LegacyTokens) :=
  tokenizeWithAux legacyNextToken text.data.length 0 text.data

/-! ## String helpers

Embeddings of the Python string operations used by the parser
(`str.split`, `str.strip`, `str.replace`, `str.index`). -/

/-- Python `s.split(sep)` for a one-character separator (all occurrences). -/
def splitOnChar (sep : Char) : List Char → List (List Char)
  | [] => [[]]
  | c :: rest =>
    match splitOnChar sep rest with
    | g :: gs => if c = sep then [] :: g :: gs else (c :: g) :: gs
    | [] => if c = sep then [[], []] else [[c]]

def strSplit (s : String) (sep : Char) : List String :=
  (splitOnChar sep s.data).map List.asString

/-- Python `s.split(sep, maxsplit=1)` for a (non-empty) separator string:
split at the first occurrence, `none` when the separator does not occur. -/
def splitOnceSub (pat : List Char) : List Char → Option (List Char × List Char)
  | [] => if pat = [] then some ([], []) else none
  | c :: rest =>
    if (c :: rest).take pat.length = pat then some ([], (c :: rest).drop pat.length)
    else match splitOnceSub pat rest with
      | some (a, b) => some (c :: a, b)
      | none => none

def strSplitOnce (s : String) (pat : String) : Option (String × String) :=
  (splitOnceSub pat.data s.data).map (fun p => (p.1.asString, p.2.asString))

/-- Python `s.strip(chars)`. -/
def stripChars (chars : List Char) (cs : List Char) : List Char :=
  ((cs.dropWhile (chars.contains ·)).reverse.dropWhile (chars.contains ·)).reverse

/-- Python `s.strip()` (whitespace strip, used on bool-variant names). -/
def strStripWs (s : String) : String :=
  ((s.data.dropWhile isSpaceChar).reverse.dropWhile isSpaceChar).reverse.asString

/-- Python `s.replace(pat, repl)` — all non-overlapping occurrences, left to
right (fuel is the input length, sufficient since `pat` is non-empty at
every use site). -/
def replaceSubAux (pat repl : List Char) : Nat → List Char → List Char
  | 0, cs => cs
  | _, [] => []
  | fuel + 1, c :: rest =>
    if pat ≠ [] && (c :: rest).take pat.length = pat then
      repl ++ replaceSubAux pat repl fuel ((c :: rest).drop pat.length)
    else c :: replaceSubAux pat repl fuel rest

def replaceSub (pat repl : List Char) (cs : List Char) : List Char :=
  replaceSubAux pat repl cs.length cs

/-- Python `hay.index(sub)` — offset of the first occurrence (the parser
only calls it when the occurrence exists; absence yields the length). -/
def firstIndexOfSub (hay sub : List Char) : Nat :=
  match hay with
  | [] => 0
  | c :: rest =>
    if hay.take sub.length = sub then 0 else 1 + firstIndexOfSub rest sub

/-- The match of `STRIP_QUOTES = ^(['\"])(.*)\1$` against `s`: the quote
character and the inner group, if any.  `.` does not match a newline and
`$` also matches just before a final newline, so the pattern matches a
quoted literal with no interior newline, optionally followed by one final
newline. -/
def stripQuotesMatch (cs : List Char) : Option (Char × List Char) :=
  match cs with
  | q :: rest =>
    if (q = '\'' || q = '"') && rest ≠ [] then
      if rest.getLast? = some q && !(rest.dropLast.contains '\n') then
        some (q, rest.dropLast)
      else if rest.getLast? = some '\n' && rest.dropLast.getLast? = some q &&
          !(rest.dropLast.dropLast.contains '\n') then
        some (q, rest.dropLast.dropLast)
      else none
    else none
  | [] => none

/-- `strip_quotes_and_unescape` from `spec_parser.py`: remove surrounding
quotes per `STRIP_QUOTES` and replace any escaped quote of that kind with
the bare quote. -/
def strip_quotes_and_unescape (s : String) : String :=
  match stripQuotesMatch s.data with
  | none => s
  | some (q, mid) => (replaceSub ['\\', q] [q] mid).asString

/-! ## The spec node model

Modelled from the spec: the external `spack.spec.Spec` node (§3 of the
spec) — `name`, `namespace`, `versions`, `variants` (name, value,
propagate flag, concrete flag), `abstract_hash`, dependency edges
(`direct`, `virtuals`, `depflag`, `when`), and a `concrete` marker.  The
external version type is represented by the raw version strings handed to
it; `_add_flag` and `_add_dependency` append to the node (their
domain-error paths are outside the modelled scope, no claim depends on
them), and `attach_git_version_lookup` is a deferred capability with no
effect on the structure. -/

inductive VariantValue where
  | bool (b : Bool)
  | str (s : String)
deriving DecidableEq, Repr

structure VFlag where
  name : String
  value : VariantValue
  propagate : Bool
  concrete : Bool
deriving DecidableEq, Repr

structure SpecCore where
  name : Option String := none
  namespc : Option String := none
  versions : List String := []
  variants : List VFlag := []
  abstract_hash : Option String := none
  concrete : Bool := false
deriving DecidableEq, Repr

structure EdgeOf (α : Type) where
  child : α
  direct : Bool
  virtuals : List String
  depflag : Nat
  cond : Option α
deriving DecidableEq, Repr

inductive Spec where
  | mk (core : SpecCore) (edges : List (EdgeOf Spec)) : Spec

def Spec.core : Spec → SpecCore
  | .mk c _ => c

def Spec.edges : Spec → List (EdgeOf Spec)
  | .mk _ e => e

/-- A fresh `Spec()`. -/
def Spec.empty : Spec := .mk {} []

def Spec.withCore (s : Spec) (f : SpecCore → SpecCore) : Spec := .mk (f s.core) s.edges

/-- Modelled from the spec: `Spec._add_dependency` appends an edge to the
node. -/
def Spec.addEdge (s : Spec) (e : EdgeOf Spec) : Spec := .mk s.core (s.edges ++ [e])

/-- Modelled from the spec: `Spec._add_flag` merges a variant/flag onto the
node. -/
def Spec.addFlag (s : Spec) (f : VFlag) : Spec :=
  s.withCore (fun c => { c with variants := c.variants ++ [f] })

/-! ## Errors -/

/-- The error outcomes of a parse, tagged by origin (spec §9 suggests this
tagged representation of the exception hierarchy):
`tokenization` is `SpecTokenizationError`, `parsing` is `SpecParsingError`
(message, anchor token, input text), `noSuchSpecFile` is the file-reference
error, `specError` is an uncaught `spack.error.SpecError`, `valueError` a
Python `ValueError`, `attributeError`/`assertionError` the corresponding
Python exceptions.  `toolchainExpansion` marks the toolchain-expansion
path, which is outside the modelled scope (claims run with no configured
toolchains, where it is unreachable); `outOfFuel` is the recursion-bound
artifact of the embedding, unreachable with the fuel supplied by the entry
points. -/
inductive ParseErr where
  | tokenization (tokens : List (Token SpecTokens)) (text : String)
  | parsing (message : String) (token : Option (Token SpecTokens)) (text : String)
  | noSuchSpecFile (path : String)
  | specError (message : String)
  | valueError (message : String)
  | attributeError
  | assertionError
  | toolchainExpansion (name : String)
  | outOfFuel
deriving DecidableEq, Repr

/-! ## Token context -/

/-- `TokenContext` from `spec_parser.py`.  The `token_stream` iterator is
`parseable_tokens(literal_str)`: it yields the whitespace-filtered tokens
up to the first `UNEXPECTED` token and then raises `SpecTokenizationError`
(built from the full raw token list of the text).  The iterator state is
therefore `rest` (tokens still to be served) plus `badTail` (whether the
generator raises after `rest` is exhausted); `text` is the input the
generator closed over. -/
structure TokenContext where
  current_token : Option (Token SpecTokens) := none
  next_token : Option (Token SpecTokens) := none
  pushed_tokens : List (Option (Token SpecTokens)) := []
  rest : List (Token SpecTokens) := []
  badTail : Bool := false
  text : String := ""
deriving DecidableEq, Repr

/-- `TokenContext.advance`: move `next_token` into `current_token` and
refill `next_token` from the pushback stack, else from the stream (raising
the stream's tokenization error where the generator would). -/
def TokenContext.advance (ctx : TokenContext) : Except ParseErr TokenContext :=
  let ctx := { ctx with current_token := ctx.next_token }
  match ctx.pushed_tokens with
  | t :: ts => .ok { ctx with next_token := t, pushed_tokens := ts }
  | [] =>
    match ctx.rest with
    | t :: ts => .ok { ctx with next_token := some t, rest := ts }
    | [] =>
      if ctx.badTail then .error (.tokenization (tokenizeRaw ctx.text) ctx.text)
      else .ok { ctx with next_token := none }

/-- `TokenContext.accept`. -/
def TokenContext.accept (ctx : TokenContext) (kind : SpecTokens) :
    Except ParseErr (Bool × TokenContext) :=
  match ctx.next_token with
  | some t =>
    if t.kind = kind then (ctx.advance).map (fun c => (true, c)) else .ok (false, ctx)
  | none => .ok (false, ctx)

/-- `TokenContext.push_front`. -/
def TokenContext.push_front (ctx : TokenContext) (token : Token SpecTokens) : TokenContext :=
  { ctx with pushed_tokens := ctx.next_token :: ctx.pushed_tokens, next_token := some token }

/-- `TokenContext.expect`. -/
def TokenContext.expect (ctx : TokenContext) (kinds : List SpecTokens) : Bool :=
  match ctx.next_token with
  | some t => kinds.contains t.kind
  | none => false

/-- `TokenContext.__init__` on `parseable_tokens(text)` (ends with one
`advance`). -/
def TokenContext.init (text : String) : Except ParseErr TokenContext :=
  let raw := tokenizeRaw text
  let good := (raw.takeWhile (fun t => t.kind ≠ SpecTokens.UNEXPECTED)).filter
    (fun t => t.kind ≠ SpecTokens.WS)
  TokenContext.advance
    { rest := good, badTail := raw.any (fun t => t.kind = SpecTokens.UNEXPECTED), text := text }

/-- The `value` of the current token; only used directly after a successful
`accept`, where the current token exists. -/
def TokenContext.currentValue (ctx : TokenContext) : String :=
  match ctx.current_token with
  | some t => t.value
  | none => ""

/-! ## The parsers -/

/-- `parse_virtual_assignment(context)`: read the subvalues of the current
token; when present, split the comma-separated virtuals, synthesize a
package-name token for the substitute (dotted names become fully
qualified) positioned at its offset inside the token value, push it onto
the stream, and return the virtuals. -/
def parse_virtual_assignment (ctx : TokenContext) :
    Except ParseErr (List String × TokenContext) :=
  match ctx.current_token with
  | none => .error .assertionError
  | some tok =>
    match tok.subvalues with
    | none => .ok ([], ctx)
    | some sv =>
      let pkg := sv.substitute
      let token_type : SpecTokens :=
        if pkg.data.contains '.' then .FULLY_QUALIFIED_PACKAGE_NAME
        else .UNQUALIFIED_PACKAGE_NAME
      let start := firstIndexOfSub tok.value.data pkg.data
      let token : Token SpecTokens :=
        { kind := token_type, value := pkg, start := start, endPos := start + pkg.length }
      .ok (strSplit sv.virtuals ',', ctx.push_front token)

/-- The body of the `while True` loop of `SpecNodeParser.parse`: attempt, in
source order, version kinds, bool variants, propagated bool variants,
key-value pairs, propagated key-value pairs and the hash reference,
applying each accepted clause to the node.  `last_compiler` is initialized
to `None` by the source and never assigned, so `warn_if_after_compiler`
never fires; it is carried here verbatim.  Fuel bounds the iteration count
(each iteration consumes a token; entry points pass more than the token
count). -/
def nodeLoop (literal : String) : Nat → TokenContext → Spec → Bool → Option String →
    List String → Except ParseErr (Spec × List String × TokenContext)
  | 0, _, _, _, _, _ => .error .outOfFuel
  | fuel + 1, ctx, spec, has_version, last_compiler, warnings => do
    let warnIfAfterCompiler (tok : String) (ws : List String) : List String :=
      match last_compiler with
      | some lc => ws ++ ["`" ++ tok ++ "` should go before `" ++ lc ++ "`"]
      | none => ws
    let (okV, ctx) ← ctx.accept .VERSION_HASH_PAIR
    let (okV, ctx) ← if okV then pure (true, ctx) else ctx.accept .GIT_VERSION
    let (okV, ctx) ← if okV then pure (true, ctx) else ctx.accept .VERSION
    if okV then
      if has_version then
        .error (.parsing "Spec cannot have multiple versions" ctx.current_token literal)
      else
        let v := ctx.currentValue
        let spec := spec.withCore (fun c => { c with versions := [(v.data.drop 1).asString] })
        nodeLoop literal fuel ctx spec true last_compiler
          (warnIfAfterCompiler v warnings)
    else do
    let (okB, ctx) ← ctx.accept .BOOL_VARIANT
    if okB then
      let v := ctx.currentValue
      let name := strStripWs (v.data.drop 1).asString
      let variant_value := v.data.head? = some '+'
      let spec := spec.addFlag
        { name := name, value := .bool variant_value, propagate := false, concrete := true }
      nodeLoop literal fuel ctx spec has_version last_compiler
        (warnIfAfterCompiler v warnings)
    else do
    let (okP, ctx) ← ctx.accept .PROPAGATED_BOOL_VARIANT
    if okP then
      let v := ctx.currentValue
      let name := strStripWs (v.data.drop 2).asString
      let variant_value := v.data.take 2 = ['+', '+']
      let spec := spec.addFlag
        { name := name, value := .bool variant_value, propagate := true, concrete := true }
      nodeLoop literal fuel ctx spec has_version last_compiler
        (warnIfAfterCompiler v warnings)
    else do
    let (okK, ctx) ← ctx.accept .KEY_VALUE_PAIR
    if okK then
      let v := ctx.currentValue
      match strSplitOnce v "=" with
      | none => .error (.valueError "not enough values to unpack")
      | some (name, value) =>
        let concrete := name.data.getLast? = some ':'
        let name := if concrete then name.data.dropLast.asString else name
        let spec := spec.addFlag
          { name := name, value := .str (strip_quotes_and_unescape value),
            propagate := false, concrete := concrete }
        nodeLoop literal fuel ctx spec has_version last_compiler
          (warnIfAfterCompiler v warnings)
    else do
    let (okPK, ctx) ← ctx.accept .PROPAGATED_KEY_VALUE_PAIR
    if okPK then
      let v := ctx.currentValue
      match strSplitOnce v "==" with
      | none => .error (.valueError "not enough values to unpack")
      | some (name, value) =>
        let concrete := name.data.getLast? = some ':'
        let name := if concrete then name.data.dropLast.asString else name
        let spec := spec.addFlag
          { name := name, value := .str (strip_quotes_and_unescape value),
            propagate := true, concrete := concrete }
        nodeLoop literal fuel ctx spec has_version last_compiler
          (warnIfAfterCompiler v warnings)
    else
    if ctx.expect [.DAG_HASH] then
      if (spec.core.abstract_hash).isSome then .ok (spec, warnings, ctx)
      else do
        let (_, ctx) ← ctx.accept .DAG_HASH
        let v := ctx.currentValue
        let spec := spec.withCore (fun c => { c with abstract_hash := some (v.data.drop 1).asString })
        nodeLoop literal fuel ctx spec has_version last_compiler
          (warnIfAfterCompiler v warnings)
    else
      .ok (spec, warnings, ctx)

/-- `SpecNodeParser.parse(initial_spec, root)`: in this source the node is
created *before* the empty-stream / dependency-sigil early return, so the
function always yields a spec (the `dependency is None` check in
`SpecParser._parse_node` can never fire); a leading unqualified name sets
`name` unless it is `*`, a dotted name splits into namespace and name, and
a filename token delegates to the file-reference parser (modelled from the
spec: file loading is filesystem I/O (§4.6), represented here by its
distinguished missing-file outcome).  The `root` flag is accepted and, as
in the source, never read. -/
def nodeParse (literal : String) (fuel : Nat) (ctx : TokenContext)
    (initial_spec : Option Spec) (root : Bool) :
    Except ParseErr (Spec × List String × TokenContext) := do
  let spec := initial_spec.getD Spec.empty
  if ctx.next_token = none || ctx.expect [.DEPENDENCY] then
    .ok (spec, [], ctx)
  else do
    let (ok1, ctx) ← ctx.accept .UNQUALIFIED_PACKAGE_NAME
    if ok1 then
      let spec := if ctx.currentValue ≠ "*" then
          spec.withCore (fun c => { c with name := some ctx.currentValue })
        else spec
      nodeLoop literal fuel ctx spec false none []
    else do
    let (ok2, ctx) ← ctx.accept .FULLY_QUALIFIED_PACKAGE_NAME
    if ok2 then
      let parts := strSplit ctx.currentValue '.'
      let name := (parts.getLast?).getD ""
      let namespc := String.intercalate "." parts.dropLast
      let spec := spec.withCore (fun c => { c with name := some name, namespc := some namespc })
      nodeLoop literal fuel ctx spec false none []
    else do
    let (ok3, ctx) ← ctx.accept .FILENAME
    if ok3 then
      .error (.noSuchSpecFile ctx.currentValue)
    else
      nodeLoop literal fuel ctx spec false none []

/-- Modelled from the spec: `spack.deptypes.canonicalize` turns the
dependency-type names into the bitset `depflag` (§3: "bitset of
dependency-type categories"); the concrete bit values are internal to the
external module and no claim depends on them. -/
def deptypesCanonicalize (l : List String) : Nat :=
  l.foldl (fun acc s =>
    acc ||| (if s = "build" then 1 else if s = "link" then 2 else if s = "run" then 4
      else if s = "test" then 8 else if s = "all" then 15 else 0)) 0

/-- The accumulated `attributes` dictionary of `EdgeAttributeParser.parse`
(only the three accepted keys can persist, since any other key raises
immediately after insertion). -/
structure EdgeAttrs where
  deptypes : Option (List String) := none
  virtuals : Option (List String) := none
  whenStr : Option (List String) := none
deriving DecidableEq, Repr

/-- The edge properties passed to `Spec._add_dependency`. -/
structure EdgeProps where
  direct : Bool := false
  virtuals : List String := []
  depflag : Nat := 0
  cond : Option Spec := none

/-- The `while True` loop of `EdgeAttributeParser.parse`: accept key-value
pairs (`deptypes`, `virtuals`, `when`; anything else raises), then the
closing bracket, whose inline virtual assignment extends the `virtuals`
entry. -/
def edgeAttrLoop (literal : String) : Nat → TokenContext → EdgeAttrs →
    Except ParseErr (EdgeAttrs × TokenContext)
  | 0, _, _ => .error .outOfFuel
  | fuel + 1, ctx, attrs => do
    let (okK, ctx) ← ctx.accept .KEY_VALUE_PAIR
    if okK then
      let v := ctx.currentValue
      match strSplitOnce v "=" with
      | none => .error (.valueError "not enough values to unpack")
      | some (name, value) =>
        let name := if name.data.getLast? = some ':' then name.data.dropLast.asString else name
        let value := (splitOnChar ',' (stripChars ['\'', '"', ' '] value.data)).map List.asString
        if name = "deptypes" then
          edgeAttrLoop literal fuel ctx { attrs with deptypes := some value }
        else if name = "virtuals" then
          edgeAttrLoop literal fuel ctx { attrs with virtuals := some value }
        else if name = "when" then
          edgeAttrLoop literal fuel ctx { attrs with whenStr := some value }
        else
          .error (.parsing
            ("the only edge attributes that are currently accepted " ++
              "are \"deptypes\", \"virtuals\", and \"when\"")
            ctx.current_token literal)
    else do
    let (okE, ctx) ← ctx.accept .END_EDGE_PROPERTIES
    if okE then do
      let (va, ctx) ← parse_virtual_assignment ctx
      .ok ({ attrs with virtuals := some ((attrs.virtuals).getD [] ++ va) }, ctx)
    else
      .error (.parsing "unexpected token in edge attributes" ctx.next_token literal)

/-- `EdgeAttributeParser.parse`: run the attribute loop, then canonicalize
`deptypes` into `depflag` and parse the `when` condition through the
top-level single-spec entry point (`parseOne`). -/
def edgeAttributes (parseOne : String → Except ParseErr Spec) (literal : String)
    (fuel : Nat) (ctx : TokenContext) : Except ParseErr (EdgeProps × TokenContext) := do
  let (attrs, ctx) ← edgeAttrLoop literal fuel ctx {}
  let depflag := match attrs.deptypes with
    | some l => deptypesCanonicalize l
    | none => 0
  match attrs.whenStr with
  | some l =>
    match l with
    | w :: _ => do
      let cond ← parseOne w
      .ok ({ virtuals := (attrs.virtuals).getD [], depflag := depflag, cond := some cond }, ctx)
    | [] => .error (.valueError "list index out of range")
  | none =>
    .ok ({ virtuals := (attrs.virtuals).getD [], depflag := depflag, cond := none }, ctx)

/-- The target of `add_dependency` in `SpecParser.next_spec`: `current_spec`
is either the root itself or the same object as the child of the last edge
appended to the root (a non-direct sigil makes the fresh dependency the
current spec and appends it to the root), so mutating the current spec
rewrites that child in place.  This helper performs the append through
that aliasing. -/
def addEdgeToCurrent (root : Spec) (curIsRoot : Bool) (edge : EdgeOf Spec) : Spec :=
  if curIsRoot then root.addEdge edge
  else
    match root.edges.getLast? with
    | some last =>
      Spec.mk root.core (root.edges.dropLast ++ [{ last with child := last.child.addEdge edge }])
    | none => root.addEdge edge

/-- Modelled from the spec: the `LEGACY_COMPILER_TO_BUILTIN` alias table of
`spack.aliases` (§4.4: a direct edge whose resolved node name matches a
known legacy compiler alias is rewritten to the built-in package name).
The table lives outside the sources under verification, so it is a
parameter of the parser entry points; the claims instantiate it empty. -/
def applyLegacyAlias (aliases : List (String × String)) (dep : Spec) : Spec :=
  match dep.core.name with
  | some n =>
    match aliases.lookup n with
    | some builtin => dep.withCore (fun c => { c with name := some builtin })
    | none => dep
  | none => dep

/-- The `while True` dependency loop of `SpecParser.next_spec`: bracketed
edge attributes (`^[...]`/`%[...]`) or a bare dependency sigil, each
followed by a node; a direct sigil attaches to the current spec (with the
legacy compiler-alias rewrite), a non-direct sigil appends to the root and
becomes the new current spec.  A direct sigil with no virtual assignment
looks the next token's value up among the toolchain names — reading
`.value` off a missing next token, as the source does, raises
`AttributeError`.  The toolchain-expansion call itself is outside the
modelled scope (`ParseErr.toolchainExpansion`); the claims run with no
toolchains configured, where that call is unreachable. -/
def depLoop (parseOne : String → Except ParseErr Spec) (toolchains : List String)
    (aliases : List (String × String)) (literal : String) :
    Nat → TokenContext → Spec → Bool → List String →
    Except ParseErr (Spec × List String × TokenContext)
  | 0, _, _, _, _ => .error .outOfFuel
  | fuel + 1, ctx, root, curIsRoot, warnings => do
    let (okS, ctx) ← ctx.accept .START_EDGE_PROPERTIES
    if okS then do
      let is_direct := ctx.currentValue.data.head? = some '%'
      let (props, ctx) ← edgeAttributes parseOne literal fuel ctx
      let (dep, warns, ctx) ← nodeParse literal fuel ctx none true
      if root.core.concrete then .error (.specError "spec is already concrete")
      else
        let props := { props with direct := is_direct }
        if is_direct then
          let dep := applyLegacyAlias aliases dep
          let root := addEdgeToCurrent root curIsRoot
            { child := dep, direct := props.direct, virtuals := props.virtuals,
              depflag := props.depflag, cond := props.cond }
          depLoop parseOne toolchains aliases literal fuel ctx root curIsRoot
            (warnings ++ warns)
        else
          let root := root.addEdge
            { child := dep, direct := props.direct, virtuals := props.virtuals,
              depflag := props.depflag, cond := props.cond }
          depLoop parseOne toolchains aliases literal fuel ctx root false
            (warnings ++ warns)
    else do
    let (okD, ctx) ← ctx.accept .DEPENDENCY
    if okD then do
      let is_direct := ctx.currentValue.data.head? = some '%'
      let (virtuals, ctx) ← parse_virtual_assignment ctx
      if virtuals.isEmpty && is_direct then
        match ctx.next_token with
        | none => .error .attributeError
        | some t =>
          if toolchains.contains t.value then do
            let (okU, ctx) ← ctx.accept .UNQUALIFIED_PACKAGE_NAME
            if okU then .error (.toolchainExpansion ctx.currentValue)
            else .error .assertionError
          else do
            let (dep, warns, ctx) ← nodeParse literal fuel ctx none true
            if root.core.concrete then .error (.specError "spec is already concrete")
            else
              let dep := applyLegacyAlias aliases dep
              let root := addEdgeToCurrent root curIsRoot
                { child := dep, direct := is_direct, virtuals := virtuals,
                  depflag := 0, cond := none }
              depLoop parseOne toolchains aliases literal fuel ctx root curIsRoot
                (warnings ++ warns)
      else do
        let (dep, warns, ctx) ← nodeParse literal fuel ctx none true
        if root.core.concrete then .error (.specError "spec is already concrete")
        else
          if is_direct then
            let dep := applyLegacyAlias aliases dep
            let root := addEdgeToCurrent root curIsRoot
              { child := dep, direct := is_direct, virtuals := virtuals,
                depflag := 0, cond := none }
            depLoop parseOne toolchains aliases literal fuel ctx root curIsRoot
              (warnings ++ warns)
          else
            let root := root.addEdge
              { child := dep, direct := is_direct, virtuals := virtuals,
                depflag := 0, cond := none }
            depLoop parseOne toolchains aliases literal fuel ctx root false
              (warnings ++ warns)
    else
      .ok (root, warnings, ctx)

/-- `SpecParser.next_spec(initial_spec)`: parse the root node, then run the
dependency loop.  The queued parser warnings are returned to the caller
(the source hands them to `_warn_about_variant_after_compiler`, which
surfaces them through the warnings machinery rather than raising). -/
def nextSpec (parseOne : String → Except ParseErr Spec) (toolchains : List String)
    (aliases : List (String × String)) (literal : String) (fuel : Nat)
    (ctx : TokenContext) (initial_spec : Option Spec) :
    Except ParseErr (Option Spec × List String × TokenContext) :=
  if ctx.next_token = none then .ok (initial_spec, [], ctx)
  else do
    let initial := initial_spec.getD Spec.empty
    let (root, warnings, ctx) ← nodeParse literal fuel ctx (some initial) true
    let (root, warnings, ctx) ←
      depLoop parseOne toolchains aliases literal fuel ctx root true warnings
    .ok (some root, warnings, ctx)

/-- One level of `parse_one_or_raise(text, initial_spec)`: build the parser
(whose `TokenContext` construction can already raise the tokenization
error), run `next_spec`, and raise `ValueError` if tokens remain or no
spec was produced.  The trailing-token message carries the caret underline
(color markup elided — modelled from the spec, §7). -/
def parseOneLevel (parseOne : String → Except ParseErr Spec) (toolchains : List String)
    (aliases : List (String × String)) (text : String) (initial_spec : Option Spec) :
    Except ParseErr Spec := do
  let ctx ← TokenContext.init text
  let fuel := ctx.rest.length + 3
  let (result, _warnings, ctx) ←
    nextSpec parseOne toolchains aliases text fuel ctx initial_spec
  match ctx.next_token with
  | some t =>
    .error (.valueError ("expected a single spec, but got more:\n" ++ text ++ "\n" ++
      (List.replicate t.start ' ').asString ++ (List.replicate t.value.length '^').asString))
  | none =>
    match result with
    | none => .error (.valueError "expected a single spec, but got none")
    | some r => .ok r

/-- `parse_one_or_raise` stratified by the depth of recursive single-spec
parses (`when=` edge conditions re-enter the entry point on a strictly
shorter string, so the input length bounds the depth). -/
def parseOneDepth (toolchains : List String) (aliases : List (String × String)) :
    Nat → String → Option Spec → Except ParseErr Spec
  | 0, _, _ => .error .outOfFuel
  | d + 1, text, initial =>
    parseOneLevel (fun t => parseOneDepth toolchains aliases d t none)
      toolchains aliases text initial

/-- `parse_one_or_raise(text, initial_spec)` from `spec_parser.py`. -/
def parse_one_or_raise (toolchains : List String) (aliases : List (String × String))
    (text : String) (initial_spec : Option Spec := none) : Except ParseErr Spec :=
  parseOneDepth toolchains aliases (text.data.length + 1) text initial_spec

/-- `SpecParser(text).next_spec()` — the single-spec parse step with its
queued warnings and final cursor, as observed by a caller of `next_spec`. -/
def parseNextSpec (toolchains : List String) (aliases : List (String × String))
    (text : String) : Except ParseErr (Option Spec × List String × TokenContext) := do
  let ctx ← TokenContext.init text
  nextSpec (fun t => parseOneDepth toolchains aliases (t.data.length + 1) t none)
    toolchains aliases text (ctx.rest.length + 3) ctx none

/-! ## The legacy spec-string rewriter (`cmd/style.py`) -/

def isLegacyCompilerKind (k : LegacyTokens) : Bool :=
  k = .COMPILER || k = .COMPILER_AND_VERSION

def isLegacyBlockStartKind (k : LegacyTokens) : Bool :=
  k = .START_EDGE_PROPERTIES || k = .DEPENDENCY ||
    k = .UNQUALIFIED_PACKAGE_NAME || k = .FULLY_QUALIFIED_PACKAGE_NAME

def isLegacyClauseKind (k : LegacyTokens) : Bool :=
  k = .VERSION_HASH_PAIR || k = .GIT_VERSION || k = .VERSION ||
    k = .PROPAGATED_BOOL_VARIANT || k = .BOOL_VARIANT ||
    k = .PROPAGATED_KEY_VALUE_PAIR || k = .KEY_VALUE_PAIR || k = .DAG_HASH

/-- `_spec_str_reorder_compiler(idx, blocks)`: move the compiler block at
`idx` (`-1` when absent) to the back — unless it is missing, already last,
or only whitespace follows it — prefixing it with a whitespace token when
needed and trimming leading whitespace tokens from the new first block
when the compiler block was first.  (The source trims with a `while` loop
that indexes `blocks[0][0]`; in every state the loop reaches, the first
block holds a non-whitespace token, so a `dropWhile` is the same.) -/
def specStrReorderCompiler (idx : Int) (blocks : List (List (Token LegacyTokens))) :
    List (List (Token LegacyTokens)) :=
  if ¬ (0 ≤ idx ∧ idx < (blocks.length : Int) - 1) then blocks
  else
    let i := idx.toNat
    if (blocks.drop (i + 1)).all (fun b => b.all (fun t => t.kind = .WS)) then blocks
    else
      let compiler_block := (blocks.getD i [])
      let blocks := blocks.eraseIdx i
      let compiler_block :=
        if (compiler_block.head?).map Token.kind ≠ some .WS then
          ({ kind := .WS, value := " " } : Token LegacyTokens) :: compiler_block
        else compiler_block
      let blocks :=
        if i = 0 then
          match blocks with
          | b :: bs => (b.dropWhile (fun t => t.kind = .WS)) :: bs
          | [] => []
        else blocks
      blocks ++ [compiler_block]

/-- The token loop of `_spec_str_format`: gather tokens into blocks (each
block is a clause with its leading whitespace), remembering the compiler
block's index; an unexpected token or a second compiler clause in the same
node aborts with "no change" (`none`); a token kind with no branch — only
`FILENAME` outside an edge-attribute block — raises `ValueError`. -/
def legacyFormatLoop : List (Token LegacyTokens) → List (List (Token LegacyTokens)) →
    List (Token LegacyTokens) → Int → Bool →
    Except ParseErr (Option (List (List (Token LegacyTokens)) × Int))
  | [], blocks, current, idx, _ =>
    .ok (some (if current ≠ [] then blocks ++ [current] else blocks, idx))
  | t :: rest, blocks, current, idx, inEdge =>
    if t.kind = .UNEXPECTED then .ok none
    else if isLegacyCompilerKind t.kind then
      if idx ≠ -1 then .ok none
      else legacyFormatLoop rest (blocks ++ [current ++ [t]]) [] ((blocks.length : Int)) inEdge
    else if isLegacyBlockStartKind t.kind then
      let blocks := specStrReorderCompiler idx blocks
      legacyFormatLoop rest (blocks ++ [current ++ [t]]) [] (-1)
        (if t.kind = .START_EDGE_PROPERTIES then true else inEdge)
    else if t.kind = .END_EDGE_PROPERTIES then
      legacyFormatLoop rest (blocks ++ [current ++ [t]]) [] idx false
    else if inEdge then
      legacyFormatLoop rest blocks (current ++ [t]) idx inEdge
    else if isLegacyClauseKind t.kind then
      legacyFormatLoop rest (blocks ++ [current ++ [t]]) [] idx inEdge
    else if t.kind = .WS then
      legacyFormatLoop rest blocks (current ++ [t]) idx inEdge
    else
      .error (.valueError ("unexpected token " ++ t.value))

/-- `_spec_str_format(spec_str)`: tokenize under the legacy table, rotate
the compiler block of each node to the back, and return the rewritten
string only when it differs from the input (`none` means "no change").
`.error` is the raised `ValueError`. -/
def specStrFormat (spec_str : String) : Except ParseErr (Option String) := do
  match ← legacyFormatLoop (legacyTokenizeRaw spec_str) [] [] (-1) false with
  | none => .ok none
  | some (blocks, idx) =>
    let blocks := specStrReorderCompiler idx blocks
    let new := ((blocks.flatMap id).map (fun t => t.value.data)).flatten.asString
    .ok (if spec_str ≠ new then some new else none)

/-! ## Output quoting (`quote_if_needed`) -/

/-- The test `NO_QUOTES_NEEDED.match(value)`: `^[a-zA-Z0-9,/_.\-\[\]]+$`
matches when the whole value is made of safe characters, where the
trailing `$` also tolerates one final newline. -/
def noQuotesNeeded (s : String) : Bool :=
  (s.data ≠ [] && s.data.all isNoQuoteChar) ||
    (s.data.getLast? = some '\n' && s.data.dropLast ≠ [] && s.data.dropLast.all isNoQuoteChar)

def hexDigit (n : Nat) : Char :=
  if n < 10 then Char.ofNat ('0'.toNat + n) else Char.ofNat ('a'.toNat + (n - 10))

def hex4 (n : Nat) : List Char :=
  [hexDigit (n / 4096 % 16), hexDigit (n / 256 % 16), hexDigit (n / 16 % 16), hexDigit (n % 16)]

/-- Modelled from the spec: `json.dumps` on a string (§6: "double quotes
with JSON-style escaping" — escape `\\`, `"`, and control codes); the
Python default `ensure_ascii=True` also escapes non-ASCII characters as
`\uXXXX` (surrogate pairs beyond the basic plane). -/
def jsonEscapeChar (c : Char) : List Char :=
  if c = '"' then ['\\', '"']
  else if c = '\\' then ['\\', '\\']
  else if c = '\n' then ['\\', 'n']
  else if c = '\t' then ['\\', 't']
  else if c = '\r' then ['\\', 'r']
  else if c.toNat = 8 then ['\\', 'b']
  else if c.toNat = 12 then ['\\', 'f']
  else if c.toNat < 32 then '\\' :: 'u' :: hex4 c.toNat
  else if c.toNat < 127 then [c]
  else if c.toNat ≤ 65535 then '\\' :: 'u' :: hex4 c.toNat
  else
    ('\\' :: 'u' :: hex4 (55296 + (c.toNat - 65536) / 1024)) ++
      ('\\' :: 'u' :: hex4 (56320 + (c.toNat - 65536) % 1024))

def jsonDumps (s : String) : String :=
  ('"' :: (s.data.flatMap jsonEscapeChar) ++ ['"']).asString

/-- `quote_if_needed(value)` from `spec_parser.py`: emit unquoted when the
value matches `NO_QUOTES_NEEDED`, else single-quoted, or JSON
double-quoted when the value contains a single quote. -/
def quote_if_needed (value : String) : String :=
  if noQuotesNeeded value then value
  else if value.data.contains '\'' then jsonDumps value
  else "'" ++ value ++ "'"

/-! ## The checked tokenizer entry point and error rendering -/

/-- `tokenize(text)` from `spec_parser.py`: yield the raw tokens, raising
`SpecTokenizationError` (built from the full raw token list and the text)
as soon as an `UNEXPECTED` token appears; as a function it errors exactly
when the raw stream contains an unexpected token. -/
def tokenize (text : String) : Except ParseErr (List (Token SpecTokens)) :=
  let raw := tokenizeRaw text
  if raw.any (fun t => t.kind = SpecTokens.UNEXPECTED) then .error (.tokenization raw text)
  else .ok raw

/-- The underline built by `SpecTokenizationError.__init__`: for each token,
`(end - start)` copies of `^` when the token is unexpected, of a space
otherwise. -/
def underlineOf (tokens : List (Token SpecTokens)) : List Char :=
  tokens.flatMap (fun t =>
    List.replicate (t.endPos - t.start)
      (if t.kind = SpecTokens.UNEXPECTED then '^' else ' '))

/-- The message of `SpecTokenizationError` (color markup elided — modelled
from the spec, §7): header, the input line, and the caret underline. -/
def specTokenizationErrorMessage (tokens : List (Token SpecTokens)) (text : String) :
    String :=
  "unexpected characters in the spec string\n" ++ text ++ "\n" ++ (underlineOf tokens).asString

/-- The message of `SpecParsingError` (color markup elided — modelled from
the spec, §7): the message, the input text, and a caret underline under
the anchor token's span. -/
def specParsingErrorMessage (message : String) (token : Option (Token SpecTokens))
    (text : String) : String :=
  message ++ "\n" ++ text ++
    (match token with
     | some t =>
       "\n" ++ (List.replicate t.start ' ').asString ++
         (List.replicate (t.endPos - t.start) '^').asString
     | none => "")

/-- Tokens laid out contiguously from an offset: each token starts where
told and ends no earlier than it starts, and the next one starts at its
end.  The tokenizer produces contiguous tokens. -/
def Contig {κ : Type} : Nat → List (Token κ) → Prop
  | _, [] => True
  | pos, t :: rest => t.start = pos ∧ t.start ≤ t.endPos ∧ Contig t.endPos rest

/-- The tokens a cursor can still serve, in order: the lookahead, then the
pushback stack (whose `none` entries serve as stream gaps and vanish when
popped), then the underlying stream. -/
def TokenContext.availTokens (ctx : TokenContext) : List (Token SpecTokens) :=
  ctx.next_token.toList ++ ctx.pushed_tokens.filterMap id ++ ctx.rest

/-- The token kinds the node parser reads as a version clause
(`VERSION_HASH_PAIR`, `GIT_VERSION`, `VERSION`). -/
def versionKind (t : Token SpecTokens) : Bool :=
  t.kind = SpecTokens.VERSION_HASH_PAIR || t.kind = SpecTokens.GIT_VERSION ||
    t.kind = SpecTokens.VERSION

theorem runLen_le (p : Char → Bool) (cs : List Char) : runLen p cs ≤ cs.length := by
  induction cs with
  | nil => simp [runLen]
  | cons c cs ih =>
    unfold runLen at ih ⊢
    by_cases h : p c
    · simpa [List.takeWhile, h] using ih
    · simp [List.takeWhile, h]

/-! ## Matcher bounds

Every token matcher consumes at least one and at most all of the input
characters; these bounds make the tokenizer total and the token spans tile
the input. -/

theorem matchId_pos {cs : List Char} {n : Nat} (h : matchId cs = some n) : 1 ≤ n := by
  cases cs with
  | nil => simp [matchId] at h
  | cons c rest =>
    simp only [matchId] at h
    split at h
    · injection h with h
      omega
    · exact absurd h (by simp)

theorem matchId_le {cs : List Char} {n : Nat} (h : matchId cs = some n) : n ≤ cs.length := by
  cases cs with
  | nil => simp [matchId] at h
  | cons c rest =>
    simp only [matchId] at h
    split at h
    · injection h with h
      have := runLen_le isIdChar rest
      simp only [List.length_cons]
      omega
    · exact absurd h (by simp)

theorem matchName_pos {cs : List Char} {n : Nat} (h : matchName cs = some n) : 1 ≤ n := by
  cases cs with
  | nil => simp [matchName] at h
  | cons c rest =>
    simp only [matchName] at h
    split at h
    · injection h with h
      omega
    · exact absurd h (by simp)

theorem matchName_le {cs : List Char} {n : Nat} (h : matchName cs = some n) :
    n ≤ cs.length := by
  cases cs with
  | nil => simp [matchName] at h
  | cons c rest =>
    simp only [matchName] at h
    split at h
    · injection h with h
      have := runLen_le isNameChar rest
      simp only [List.length_cons]
      omega
    · exact absurd h (by simp)

theorem dottedTailAux_le (fuel : Nat) (cs : List Char) :
    (dottedTailAux fuel cs).1 ≤ cs.length := by
  induction fuel generalizing cs with
  | zero => simp [dottedTailAux]
  | succ fuel ih =>
    unfold dottedTailAux
    split
    · next rest =>
      split
      · next n hm =>
        have h1 := matchId_le hm
        have h2 := ih (rest.drop n)
        have h3 : (rest.drop n).length = rest.length - n := List.length_drop n rest
        simp only [List.length_cons]
        omega
      · simp
    · simp

theorem matchDottedId_le {cs : List Char} {n : Nat} (h : matchDottedId cs = some n) :
    n ≤ cs.length := by
  unfold matchDottedId at h
  split at h
  · exact absurd h (by simp)
  · next m hm =>
    split at h
    next extra groups heq =>
    split at h
    · exact absurd h (by simp)
    · injection h with h
      have h1 := matchId_le hm
      have h2 := dottedTailAux_le (cs.drop m).length (cs.drop m)
      have h3 : (cs.drop m).length = cs.length - m := List.length_drop m cs
      have h4 : extra = (dottedTail (cs.drop m)).1 := by rw [heq]
      unfold dottedTail at h4
      omega

theorem matchDottedId_pos {cs : List Char} {n : Nat} (h : matchDottedId cs = some n) :
    1 ≤ n := by
  unfold matchDottedId at h
  split at h
  · exact absurd h (by simp)
  · next m hm =>
    split at h
    next extra groups heq =>
    split at h
    · exact absurd h (by simp)
    · injection h with h
      have h1 := matchId_pos hm
      omega

theorem commaIdTailAux_le (fuel : Nat) (cs : List Char) :
    commaIdTailAux fuel cs ≤ cs.length := by
  induction fuel generalizing cs with
  | zero => simp [commaIdTailAux]
  | succ fuel ih =>
    unfold commaIdTailAux
    split
    · next rest =>
      split
      · next n hm =>
        have h1 := matchId_le hm
        have h2 := ih (rest.drop n)
        have h3 : (rest.drop n).length = rest.length - n := List.length_drop n rest
        simp only [List.length_cons]
        omega
      · simp
    · simp

theorem subMatch_le {sub : List Char} {slen : Nat}
    (hs : (matchDottedId sub <|> matchId sub) = some slen) : slen ≤ sub.length := by
  cases hd : matchDottedId sub with
  | some k =>
    rw [hd] at hs
    simp at hs
    exact hs ▸ matchDottedId_le hd
  | none =>
    rw [hd] at hs
    simp at hs
    exact matchId_le hs

theorem subMatch_pos {sub : List Char} {slen : Nat}
    (hs : (matchDottedId sub <|> matchId sub) = some slen) : 1 ≤ slen := by
  cases hd : matchDottedId sub with
  | some k =>
    rw [hd] at hs
    simp at hs
    exact hs ▸ matchDottedId_pos hd
  | none =>
    rw [hd] at hs
    simp at hs
    exact matchId_pos hs

theorem matchVirtualAssignment_le {cs : List Char} {n : Nat} {sv : Subvalues}
    (h : matchVirtualAssignment cs = some (n, sv)) : n ≤ cs.length := by
  simp only [matchVirtualAssignment] at h
  split at h
  · exact absurd h (by simp)
  · next m hm =>
    split at h
    · next sub hd =>
      split at h
      · next slen hs =>
        injection h with h
        have hn := congrArg Prod.fst h
        simp only at hn
        have h1 := matchId_le hm
        have h2 := commaIdTailAux_le (cs.drop m).length (cs.drop m)
        have h3 : (cs.drop m).length = cs.length - m := List.length_drop m cs
        have h4 := subMatch_le hs
        have h5 := congrArg List.length hd
        rw [List.length_drop] at h5
        simp only [List.length_cons] at h5
        unfold commaIdTail at hn h5
        omega
      · exact absurd h (by simp)
    · exact absurd h (by simp)

theorem versionStops_mem {cs : List Char} {k : Nat} (h : k ∈ versionStops cs) :
    1 ≤ k ∧ k ≤ cs.length := by
  simp only [versionStops] at h
  generalize hE : (if cs.head? = some '=' then 1 else 0) = E at h
  have hE1 : E ≤ 1 := by
    rw [← hE]; split <;> omega
  split at h
  · next c hc =>
    split at h
    · have hne : cs.drop E ≠ [] := by
        intro he
        rw [he] at hc
        exact absurd hc (by simp)
      have hlen : 1 ≤ (cs.drop E).length := List.length_pos.mpr hne
      have hdl : (cs.drop E).length = cs.length - E := List.length_drop _ _
      have hrun := runLen_le isNameChar (cs.drop E)
      simp only [List.mem_map, List.mem_filter, List.mem_reverse, List.mem_range] at h
      obtain ⟨a, ⟨⟨j, hj, rfl⟩, _⟩, rfl⟩ := h
      omega
    · exact absurd h (by simp)
  · exact absurd h (by simp)

theorem matchVersionCore_bounds {cs : List Char} {n : Nat} (h : matchVersionCore cs = some n) :
    1 ≤ n ∧ n ≤ cs.length := by
  unfold matchVersionCore at h
  cases hs : versionStops cs with
  | nil => rw [hs] at h; exact absurd h (by simp)
  | cons a rest =>
    rw [hs] at h
    simp at h
    subst h
    exact versionStops_mem (hs ▸ List.mem_cons_self a rest)

theorem rightVersionLen_le (rest : List Char) : rightVersionLen rest ≤ rest.length := by
  unfold rightVersionLen
  split
  · next r hf => exact (versionStops_mem (List.mem_of_find?_eq_some hf)).2
  · omega

theorem matchVersionRange_bounds {cs : List Char} {n : Nat}
    (h : matchVersionRange cs = some n) : 1 ≤ n ∧ n ≤ cs.length := by
  simp only [matchVersionRange] at h
  split at h
  · exact absurd h (by simp)
  · next l hl =>
    have hpl := List.find?_some hl
    have hll : l < cs.length := by
      by_contra hc
      rw [List.getD_eq_default _ _ (by omega)] at hpl
      simp at hpl
    injection h with h
    have hrr := rightVersionLen_le (cs.drop (l + 1))
    rw [List.length_drop] at hrr
    omega

theorem matchVersionItem_bounds {cs : List Char} {n : Nat}
    (h : matchVersionItem cs = some n) : 1 ≤ n ∧ n ≤ cs.length := by
  unfold matchVersionItem at h
  cases hd : matchVersionRange cs with
  | some k =>
    rw [hd] at h; simp at h
    exact h ▸ matchVersionRange_bounds hd
  | none =>
    rw [hd] at h; simp at h
    exact matchVersionCore_bounds h

theorem versionListTailAux_le (fuel : Nat) (cs : List Char) :
    versionListTailAux fuel cs ≤ cs.length := by
  induction fuel generalizing cs with
  | zero => simp [versionListTailAux]
  | succ fuel ih =>
    simp only [versionListTailAux]
    split
    · next rest hd =>
      split
      · next n hm =>
        have h1 := runLen_le isSpaceChar cs
        have h2 := runLen_le isSpaceChar rest
        have h3 := (matchVersionItem_bounds hm).2
        have h4 := ih (rest.drop (runLen isSpaceChar rest + n))
        have h5 := congrArg List.length hd
        rw [List.length_drop] at h5
        simp only [List.length_cons] at h5
        rw [List.length_drop] at h3
        rw [List.length_drop] at h4
        omega
      · simp
    · simp

theorem matchVersionList_bounds {cs : List Char} {n : Nat}
    (h : matchVersionList cs = some n) : 1 ≤ n ∧ n ≤ cs.length := by
  unfold matchVersionList at h
  split at h
  · next m hm =>
    injection h with h
    have h1 := matchVersionItem_bounds hm
    have h2 := versionListTailAux_le (cs.drop m).length (cs.drop m)
    have h3 : (cs.drop m).length = cs.length - m := List.length_drop m cs
    unfold versionListTail at h
    omega
  · exact absurd h (by simp)

theorem matchVersionToken_bounds {cs : List Char} {n : Nat}
    (h : matchVersionToken cs = some n) : 1 ≤ n ∧ n ≤ cs.length := by
  simp only [matchVersionToken] at h
  split at h
  · next rest =>
    split at h
    · next m hm =>
      injection h with h
      have h1 := runLen_le isSpaceChar rest
      have h2 := (matchVersionList_bounds hm).2
      have h3 : (rest.drop (runLen isSpaceChar rest)).length
          = rest.length - runLen isSpaceChar rest := List.length_drop _ _
      simp only [List.length_cons]
      omega
    · exact absurd h (by simp)
  · exact absurd h (by simp)

theorem matchGitVersionPattern_bounds {cs : List Char} {n : Nat}
    (h : matchGitVersionPattern cs = some n) : 1 ≤ n ∧ n ≤ cs.length := by
  simp only [matchGitVersionPattern] at h
  split at h
  · next m hm =>
    injection h with h
    subst h
    split at hm
    · next rest =>
      split at hm
      · next c tail =>
        split at hm
        · injection hm with hm
          have := runLen_le isGitRefChar tail
          simp only [List.length_cons]
          omega
        · exact absurd hm (by simp)
      · exact absurd hm (by simp)
    · exact absurd hm (by simp)
  · split at h
    · injection h with h
      next hg => exact ⟨by omega, by simp at hg; omega⟩
    · exact absurd h (by simp)

theorem matchVersionHashPair_bounds {cs : List Char} {n : Nat}
    (h : matchVersionHashPair cs = some n) : 1 ≤ n ∧ n ≤ cs.length := by
  unfold matchVersionHashPair at h
  split at h
  · next rest =>
    split at h
    · next g hg =>
      split at h
      · next vrest hv =>
        split at h
        · next v hvc =>
          injection h with h
          have h1 := (matchGitVersionPattern_bounds hg).2
          have h2 := (matchVersionCore_bounds hvc).2
          have h3 := congrArg List.length hv
          rw [List.length_drop] at h3
          simp only [List.length_cons] at h3
          simp only [List.length_cons]
          omega
        · exact absurd h (by simp)
      · exact absurd h (by simp)
    · exact absurd h (by simp)
  · exact absurd h (by simp)

theorem matchGitVersion_bounds {cs : List Char} {n : Nat}
    (h : matchGitVersion cs = some n) : 1 ≤ n ∧ n ≤ cs.length := by
  unfold matchGitVersion at h
  split at h
  · next rest =>
    split at h
    · next g hg =>
      injection h with h
      have h1 := (matchGitVersionPattern_bounds hg).2
      simp only [List.length_cons]
      omega
    · exact absurd h (by simp)
  · exact absurd h (by simp)

theorem matchPropagatedBoolVariant_bounds {cs : List Char} {n : Nat}
    (h : matchPropagatedBoolVariant cs = some n) : 1 ≤ n ∧ n ≤ cs.length := by
  simp only [matchPropagatedBoolVariant] at h
  split at h
  · next a b rest =>
    split at h
    · split at h
      · next m hm =>
        injection h with h
        have h1 := runLen_le isSpaceChar rest
        have h2 := matchName_le hm
        have h3 : (rest.drop (runLen isSpaceChar rest)).length
            = rest.length - runLen isSpaceChar rest := List.length_drop _ _
        simp only [List.length_cons]
        omega
      · exact absurd h (by simp)
    · exact absurd h (by simp)
  · exact absurd h (by simp)

theorem matchBoolVariant_bounds {cs : List Char} {n : Nat}
    (h : matchBoolVariant cs = some n) : 1 ≤ n ∧ n ≤ cs.length := by
  simp only [matchBoolVariant] at h
  split at h
  · next a rest =>
    split at h
    · split at h
      · next m hm =>
        injection h with h
        have h1 := runLen_le isSpaceChar rest
        have h2 := matchName_le hm
        have h3 : (rest.drop (runLen isSpaceChar rest)).length
            = rest.length - runLen isSpaceChar rest := List.length_drop _ _
        simp only [List.length_cons]
        omega
      · exact absurd h (by simp)
    · exact absurd h (by simp)
  · exact absurd h (by simp)

theorem quotedCloseAux_lt {q : Char} {m : Nat} :
    ∀ {cs : List Char} {prev : Char} {idx : Nat} {lastQ : Option Nat},
    (∀ j, lastQ = some j → j < idx) → quotedCloseAux q prev idx lastQ cs = some m →
    m < idx + cs.length
  | [], prev, idx, lastQ, hl, h => by
    simp only [quotedCloseAux] at h
    have := hl m h
    omega
  | c :: rest, prev, idx, lastQ, hl, h => by
    simp only [quotedCloseAux] at h
    split at h
    · injection h with h
      simp only [List.length_cons]
      omega
    · have ih := @quotedCloseAux_lt q m rest c (idx + 1)
        (if c = q then some idx else lastQ)
        (by
          intro j hj
          split at hj
          · injection hj with hj; omega
          · have := hl j hj; omega) h
      simp only [List.length_cons]
      omega

theorem matchQuotedValue_bounds {cs : List Char} {n : Nat}
    (h : matchQuotedValue cs = some n) : 1 ≤ n ∧ n ≤ cs.length := by
  unfold matchQuotedValue at h
  split at h
  · next qc rest =>
    split at h
    · split at h
      · next close hc =>
        injection h with h
        have := quotedCloseAux_lt (by intro j hj; exact absurd hj (by simp)) hc
        simp only [List.length_cons]
        omega
      · exact absurd h (by simp)
    · exact absurd h (by simp)
  · exact absurd h (by simp)

theorem matchValueOrQuoted_bounds {cs : List Char} {n : Nat}
    (h : matchValueOrQuoted cs = some n) : 1 ≤ n ∧ n ≤ cs.length := by
  simp only [matchValueOrQuoted] at h
  split at h
  · next hb =>
    injection h with h
    have := runLen_le isValueChar cs
    omega
  · exact matchQuotedValue_bounds h

theorem matchKvpWith_bounds {eqs : Nat} {cs : List Char} {n : Nat} (heqs : 1 ≤ eqs)
    (h : matchKvpWith eqs cs = some n) : 1 ≤ n ∧ n ≤ cs.length := by
  simp only [matchKvpWith] at h
  split at h
  · exact absurd h (by simp)
  · next m hm =>
    generalize hC : (if (cs.drop m).head? = some ':' then 1 else 0) = C at h
    have hC1 : C ≤ 1 := by rw [← hC]; split <;> omega
    have hCb : C ≤ (cs.drop m).length := by
      rw [← hC]
      split
      · next hcol =>
        have hne : cs.drop m ≠ [] := by
          intro he; rw [he] at hcol; exact absurd hcol (by simp)
        have := List.length_pos.mpr hne
        omega
      · omega
    split at h
    · next htake =>
      split at h
      · next v hv =>
        injection h with h
        have h1 := matchName_le hm
        have h2 := (matchValueOrQuoted_bounds hv).2
        have h3 := congrArg List.length htake
        rw [List.length_take, List.length_replicate] at h3
        have e1 : (cs.drop m).length = cs.length - m := List.length_drop _ _
        have e2 : ((cs.drop m).drop C).length = (cs.drop m).length - C :=
          List.length_drop _ _
        have e3 : (((cs.drop m).drop C).drop eqs).length
            = ((cs.drop m).drop C).length - eqs := List.length_drop _ _
        omega
      · exact absurd h (by simp)
    · exact absurd h (by simp)

theorem fnSuffixSearch_le {rest : List Char} :
    ∀ {k0 k : Nat}, fnSuffixSearch rest k0 = some k → k + 5 ≤ rest.length
  | 0, k, h => by
    simp only [fnSuffixSearch] at h
    split at h
    · next hp =>
      injection h with h
      subst h
      rw [Bool.or_eq_true, decide_eq_true_eq, decide_eq_true_eq] at hp
      rcases hp with hp | hp <;>
      · have := congrArg List.length hp
        rw [List.length_take] at this
        simp at this
        omega
    · exact absurd h (by simp)
  | k0 + 1, k, h => by
    simp only [fnSuffixSearch] at h
    split at h
    · next hp =>
      injection h with h
      subst h
      rw [Bool.or_eq_true, decide_eq_true_eq, decide_eq_true_eq] at hp
      rcases hp with hp | hp <;>
      · have := congrArg List.length hp
        rw [List.length_take, List.length_drop] at this
        simp at this
        omega
    · exact fnSuffixSearch_le h

theorem matchFilename_bounds {cs : List Char} {n : Nat}
    (h : matchFilename cs = some n) : 1 ≤ n ∧ n ≤ cs.length := by
  simp only [matchFilename] at h
  split at h
  · exact absurd h (by simp)
  · next p hp =>
    split at h
    · next k hk =>
      injection h with h
      have h1 := fnSuffixSearch_le hk
      rw [List.length_drop] at h1
      have h2 : 1 ≤ p ∧ p ≤ cs.length := by
        split at hp
        · cases hp; simp only [List.length_cons]; omega
        · cases hp; simp only [List.length_cons]; omega
        · split at hp
          · next hg =>
            cases hp
            have : runLen isFnPrefixChar cs < cs.length := by
              by_contra hc
              rw [List.getD_eq_default _ _ (by omega)] at hg
              exact absurd hg (by simp)
            omega
          · exact absurd hp (by simp)
      omega
    · exact absurd h (by simp)

theorem matchDagHash_bounds {cs : List Char} {n : Nat}
    (h : matchDagHash cs = some n) : 1 ≤ n ∧ n ≤ cs.length := by
  simp only [matchDagHash] at h
  split at h
  · next rest =>
    split at h
    · injection h with h
      have := runLen_le isWordChar rest
      simp only [List.length_cons]
      omega
    · exact absurd h (by simp)
  · exact absurd h (by simp)

theorem matchWs_bounds {cs : List Char} {n : Nat}
    (h : matchWs cs = some n) : 1 ≤ n ∧ n ≤ cs.length := by
  simp only [matchWs] at h
  split at h
  · next hr =>
    injection h with h
    have := runLen_le isSpaceChar cs
    omega
  · exact absurd h (by simp)

theorem matchUnexpected_bounds {cs : List Char} {n : Nat}
    (h : matchUnexpected cs = some n) : 1 ≤ n ∧ n ≤ cs.length := by
  unfold matchUnexpected at h
  split at h
  · next c rest =>
    injection h with h
    have := runLen_le isSpaceChar rest
    simp only [List.length_cons]
    omega
  · exact absurd h (by simp)

theorem matchStartEdgeProperties_bounds {cs : List Char} {n : Nat}
    (h : matchStartEdgeProperties cs = some n) : 1 ≤ n ∧ n ≤ cs.length := by
  unfold matchStartEdgeProperties at h
  split at h
  · split at h
    · injection h with h
      simp only [List.length_cons]
      omega
    · exact absurd h (by simp)
  · exact absurd h (by simp)

theorem matchEndEdgeProperties_bounds {cs : List Char} {n : Nat} {sv : Option Subvalues}
    (h : matchEndEdgeProperties cs = some (n, sv)) : 1 ≤ n ∧ n ≤ cs.length := by
  simp only [matchEndEdgeProperties] at h
  split at h
  · next rest =>
    split at h
    · next m sv' hm =>
      injection h with h
      have h1 := congrArg Prod.fst h
      simp only at h1
      have h2 := runLen_le isSpaceChar rest
      have h3 := matchVirtualAssignment_le hm
      rw [List.length_drop] at h3
      simp only [List.length_cons]
      omega
    · injection h with h
      have h1 := congrArg Prod.fst h
      simp only at h1
      simp only [List.length_cons]
      omega
  · exact absurd h (by simp)

theorem matchDependency_bounds {cs : List Char} {n : Nat} {sv : Option Subvalues}
    (h : matchDependency cs = some (n, sv)) : 1 ≤ n ∧ n ≤ cs.length := by
  simp only [matchDependency] at h
  split at h
  · next a rest =>
    split at h
    · split at h
      · next m sv' hm =>
        injection h with h
        have h1 := congrArg Prod.fst h
        simp only at h1
        have h2 := runLen_le isSpaceChar rest
        have h3 := matchVirtualAssignment_le hm
        rw [List.length_drop] at h3
        simp only [List.length_cons]
        omega
      · injection h with h
        have h1 := congrArg Prod.fst h
        simp only at h1
        simp only [List.length_cons]
        omega
    · exact absurd h (by simp)
  · exact absurd h (by simp)

theorem matchUnqualifiedName_bounds {cs : List Char} {n : Nat}
    (h : matchUnqualifiedName cs = some n) : 1 ≤ n ∧ n ≤ cs.length := by
  unfold matchUnqualifiedName at h
  split at h
  · next m hm =>
    injection h with h
    exact h ▸ ⟨matchId_pos hm, matchId_le hm⟩
  · split at h
    · injection h with h
      simp only [List.length_cons]
      omega
    · exact absurd h (by simp)

theorem matchCompiler_bounds {cs : List Char} {n : Nat}
    (h : matchCompiler cs = some n) : 1 ≤ n ∧ n ≤ cs.length := by
  simp only [matchCompiler] at h
  split at h
  · next rest =>
    split at h
    · next m hm =>
      injection h with h
      have h1 := runLen_le isSpaceChar rest
      have h2 := matchName_le hm
      have h3 : (rest.drop (runLen isSpaceChar rest)).length
          = rest.length - runLen isSpaceChar rest := List.length_drop _ _
      simp only [List.length_cons]
      omega
    · exact absurd h (by simp)
  · exact absurd h (by simp)

theorem matchCompilerAndVersion_bounds {cs : List Char} {n : Nat}
    (h : matchCompilerAndVersion cs = some n) : 1 ≤ n ∧ n ≤ cs.length := by
  simp only [matchCompilerAndVersion] at h
  split at h
  · next rest =>
    split at h
    · next m hm =>
      split at h
      · next vrest hv =>
        split at h
        · next v hvl =>
          injection h with h
          have h1 := runLen_le isSpaceChar rest
          have h2 := matchName_le hm
          rw [List.length_drop] at h2
          have h3 := runLen_le isSpaceChar vrest
          have h4 := (matchVersionList_bounds hvl).2
          rw [List.length_drop] at h4
          have h5 := congrArg List.length hv
          rw [List.length_drop, List.length_drop] at h5
          simp only [List.length_cons] at h5
          simp only [List.length_cons]
          omega
        · exact absurd h (by simp)
      · exact absurd h (by simp)
    · exact absurd h (by simp)
  · exact absurd h (by simp)

/-- Every `SpecTokens` step consumes at least one and at most all of the
remaining characters. -/
theorem specNextToken_bounds {cs : List Char} {k : SpecTokens} {n : Nat}
    {sv : Option Subvalues} (h : specNextToken cs = some (k, n, sv)) :
    1 ≤ n ∧ n ≤ cs.length := by
  unfold specNextToken at h
  split at h
  · next hm => injection h with h; cases h; exact matchStartEdgeProperties_bounds hm
  · split at h
    · next m sv' hm => injection h with h; cases h; exact matchEndEdgeProperties_bounds hm
    · split at h
      · next m sv' hm => injection h with h; cases h; exact matchDependency_bounds hm
      · split at h
        · next hm => injection h with h; cases h; exact matchVersionHashPair_bounds hm
        · split at h
          · next hm => injection h with h; cases h; exact matchGitVersion_bounds hm
          · split at h
            · next hm => injection h with h; cases h; exact matchVersionToken_bounds hm
            · split at h
              · next hm =>
                injection h with h; cases h; exact matchPropagatedBoolVariant_bounds hm
              · split at h
                · next hm => injection h with h; cases h; exact matchBoolVariant_bounds hm
                · split at h
                  · next hm =>
                    injection h with h; cases h
                    exact matchKvpWith_bounds (by omega) hm
                  · split at h
                    · next hm =>
                      injection h with h; cases h
                      exact matchKvpWith_bounds (by omega) hm
                    · split at h
                      · next hm => injection h with h; cases h; exact matchFilename_bounds hm
                      · split at h
                        · next hm =>
                          injection h with h; cases h
                          exact ⟨matchDottedId_pos hm, matchDottedId_le hm⟩
                        · split at h
                          · next hm =>
                            injection h with h; cases h
                            exact matchUnqualifiedName_bounds hm
                          · split at h
                            · next hm =>
                              injection h with h; cases h; exact matchDagHash_bounds hm
                            · split at h
                              · next hm =>
                                injection h with h; cases h; exact matchWs_bounds hm
                              · split at h
                                · next hm =>
                                  injection h with h; cases h
                                  exact matchUnexpected_bounds hm
                                · exact absurd h (by simp)

/-- Every `_LegacySpecTokens` step consumes at least one and at most all of
the remaining characters. -/
theorem legacyNextToken_bounds {cs : List Char} {k : LegacyTokens} {n : Nat}
    {sv : Option Subvalues} (h : legacyNextToken cs = some (k, n, sv)) :
    1 ≤ n ∧ n ≤ cs.length := by
  unfold legacyNextToken at h
  split at h
  · injection h with h; cases h; simp
  · split at h
    · injection h with h; cases h; simp
    · split at h
      · injection h with h; cases h; simp
      · split at h
        · next hm => injection h with h; cases h; exact matchVersionHashPair_bounds hm
        · split at h
          · next hm => injection h with h; cases h; exact matchGitVersion_bounds hm
          · split at h
            · next hm => injection h with h; cases h; exact matchVersionToken_bounds hm
            · split at h
              · next hm =>
                injection h with h; cases h; exact matchPropagatedBoolVariant_bounds hm
              · split at h
                · next hm => injection h with h; cases h; exact matchBoolVariant_bounds hm
                · split at h
                  · next hm =>
                    injection h with h; cases h
                    exact matchKvpWith_bounds (by omega) hm
                  · split at h
                    · next hm =>
                      injection h with h; cases h
                      exact matchKvpWith_bounds (by omega) hm
                    · split at h
                      · next hm =>
                        injection h with h; cases h
                        exact matchCompilerAndVersion_bounds hm
                      · split at h
                        · next hm =>
                          injection h with h; cases h; exact matchCompiler_bounds hm
                        · split at h
                          · next hm =>
                            injection h with h; cases h; exact matchFilename_bounds hm
                          · split at h
                            · next hm =>
                              injection h with h; cases h
                              exact ⟨matchDottedId_pos hm, matchDottedId_le hm⟩
                            · split at h
                              · next hm =>
                                injection h with h; cases h
                                exact matchUnqualifiedName_bounds hm
                              · split at h
                                · next hm =>
                                  injection h with h; cases h
                                  exact matchDagHash_bounds hm
                                · split at h
                                  · next hm =>
                                    injection h with h; cases h; exact matchWs_bounds hm
                                  · split at h
                                    · next hm =>
                                      injection h with h; cases h
                                      exact matchUnexpected_bounds hm
                                    · exact absurd h (by simp)

theorem specNextToken_none {cs : List Char} (h : specNextToken cs = none) : cs = [] := by
  cases cs with
  | nil => rfl
  | cons c rest =>
    exfalso
    unfold specNextToken at h
    repeat' split at h
    all_goals simp_all [matchUnexpected]

theorem legacyNextToken_none {cs : List Char} (h : legacyNextToken cs = none) : cs = [] := by
  cases cs with
  | nil => rfl
  | cons c rest =>
    exfalso
    unfold legacyNextToken at h
    repeat' split at h
    all_goals simp_all [matchUnexpected]

/-! ## Tokenizer totality, tiling and spans -/

theorem tokenizeWithAux_nil {κ : Type} (step : List Char → Option (κ × Nat × Option Subvalues))
    (hnil : step [] = none) (fuel pos : Nat) :
    tokenizeWithAux step fuel pos [] = [] := by
  cases fuel with
  | zero => rfl
  | succ fuel => simp [tokenizeWithAux, hnil]

theorem tokenizeWithAux_fuel {κ : Type} (step : List Char → Option (κ × Nat × Option Subvalues))
    (hnil : step [] = none)
    (hpos : ∀ cs k n sv, step cs = some (k, n, sv) → 1 ≤ n) :
    ∀ fuel fuel' pos cs, cs.length ≤ fuel → cs.length ≤ fuel' →
    tokenizeWithAux step fuel pos cs = tokenizeWithAux step fuel' pos cs := by
  intro fuel
  induction fuel with
  | zero =>
    intro fuel' pos cs hf hf'
    have : cs = [] := List.length_eq_zero.mp (by omega)
    subst this
    rw [tokenizeWithAux_nil step hnil, tokenizeWithAux_nil step hnil]
  | succ fuel ih =>
    intro fuel' pos cs hf hf'
    cases fuel' with
    | zero =>
      have : cs = [] := List.length_eq_zero.mp (by omega)
      subst this
      rw [tokenizeWithAux_nil step hnil, tokenizeWithAux_nil step hnil]
    | succ fuel' =>
      simp only [tokenizeWithAux]
      cases hstep : step cs with
      | none => rfl
      | some x =>
        obtain ⟨k, n, sv⟩ := x
        have hn := hpos cs k n sv hstep
        have hdl : (cs.drop n).length = cs.length - n := List.length_drop _ _
        dsimp only
        rw [ih fuel' (pos + n) (cs.drop n) (by omega) (by omega)]

/-- The token values of a tokenizer run concatenate back to the input: the
raw tokenizer is total and covers the whole string. -/
theorem tokenizeWithAux_flatten {κ : Type}
    (step : List Char → Option (κ × Nat × Option Subvalues))
    (hnone : ∀ cs, step cs = none → cs = [])
    (hbounds : ∀ cs k n sv, step cs = some (k, n, sv) → 1 ≤ n ∧ n ≤ cs.length) :
    ∀ fuel pos cs, cs.length ≤ fuel →
    ((tokenizeWithAux step fuel pos cs).map (fun t => t.value.data)).flatten = cs := by
  intro fuel
  induction fuel with
  | zero =>
    intro pos cs hf
    have : cs = [] := List.length_eq_zero.mp (by omega)
    subst this
    simp [tokenizeWithAux]
  | succ fuel ih =>
    intro pos cs hf
    simp only [tokenizeWithAux]
    cases hstep : step cs with
    | none => simpa using (hnone cs hstep).symm
    | some x =>
      obtain ⟨k, n, sv⟩ := x
      have hn := hbounds cs k n sv hstep
      have hdl : (cs.drop n).length = cs.length - n := List.length_drop _ _
      simp only [List.map_cons, List.flatten_cons]
      rw [ih (pos + n) (cs.drop n) (by omega)]
      show (cs.take n).asString.data ++ cs.drop n = cs
      rw [show ((cs.take n).asString.data) = cs.take n from rfl]
      exact List.take_append_drop n cs

/-- Every token produced from offset `pos` starts at or after `pos`. -/
theorem tokenizeWithAux_start_le {κ : Type}
    (step : List Char → Option (κ × Nat × Option Subvalues)) :
    ∀ fuel pos cs t, t ∈ tokenizeWithAux step fuel pos cs → pos ≤ t.start := by
  intro fuel
  induction fuel with
  | zero => intro pos cs t ht; simp [tokenizeWithAux] at ht
  | succ fuel ih =>
    intro pos cs t ht
    simp only [tokenizeWithAux] at ht
    split at ht
    · simp at ht
    · next k n sv hstep =>
      rcases List.mem_cons.mp ht with rfl | hmem
      · simp
      · have := ih (pos + n) (cs.drop n) t hmem
        omega

/-- Tokenizer output is contiguous from the starting offset. -/
theorem tokenizeWithAux_contig {κ : Type}
    (step : List Char → Option (κ × Nat × Option Subvalues)) :
    ∀ fuel pos cs, Contig pos (tokenizeWithAux step fuel pos cs) := by
  intro fuel
  induction fuel with
  | zero => intro pos cs; simp [tokenizeWithAux, Contig]
  | succ fuel ih =>
    intro pos cs
    simp only [tokenizeWithAux]
    split
    · simp [Contig]
    · next k n sv hstep =>
      refine ⟨rfl, by simp, ?_⟩
      exact ih (pos + n) (cs.drop n)

theorem Contig.start_ge {κ : Type} :
    ∀ {toks : List (Token κ)} {pos : Nat}, Contig pos toks →
    ∀ t ∈ toks, pos ≤ t.start
  | [], pos, _, t, ht => by simp at ht
  | t' :: rest, pos, ⟨hst, hse, hrest⟩, t, ht => by
    rcases List.mem_cons.mp ht with rfl | hmem
    · omega
    · have := Contig.start_ge hrest t hmem
      omega

theorem getD_replicate_lt {ch d : Char} {i n : Nat} (h : i < n) :
    (List.replicate n ch).getD i d = ch := by
  induction n generalizing i with
  | zero => omega
  | succ n ih =>
    cases i with
    | zero => simp [List.replicate]
    | succ i => simpa [List.replicate] using ih (by omega)

/-- The underline marks position `i` with a caret exactly when the token
covering input offset `pos + i` is an unexpected token. -/
theorem underline_iff :
    ∀ {toks : List (Token SpecTokens)} {pos : Nat}, Contig pos toks → ∀ i : Nat,
    ((underlineOf toks).getD i ' ' = '^' ↔
      ∃ t ∈ toks, t.kind = SpecTokens.UNEXPECTED ∧ t.start ≤ pos + i ∧ pos + i < t.endPos)
  | [], pos, _, i => by simp [underlineOf]
  | t :: rest, pos, ⟨hst, hse, hrest⟩, i => by
    simp only [underlineOf, List.flatMap_cons]
    by_cases hi : i < t.endPos - t.start
    · rw [List.getD_append _ _ _ _ (by simp; omega)]
      rw [getD_replicate_lt hi]
      by_cases hk : t.kind = SpecTokens.UNEXPECTED
      · simp only [hk, if_pos rfl]
        constructor
        · intro _
          exact ⟨t, List.mem_cons_self t rest, hk, by omega, by omega⟩
        · intro _
          rfl
      · rw [if_neg hk]
        constructor
        · intro hc
          exact absurd hc (by decide)
        · rintro ⟨t', ht', hk', h1, h2⟩
          rcases List.mem_cons.mp ht' with rfl | hmem
          · exact absurd hk' hk
          · have := (Contig.start_ge hrest t' hmem)
            omega
    · have hlen : (List.replicate (t.endPos - t.start)
          (if t.kind = SpecTokens.UNEXPECTED then '^' else ' ')).length
          = t.endPos - t.start := List.length_replicate _ _
      have hge : (List.replicate (t.endPos - t.start)
          (if t.kind = SpecTokens.UNEXPECTED then '^' else ' ')).length ≤ i := by
        rw [hlen]; omega
      rw [List.getD_append_right _ _ _ _ hge, hlen]
      have harith : t.endPos + (i - (t.endPos - t.start)) = pos + i := by omega
      have hrec := underline_iff hrest (i - (t.endPos - t.start))
      rw [harith] at hrec
      rw [show underlineOf rest
          = rest.flatMap (fun t => List.replicate (t.endPos - t.start)
            (if t.kind = SpecTokens.UNEXPECTED then '^' else ' ')) from rfl] at hrec
      rw [hrec]
      constructor
      · rintro ⟨t', ht', prop⟩
        exact ⟨t', List.mem_cons_of_mem t ht', prop⟩
      · rintro ⟨t', ht', hk', h1, h2⟩
        rcases List.mem_cons.mp ht' with rfl | hmem
        · exact absurd h2 (by omega)
        · exact ⟨t', hmem, hk', h1, h2⟩

/-- C5: raw tokenization is total and covers every input (the token values
concatenate back to the string); the filtering entry point `tokenize`
raises a tokenization error if and only if the raw token stream contains
an unexpected-kind token, the raised error is built from the full raw
token list and the text, and the error's underline carries a caret at
exactly the offsets covered by unexpected tokens. -/
theorem tokenize_raises_iff_unexpected (text : String) :
    (((tokenizeRaw text).map (fun t => t.value.data)).flatten = text.data) ∧
    ((∃ e, tokenize text = .error e) ↔
      ∃ t ∈ tokenizeRaw text, t.kind = SpecTokens.UNEXPECTED) ∧
    (∀ e, tokenize text = .error e → e = .tokenization (tokenizeRaw text) text) ∧
    (∀ i : Nat, ((underlineOf (tokenizeRaw text)).getD i ' ' = '^' ↔
      ∃ t ∈ tokenizeRaw text, t.kind = SpecTokens.UNEXPECTED ∧ t.start ≤ i ∧ i < t.endPos)) := by
  refine ⟨?_, ?_, ?_, ?_⟩
  · exact tokenizeWithAux_flatten specNextToken (fun cs h => specNextToken_none h)
      (fun cs k n sv h => specNextToken_bounds h) text.data.length 0 text.data le_rfl
  · simp only [tokenize]
    split
    · next hany =>
      simp only [List.any_eq_true, decide_eq_true_eq] at hany
      exact ⟨fun _ => hany, fun _ => ⟨_, rfl⟩⟩
    · next hany =>
      simp only [List.any_eq_true, decide_eq_true_eq] at hany
      constructor
      · rintro ⟨e, he⟩
        exact absurd he (by simp)
      · intro hex
        exact absurd hex hany
  · intro e he
    simp only [tokenize] at he
    split at he
    · injection he with he
      exact he.symm
    · exact absurd he (by simp)
  · intro i
    have h := underline_iff
      (tokenizeWithAux_contig specNextToken text.data.length 0 text.data) i
    simpa using h

/-- Advancing past an existing lookahead serves exactly the head of the
available tokens: the old lookahead becomes current, and the remaining
available tokens are the tail. -/
theorem advance_avail {ctx ctx' : TokenContext} {t : Token SpecTokens}
    (hn : ctx.next_token = some t) (h : ctx.advance = .ok ctx') :
    ctx'.current_token = some t ∧ ctx'.availTokens = ctx.availTokens.tail ∧
    ctx'.rest.length + ctx'.pushed_tokens.length ≤ ctx.rest.length + ctx.pushed_tokens.length ∧
    ctx'.badTail = ctx.badTail ∧ ctx'.text = ctx.text := by
  unfold TokenContext.advance at h
  obtain ⟨cur, next, pushed, rest, bad, text⟩ := ctx
  simp only at hn
  subst hn
  match pushed, rest with
  | p :: ps, rest =>
    simp only at h
    injection h with h
    subst h
    cases p <;> simp [TokenContext.availTokens]
  | [], r :: rs =>
    simp only at h
    injection h with h
    subst h
    simp [TokenContext.availTokens]
  | [], [] =>
    simp only at h
    split at h
    · exact absurd h (by simp)
    · injection h with h
      subst h
      simp [TokenContext.availTokens]

/-- C8: `expect` only reports whether the lookahead's kind is among the
given kinds and leaves every cursor field unchanged (it is a pure
observation of the context); `accept` on a missing or non-matching
lookahead returns `false` with the context unchanged, and on a matching
lookahead returns `true` having advanced by exactly one token (the
matched lookahead becomes the current token and the available tokens
lose their head). -/
theorem expect_pure_accept_advances_one (ctx : TokenContext)
    (kinds : List SpecTokens) (kind : SpecTokens) :
    (ctx.expect kinds = true ↔ ∃ t, ctx.next_token = some t ∧ t.kind ∈ kinds) ∧
    (ctx.next_token = none → ctx.accept kind = .ok (false, ctx)) ∧
    (∀ t, ctx.next_token = some t → t.kind ≠ kind → ctx.accept kind = .ok (false, ctx)) ∧
    (∀ t, ctx.next_token = some t → t.kind = kind →
      ctx.accept kind = (ctx.advance).map (fun c => (true, c)) ∧
      ∀ ctx', ctx.advance = .ok ctx' →
        ctx'.current_token = some t ∧ ctx'.availTokens = ctx.availTokens.tail) := by
  refine ⟨?_, ?_, ?_, ?_⟩
  · unfold TokenContext.expect
    cases hn : ctx.next_token with
    | none => simp
    | some t => simp [hn, List.elem_iff]
  · intro hn
    unfold TokenContext.accept
    rw [hn]
  · intro t hn hne
    unfold TokenContext.accept
    rw [hn]
    simp [hne]
  · intro t hn hk
    constructor
    · unfold TokenContext.accept
      rw [hn]
      simp [hk]
    · intro ctx' hadv
      have h := advance_avail hn hadv
      exact ⟨h.1, h.2.1⟩

/-- Closed instance of the `expect`/`accept` contract on a concrete cursor
whose lookahead is a package-name token. -/
theorem expect_pure_accept_advances_one_witness :
    (TokenContext.accept
        { next_token := some ⟨SpecTokens.UNQUALIFIED_PACKAGE_NAME, "foo", 0, 3, none⟩,
          rest := [⟨SpecTokens.VERSION, "@2", 3, 5, none⟩] }
        SpecTokens.UNQUALIFIED_PACKAGE_NAME)
      = (TokenContext.advance
        { next_token := some ⟨SpecTokens.UNQUALIFIED_PACKAGE_NAME, "foo", 0, 3, none⟩,
          rest := [⟨SpecTokens.VERSION, "@2", 3, 5, none⟩] }).map (fun c => (true, c)) ∧
    (TokenContext.accept
        { next_token := some ⟨SpecTokens.UNQUALIFIED_PACKAGE_NAME, "foo", 0, 3, none⟩,
          rest := [⟨SpecTokens.VERSION, "@2", 3, 5, none⟩] }
        SpecTokens.VERSION)
      = .ok (false,
        { next_token := some ⟨SpecTokens.UNQUALIFIED_PACKAGE_NAME, "foo", 0, 3, none⟩,
          rest := [⟨SpecTokens.VERSION, "@2", 3, 5, none⟩] }) ∧
    (TokenContext.expect
        { next_token := some ⟨SpecTokens.UNQUALIFIED_PACKAGE_NAME, "foo", 0, 3, none⟩,
          rest := [⟨SpecTokens.VERSION, "@2", 3, 5, none⟩] }
        [SpecTokens.UNQUALIFIED_PACKAGE_NAME, SpecTokens.VERSION]) = true :=
  ⟨((expect_pure_accept_advances_one _ [] SpecTokens.UNQUALIFIED_PACKAGE_NAME).2.2.2
      _ rfl rfl).1,
   (expect_pure_accept_advances_one _ [] SpecTokens.VERSION).2.2.1 _ rfl (by decide),
   (expect_pure_accept_advances_one _
      [SpecTokens.UNQUALIFIED_PACKAGE_NAME, SpecTokens.VERSION]
      SpecTokens.VERSION).1.mpr ⟨_, rfl, by decide⟩⟩

/-- C9: `push_front` makes the synthesized token the lookahead; one
`advance` consumes it (restoring the bumped token as lookahead and
leaving the pushback stack and stream as they were), and a second
`advance` behaves exactly as a single `advance` of the original cursor —
the bumped token is served and the underlying stream resumes. -/
theorem push_front_then_advances (ctx : TokenContext) (s t : Token SpecTokens)
    (h : ctx.next_token = some t) :
    (ctx.push_front s).next_token = some s ∧
    (ctx.push_front s).advance = .ok { ctx with current_token := some s } ∧
    ((ctx.push_front s).advance >>= TokenContext.advance) = ctx.advance := by
  refine ⟨rfl, ?_, ?_⟩
  · obtain ⟨cur, next, pushed, rest, bad, text⟩ := ctx
    rfl
  · obtain ⟨cur, next, pushed, rest, bad, text⟩ := ctx
    rfl

/-- Closed instance of the pushback contract: pushing `s` in front of a
cursor whose lookahead is `t`, then advancing twice, yields `s` then `t`
as current tokens. -/
theorem push_front_then_advances_witness :
    (({ next_token := some ⟨SpecTokens.DEPENDENCY, "^", 4, 5, none⟩,
        rest := [] : TokenContext}.push_front
          ⟨SpecTokens.UNQUALIFIED_PACKAGE_NAME, "gcc", 7, 10, none⟩).advance
      >>= TokenContext.advance)
    = TokenContext.advance
      { next_token := some ⟨SpecTokens.DEPENDENCY, "^", 4, 5, none⟩, rest := [] } :=
  (push_front_then_advances _ _ _ rfl).2.2

/-! ## The quoting round trip (claim C10) -/

theorem jsonEscapeChar_printable {c : Char} (hlo : 32 ≤ c.toNat) (hhi : c.toNat ≤ 126)
    (hbs : c ≠ '\\') : jsonEscapeChar c = if c = '"' then ['\\', '"'] else [c] := by
  by_cases hq : c = '"'
  · simp [jsonEscapeChar, hq]
  · have h1 : c ≠ '\n' := fun h => absurd hlo (by subst h; decide)
    have h2 : c ≠ '\t' := fun h => absurd hlo (by subst h; decide)
    have h3 : c ≠ '\r' := fun h => absurd hlo (by subst h; decide)
    have h4 : ¬ c.toNat = 8 := by omega
    have h5 : ¬ c.toNat = 12 := by omega
    have h6 : ¬ c.toNat < 32 := by omega
    have h7 : c.toNat < 127 := by omega
    simp [jsonEscapeChar, hq, hbs, h1, h2, h3, h4, h5, h6, h7]

theorem replaceSubAux_no_pat {q : Char} {repl : List Char} :
    ∀ (fuel : Nat) (l : List Char), '\\' ∉ l →
    replaceSubAux ['\\', q] repl fuel l = l := by
  intro fuel
  induction fuel with
  | zero => intro l _; cases l <;> rfl
  | succ fuel ih =>
    intro l hl
    cases l with
    | nil => rfl
    | cons c cs =>
      have hc : c ≠ '\\' := fun h => hl (h ▸ List.mem_cons_self c cs)
      have hcs : '\\' ∉ cs := fun h => hl (List.mem_cons_of_mem c h)
      simp only [replaceSubAux]
      rw [if_neg]
      · rw [ih cs hcs]
      · intro hcond
        simp only [Bool.and_eq_true, decide_eq_true_eq] at hcond
        have hh : (List.take (['\\', q] : List Char).length (c :: cs)).head? = some c := by
          simp [List.take]
        rw [hcond.2] at hh
        simp at hh
        exact hc hh.symm

theorem replaceSubAux_escape_inv :
    ∀ (l : List Char) (fuel : Nat),
    (∀ c ∈ l, c ≠ '\\') →
    (l.flatMap (fun c => if c = '"' then ['\\', '"'] else [c])).length ≤ fuel →
    replaceSubAux ['\\', '"'] ['"'] fuel
      (l.flatMap (fun c => if c = '"' then ['\\', '"'] else [c])) = l := by
  intro l
  induction l with
  | nil =>
    intro fuel _ _
    cases fuel <;> rfl
  | cons c cs ih =>
    intro fuel hc hf
    have hcbs : c ≠ '\\' := hc c (List.mem_cons_self c cs)
    have hcs : ∀ x ∈ cs, x ≠ '\\' := fun x hx => hc x (List.mem_cons_of_mem c hx)
    by_cases hq : c = '"'
    · subst hq
      have hfl : (('"' :: cs).flatMap (fun c => if c = '"' then ['\\', '"'] else [c]))
          = '\\' :: '"' :: cs.flatMap (fun c => if c = '"' then ['\\', '"'] else [c]) := rfl
      rw [hfl] at hf ⊢
      simp only [List.length_cons] at hf
      cases fuel with
      | zero => omega
      | succ fuel =>
        rw [show replaceSubAux ['\\', '"'] ['"'] (fuel + 1)
            ('\\' :: '"' :: cs.flatMap (fun c => if c = '"' then ['\\', '"'] else [c]))
            = '"' :: replaceSubAux ['\\', '"'] ['"'] fuel
              (cs.flatMap (fun c => if c = '"' then ['\\', '"'] else [c])) from rfl]
        rw [ih fuel hcs (by omega)]
    · simp only [List.flatMap_cons, if_neg hq, List.singleton_append] at hf ⊢
      simp only [List.length_cons] at hf
      cases fuel with
      | zero => omega
      | succ fuel =>
        simp only [replaceSubAux]
        rw [if_neg]
        · rw [ih fuel hcs (by omega)]
        · intro hcond
          simp only [Bool.and_eq_true, decide_eq_true_eq] at hcond
          have h2 := hcond.2
          have : ((c :: cs.flatMap (fun c => if c = '"' then ['\\', '"'] else [c])).take
              (['\\', '"'] : List Char).length).head? = some c := by
            simp [List.take]
          rw [h2] at this
          simp at this
          exact hcbs this.symm

theorem flatMap_escape_printable :
    ∀ (l : List Char), (∀ c ∈ l, 32 ≤ c.toNat ∧ c.toNat ≤ 126 ∧ c ≠ '\\') →
    l.flatMap jsonEscapeChar = l.flatMap (fun c => if c = '"' then ['\\', '"'] else [c]) := by
  intro l
  induction l with
  | nil => intro _; rfl
  | cons c cs ih =>
    intro hl
    have h1 := hl c (List.mem_cons_self c cs)
    simp only [List.flatMap_cons]
    rw [jsonEscapeChar_printable h1.1 h1.2.1 h1.2.2,
        ih (fun x hx => hl x (List.mem_cons_of_mem c hx))]

theorem escape_no_newline {l : List Char}
    (hl : ∀ c ∈ l, 32 ≤ c.toNat ∧ c.toNat ≤ 126 ∧ c ≠ '\\') :
    ¬ '\n' ∈ l.flatMap (fun c => if c = '"' then ['\\', '"'] else [c]) := by
  intro hm
  rw [List.mem_flatMap] at hm
  obtain ⟨c, hc, hin⟩ := hm
  by_cases hq : c = '"'
  · rw [if_pos hq] at hin
    exact absurd hin (by decide)
  · rw [if_neg hq] at hin
    rw [List.mem_singleton] at hin
    subst hin
    exact absurd (hl _ hc).1 (by decide)

theorem stripQuotesMatch_wrap {q : Char} (inner : List Char)
    (hq : q = '\'' ∨ q = '"') (hnl : ¬ '\n' ∈ inner) :
    stripQuotesMatch (q :: (inner ++ [q])) = some (q, inner) := by
  have hcont : inner.contains '\n' = false := by simpa using hnl
  simp only [stripQuotesMatch]
  rw [if_pos, if_pos]
  · rw [List.dropLast_concat]
  · rw [List.getLast?_concat, List.dropLast_concat]
    simp [hcont, hnl]
  · rcases hq with h | h <;> subst h <;> simp

/-- **C10** (counterexample to the unrestricted claim).  The round trip is
not the identity on every string: a value holding a newline is emitted
single-quoted (the newline is not in the `NO_QUOTES_NEEDED` class and is
no single quote), but `STRIP_QUOTES` refuses an interior newline (`.`
does not match it), so the quotes are never stripped again. -/
theorem quote_roundtrip_newline_counterexample :
    strip_quotes_and_unescape (quote_if_needed "a\nb") = "'a\nb'" ∧
      ("'a\nb'" : String) ≠ "a\nb" := by
  constructor
  · rfl
  · decide

/-- **C10** (corrected).  `strip_quotes_and_unescape (quote_if_needed v)`
is the identity for every value made of printable ASCII characters
(codes 32–126) other than the backslash, across all three emission
forms (unquoted, single-quoted, JSON double-quoted);
`quote_roundtrip_newline_counterexample` refutes the unrestricted
claim. -/
theorem quote_roundtrip_printable (v : String)
    (hv : ∀ c ∈ v.data, 32 ≤ c.toNat ∧ c.toNat ≤ 126 ∧ c ≠ '\\') :
    strip_quotes_and_unescape (quote_if_needed v) = v := by
  simp only [quote_if_needed]
  by_cases hnq : noQuotesNeeded v = true
  · rw [if_pos hnq]
    have hm : stripQuotesMatch v.data = none := by
      simp only [noQuotesNeeded, Bool.or_eq_true, Bool.and_eq_true, decide_eq_true_eq] at hnq
      have hall : v.data.all isNoQuoteChar = true := by
        rcases hnq with ⟨_, h⟩ | ⟨⟨h, _⟩, _⟩
        · exact h
        · exact absurd (hv '\n' (List.mem_of_mem_getLast? h)).1 (by decide)
      cases hd : v.data with
      | nil => rfl
      | cons q rest =>
        have hq : isNoQuoteChar q = true := by
          rw [hd] at hall
          exact (List.all_eq_true.mp hall) q (List.mem_cons_self q rest)
        simp only [stripQuotesMatch]
        rw [if_neg]
        intro hcond
        simp only [Bool.and_eq_true, Bool.or_eq_true, decide_eq_true_eq] at hcond
        rcases hcond.1 with h | h <;> subst h <;> exact absurd hq (by decide)
    simp only [strip_quotes_and_unescape, hm]
  · rw [if_neg hnq]
    by_cases hq : v.data.contains '\'' = true
    · rw [if_pos hq]
      have hesc := flatMap_escape_printable v.data hv
      have hnl := escape_no_newline hv
      have hdd : (jsonDumps v).data
          = '"' :: ((v.data.flatMap (fun c => if c = '"' then ['\\', '"'] else [c])) ++ ['"']) := by
        simp only [jsonDumps]
        rw [show ((('"' :: (v.data.flatMap jsonEscapeChar) ++ ['"']).asString).data)
            = ('"' :: (v.data.flatMap jsonEscapeChar)) ++ ['"'] from rfl]
        rw [hesc]
        simp [List.cons_append]
      simp only [strip_quotes_and_unescape]
      rw [hdd, stripQuotesMatch_wrap _ (Or.inr rfl) hnl]
      simp only [replaceSub]
      rw [replaceSubAux_escape_inv v.data _ (fun c hc => (hv c hc).2.2) (Nat.le_refl _)]
      rfl
    · rw [if_neg hq]
      have hd3 : ("'" ++ v ++ "'").data = '\'' :: (v.data ++ ['\'']) := rfl
      have hnl3 : ¬ '\n' ∈ v.data := fun h => absurd (hv _ h).1 (by decide)
      simp only [strip_quotes_and_unescape]
      rw [hd3, stripQuotesMatch_wrap _ (Or.inl rfl) hnl3]
      simp only [replaceSub]
      rw [replaceSubAux_no_pat _ _ (fun h => (hv _ h).2.2 rfl)]
      rfl

/-- Witness for `quote_roundtrip_printable` at the concrete value
`"a b"` (single-quoted on output, stripped again on input). -/
theorem quote_roundtrip_printable_witness :
    strip_quotes_and_unescape (quote_if_needed "a b") = "a b" :=
  quote_roundtrip_printable "a b" (by decide)

/-! ## A dangling dependency sigil (claim C3) -/

/-- **C3** (code bug): a dangling dependency sigil does not raise the
documented parse error naming the expectation.  `"foo ^"` parses
successfully — `SpecNodeParser.parse` constructs the fresh `Spec()`
before its early return, so the `dependency is None` check in
`_parse_node` is dead and an anonymous edge is attached — and `"foo %"`
raises `AttributeError` (the toolchain guard reads `.value` off the
absent next token), not a `SpecParsingError`. -/
theorem dangling_sigil_no_expectation_error :
    parse_one_or_raise [] [] "foo ^" none
      = .ok (Spec.mk { name := some "foo" }
          [{ child := Spec.empty, direct := false, virtuals := [], depflag := 0,
             cond := none }]) ∧
    parse_one_or_raise [] [] "foo %" none = .error .attributeError :=
  ⟨rfl, rfl⟩

/-! ## The compiler-clause warning machinery (claim C4) -/

/-- A successful monadic bind over `Except` factors through a successful
first step. -/
theorem exceptBindOk {ε α β : Type} {e : Except ε α} {f : α → Except ε β} {b : β}
    (h : e >>= f = .ok b) : ∃ a, e = .ok a ∧ f a = .ok b := by
  cases e with
  | error err => exact Except.noConfusion h
  | ok a => exact ⟨a, rfl, h⟩

/-- With `last_compiler = None` — the only value the source ever gives it —
the clause loop of `SpecNodeParser.parse` returns its warnings list
unchanged: `warn_if_after_compiler` never appends. -/
theorem nodeLoop_no_warnings (literal : String) :
    ∀ (fuel : Nat) (ctx : TokenContext) (spec : Spec) (hv : Bool) (w : List String)
      (out : Spec × List String × TokenContext),
    nodeLoop literal fuel ctx spec hv none w = .ok out → out.2.1 = w := by
  intro fuel
  induction fuel with
  | zero => intro ctx spec hv w out h; exact absurd h (by simp [nodeLoop])
  | succ fuel ih =>
    intro ctx spec hv w out h
    simp only [nodeLoop] at h
    obtain ⟨⟨b1, c1⟩, -, h⟩ := exceptBindOk h
    simp only [] at h
    by_cases hb1 : b1 = true
    · rw [if_pos hb1, pure_bind] at h
      simp only [] at h
      rw [if_pos True.intro, pure_bind] at h
      simp only [] at h
      rw [if_pos True.intro] at h
      by_cases hhv : hv = true
      · rw [if_pos hhv] at h
        exact Except.noConfusion h
      · rw [if_neg hhv] at h
        exact ih _ _ _ _ _ h
    · rw [if_neg hb1] at h
      obtain ⟨⟨b2, c2⟩, -, h⟩ := exceptBindOk h
      simp only [] at h
      by_cases hb2 : b2 = true
      · rw [if_pos hb2, pure_bind] at h
        simp only [] at h
        rw [if_pos True.intro] at h
        by_cases hhv : hv = true
        · rw [if_pos hhv] at h
          exact Except.noConfusion h
        · rw [if_neg hhv] at h
          exact ih _ _ _ _ _ h
      · rw [if_neg hb2] at h
        obtain ⟨⟨b3, c3⟩, -, h⟩ := exceptBindOk h
        simp only [] at h
        by_cases hb3 : b3 = true
        · rw [if_pos hb3] at h
          by_cases hhv : hv = true
          · rw [if_pos hhv] at h
            exact Except.noConfusion h
          · rw [if_neg hhv] at h
            exact ih _ _ _ _ _ h
        · rw [if_neg hb3] at h
          obtain ⟨⟨b4, c4⟩, -, h⟩ := exceptBindOk h
          simp only [] at h
          by_cases hb4 : b4 = true
          · rw [if_pos hb4] at h
            exact ih _ _ _ _ _ h
          · rw [if_neg hb4] at h
            obtain ⟨⟨b5, c5⟩, -, h⟩ := exceptBindOk h
            simp only [] at h
            by_cases hb5 : b5 = true
            · rw [if_pos hb5] at h
              exact ih _ _ _ _ _ h
            · rw [if_neg hb5] at h
              obtain ⟨⟨b6, c6⟩, -, h⟩ := exceptBindOk h
              simp only [] at h
              by_cases hb6 : b6 = true
              · rw [if_pos hb6] at h
                split at h
                · exact Except.noConfusion h
                · exact ih _ _ _ _ _ h
              · rw [if_neg hb6] at h
                obtain ⟨⟨b7, c7⟩, -, h⟩ := exceptBindOk h
                simp only [] at h
                by_cases hb7 : b7 = true
                · rw [if_pos hb7] at h
                  split at h
                  · exact Except.noConfusion h
                  · exact ih _ _ _ _ _ h
                · rw [if_neg hb7] at h
                  by_cases hdh : c7.expect [SpecTokens.DAG_HASH] = true
                  · rw [if_pos hdh] at h
                    by_cases hab : (spec.core.abstract_hash).isSome = true
                    · rw [if_pos hab] at h
                      injection h with h
                      subst h
                      rfl
                    · rw [if_neg hab] at h
                      obtain ⟨⟨b8, c8⟩, -, h⟩ := exceptBindOk h
                      simp only [] at h
                      exact ih _ _ _ _ _ h
                  · rw [if_neg hdh] at h
                    injection h with h
                    subst h
                    rfl

/-- `SpecNodeParser.parse` never queues a warning: every node it returns
comes with an empty warnings list. -/
theorem nodeParse_no_warnings (literal : String) (fuel : Nat) (ctx : TokenContext)
    (initial_spec : Option Spec) (root : Bool)
    (out : Spec × List String × TokenContext)
    (h : nodeParse literal fuel ctx initial_spec root = .ok out) : out.2.1 = [] := by
  simp only [nodeParse] at h
  split at h
  · injection h with h
    subst h
    rfl
  · obtain ⟨⟨b1, c1⟩, -, h⟩ := exceptBindOk h
    simp only [] at h
    by_cases hb1 : b1 = true
    · rw [if_pos hb1] at h
      exact nodeLoop_no_warnings literal _ _ _ _ _ _ h
    · rw [if_neg hb1] at h
      obtain ⟨⟨b2, c2⟩, -, h⟩ := exceptBindOk h
      simp only [] at h
      by_cases hb2 : b2 = true
      · rw [if_pos hb2] at h
        exact nodeLoop_no_warnings literal _ _ _ _ _ _ h
      · rw [if_neg hb2] at h
        obtain ⟨⟨b3, c3⟩, -, h⟩ := exceptBindOk h
        simp only [] at h
        by_cases hb3 : b3 = true
        · rw [if_pos hb3] at h
          exact Except.noConfusion h
        · rw [if_neg hb3] at h
          exact nodeLoop_no_warnings literal _ _ _ _ _ _ h

/-- The dependency loop of `SpecParser.next_spec` only ever appends the
(empty) warning lists of its node parses: it returns its incoming warnings
unchanged. -/
theorem depLoop_no_warnings (parseOne : String → Except ParseErr Spec)
    (toolchains : List String) (aliases : List (String × String)) (literal : String) :
    ∀ (fuel : Nat) (ctx : TokenContext) (root : Spec) (cur : Bool) (w : List String)
      (out : Spec × List String × TokenContext),
    depLoop parseOne toolchains aliases literal fuel ctx root cur w = .ok out →
      out.2.1 = w := by
  intro fuel
  induction fuel with
  | zero => intro ctx root cur w out h; exact absurd h (by simp [depLoop])
  | succ fuel ih =>
    intro ctx root cur w out h
    simp only [depLoop] at h
    obtain ⟨⟨bS, c1⟩, -, h⟩ := exceptBindOk h
    simp only [] at h
    by_cases hbS : bS = true
    · rw [if_pos hbS] at h
      obtain ⟨⟨props, c2⟩, -, h⟩ := exceptBindOk h
      simp only [] at h
      obtain ⟨⟨dep, warns, c3⟩, hnp, h⟩ := exceptBindOk h
      simp only [] at h
      have hwarns : warns = [] := nodeParse_no_warnings literal fuel c2 none true _ hnp
      subst hwarns
      split at h
      · exact Except.noConfusion h
      · rw [List.append_nil] at h
        split at h
        · exact ih _ _ _ _ _ h
        · exact ih _ _ _ _ _ h
    · rw [if_neg hbS] at h
      obtain ⟨⟨bD, c2⟩, -, h⟩ := exceptBindOk h
      simp only [] at h
      by_cases hbD : bD = true
      · rw [if_pos hbD] at h
        obtain ⟨⟨virtuals, c3⟩, -, h⟩ := exceptBindOk h
        simp only [] at h
        split at h
        · split at h
          · exact Except.noConfusion h
          · split at h
            · obtain ⟨⟨bU, c4⟩, -, h⟩ := exceptBindOk h
              simp only [] at h
              split at h
              · exact Except.noConfusion h
              · exact Except.noConfusion h
            · obtain ⟨⟨dep, warns, c4⟩, hnp, h⟩ := exceptBindOk h
              simp only [] at h
              have hwarns : warns = [] := nodeParse_no_warnings literal fuel c3 none true _ hnp
              subst hwarns
              split at h
              · exact Except.noConfusion h
              · rw [List.append_nil] at h
                exact ih _ _ _ _ _ h
        · obtain ⟨⟨dep, warns, c4⟩, hnp, h⟩ := exceptBindOk h
          simp only [] at h
          have hwarns : warns = [] := nodeParse_no_warnings literal fuel c3 none true _ hnp
          subst hwarns
          split at h
          · exact Except.noConfusion h
          · rw [List.append_nil] at h
            split at h
            · exact ih _ _ _ _ _ h
            · exact ih _ _ _ _ _ h
      · rw [if_neg hbD] at h
        injection h with h
        subst h
        rfl

/-- `SpecParser.next_spec` returns an empty warnings list on every success. -/
theorem nextSpec_no_warnings (parseOne : String → Except ParseErr Spec)
    (toolchains : List String) (aliases : List (String × String)) (literal : String)
    (fuel : Nat) (ctx : TokenContext) (initial_spec : Option Spec)
    (out : Option Spec × List String × TokenContext)
    (h : nextSpec parseOne toolchains aliases literal fuel ctx initial_spec = .ok out) :
    out.2.1 = [] := by
  simp only [nextSpec] at h
  split at h
  · injection h with h
    subst h
    rfl
  · obtain ⟨⟨root, warnings, c1⟩, hnp, h⟩ := exceptBindOk h
    simp only [] at h
    obtain ⟨⟨root2, w2, c2⟩, hdl, h⟩ := exceptBindOk h
    simp only [] at h
    injection h with h
    subst h
    have h1 : warnings = [] := nodeParse_no_warnings literal fuel ctx _ true _ hnp
    have h2 : w2 = warnings :=
      depLoop_no_warnings parseOne toolchains aliases literal fuel c1 _ _ _ _ hdl
    exact h2.trans h1

/-- **C4** (code bug): parsing `"foo %clang +bar"` succeeds but queues no
warning at all — `last_compiler` is initialized to `None` by
`SpecNodeParser.parse` and never assigned, so `warn_if_after_compiler`
never fires — and `+bar` binds to the `clang` dependency node rather than
to `foo`; in general every successful `next_spec` returns an empty
warnings list. -/
theorem variant_after_compiler_warning_never_queued :
    (∃ ctx, parseNextSpec [] [] "foo %clang +bar"
        = .ok (some (Spec.mk { name := some "foo" }
            [{ child := Spec.mk
                   { name := some "clang",
                     variants := [{ name := "bar", value := .bool true,
                                    propagate := false, concrete := true }] }
                   [],
               direct := true, virtuals := [], depflag := 0, cond := none }]),
          [], ctx)) ∧
    ∀ (toolchains : List String) (aliases : List (String × String)) (text : String)
      (out : Option Spec × List String × TokenContext),
      parseNextSpec toolchains aliases text = .ok out → out.2.1 = [] := by
  constructor
  · exact ⟨_, rfl⟩
  · intro toolchains aliases text out h
    simp only [parseNextSpec] at h
    obtain ⟨ctx, -, h⟩ := exceptBindOk h
    exact nextSpec_no_warnings _ _ _ _ _ _ _ _ h

/-! ## At most one version clause per node (claim C2) -/

/-- An `accept` that returns `false` leaves the cursor untouched. -/
theorem accept_ok_false {ctx ctx' : TokenContext} {k : SpecTokens}
    (h : ctx.accept k = .ok (false, ctx')) : ctx' = ctx := by
  unfold TokenContext.accept at h
  split at h
  · split at h
    · cases hadv : ctx.advance with
      | error e => rw [hadv] at h; exact Except.noConfusion h
      | ok c =>
        rw [hadv] at h
        simp only [Except.map] at h
        injection h with h
        injection h with h1 h2
        exact Bool.noConfusion h1
    · injection h with h
      injection h with h1 h2
      exact h2.symm
  · injection h with h
    injection h with h1 h2
    exact h2.symm

/-- An `accept` that returns `true` consumed a lookahead of the accepted
kind through one `advance`. -/
theorem accept_ok_true {ctx ctx' : TokenContext} {k : SpecTokens}
    (h : ctx.accept k = .ok (true, ctx')) :
    ∃ t, ctx.next_token = some t ∧ t.kind = k ∧ ctx.advance = .ok ctx' := by
  unfold TokenContext.accept at h
  split at h
  · next t hn =>
    split at h
    · next hk =>
      cases hadv : ctx.advance with
      | error e => rw [hadv] at h; exact Except.noConfusion h
      | ok c =>
        rw [hadv] at h
        simp only [Except.map] at h
        injection h with h
        injection h with h1 h2
        subst h2
        exact ⟨t, hn, hk, rfl⟩
    · injection h with h
      injection h with h1 h2
      exact Bool.noConfusion h1
  · injection h with h
    injection h with h1 h2
    exact Bool.noConfusion h1

/-- With a lookahead present, the available tokens start with it. -/
theorem availTokens_cons {ctx : TokenContext} {t : Token SpecTokens}
    (hn : ctx.next_token = some t) :
    ctx.availTokens = t :: (ctx.pushed_tokens.filterMap id ++ ctx.rest) := by
  simp [TokenContext.availTokens, hn]

theorem countP_tail_le {α : Type} (p : α → Bool) (l : List α) :
    l.tail.countP p ≤ l.countP p := by
  cases l with
  | nil => exact Nat.le_refl _
  | cons x xs =>
    rw [List.tail_cons, List.countP_cons]
    cases hpx : p x <;> simp

/-- A monadic bind over `Except` that errors either errored in its first
step or in its continuation after a successful first step. -/
theorem exceptBindErr {ε α β : Type} {e : Except ε α} {f : α → Except ε β} {err : ε}
    (h : e >>= f = .error err) :
    e = .error err ∨ ∃ a, e = .ok a ∧ f a = .error err := by
  cases e with
  | error e2 =>
    have h2 : (Except.error e2 : Except ε β) = .error err := Eq.trans (by rfl) h
    injection h2 with h3
    exact Or.inl (h3 ▸ rfl)
  | ok a => exact Or.inr ⟨a, rfl, h⟩

/-- `accept` raises only the stream's tokenization error, never a
`SpecParsingError`. -/
theorem accept_no_parsing_error {ctx : TokenContext} {k : SpecTokens} {msg : String}
    {tok : Option (Token SpecTokens)} {txt : String}
    (h : ctx.accept k = .error (.parsing msg tok txt)) : False := by
  unfold TokenContext.accept at h
  split at h
  · split at h
    · simp only [TokenContext.advance] at h
      repeat' split at h
      all_goals simp [Except.map] at h
    · exact Except.noConfusion h
  · exact Except.noConfusion h

/-- The clause loop of `SpecNodeParser.parse` raises "Spec cannot have
multiple versions" only on accepting a version-kind token while
`has_version` is already set: with at most one version clause available
(counting an already-consumed one), the error is unreachable. -/
theorem nodeLoop_single_version (literal : String) :
    ∀ (fuel : Nat) (ctx : TokenContext) (spec : Spec) (hv : Bool) (lc : Option String)
      (w : List String) (tok : Option (Token SpecTokens)) (txt : String),
    ctx.availTokens.countP versionKind + (if hv = true then 1 else 0) ≤ 1 →
    nodeLoop literal fuel ctx spec hv lc w
      ≠ .error (.parsing "Spec cannot have multiple versions" tok txt) := by
  intro fuel
  induction fuel with
  | zero =>
    intro ctx spec hv lc w tok txt hcnt
    simp [nodeLoop]
  | succ fuel ih =>
    intro ctx spec hv lc w tok txt hcnt h
    simp only [nodeLoop] at h
    rcases exceptBindErr h with hacc1 | ⟨⟨b1, c1⟩, hacc1, h⟩
    · exact accept_no_parsing_error hacc1
    simp only [] at h
    by_cases hb1 : b1 = true
    · rw [if_pos hb1] at h
      rw [hb1] at hacc1
      obtain ⟨t, hn, hk, hadv⟩ := accept_ok_true hacc1
      have havail := availTokens_cons hn
      have hav1 := advance_avail hn hadv
      have hvk : versionKind t = true := by simp [versionKind, hk]
      have hcnt1 : ctx.availTokens.countP versionKind
          = (ctx.pushed_tokens.filterMap id ++ ctx.rest).countP versionKind + 1 := by
        rw [havail, List.countP_cons]
        simp [hvk]
      have htail : c1.availTokens = ctx.pushed_tokens.filterMap id ++ ctx.rest := by
        rw [hav1.2.1, havail, List.tail_cons]
      rw [pure_bind] at h
      simp only [] at h
      rw [if_pos True.intro, pure_bind] at h
      simp only [] at h
      rw [if_pos True.intro] at h
      by_cases hhv : hv = true
      · rw [if_pos hhv] at hcnt
        omega
      · rw [if_neg hhv] at h
        refine ih c1 _ true lc _ tok txt ?_ h
        rw [if_neg hhv] at hcnt
        rw [htail, if_pos rfl]
        omega
    · rw [if_neg hb1] at h
      have hb1f : b1 = false := Bool.eq_false_iff.mpr hb1
      rw [hb1f] at hacc1
      rw [accept_ok_false hacc1] at h
      rcases exceptBindErr h with hacc2 | ⟨⟨b2, c2⟩, hacc2, h⟩
      · exact accept_no_parsing_error hacc2
      simp only [] at h
      by_cases hb2 : b2 = true
      · rw [if_pos hb2] at h
        rw [hb2] at hacc2
        obtain ⟨t, hn, hk, hadv⟩ := accept_ok_true hacc2
        have havail := availTokens_cons hn
        have hav1 := advance_avail hn hadv
        have hvk : versionKind t = true := by simp [versionKind, hk]
        have hcnt1 : ctx.availTokens.countP versionKind
            = (ctx.pushed_tokens.filterMap id ++ ctx.rest).countP versionKind + 1 := by
          rw [havail, List.countP_cons]
          simp [hvk]
        have htail : c2.availTokens = ctx.pushed_tokens.filterMap id ++ ctx.rest := by
          rw [hav1.2.1, havail, List.tail_cons]
        rw [pure_bind] at h
        simp only [] at h
        rw [if_pos True.intro] at h
        by_cases hhv : hv = true
        · rw [if_pos hhv] at hcnt
          omega
        · rw [if_neg hhv] at h
          refine ih c2 _ true lc _ tok txt ?_ h
          rw [if_neg hhv] at hcnt
          rw [htail, if_pos rfl]
          omega
      · rw [if_neg hb2] at h
        have hb2f : b2 = false := Bool.eq_false_iff.mpr hb2
        rw [hb2f] at hacc2
        rw [accept_ok_false hacc2] at h
        rcases exceptBindErr h with hacc3 | ⟨⟨b3, c3⟩, hacc3, h⟩
        · exact accept_no_parsing_error hacc3
        simp only [] at h
        by_cases hb3 : b3 = true
        · rw [if_pos hb3] at h
          rw [hb3] at hacc3
          obtain ⟨t, hn, hk, hadv⟩ := accept_ok_true hacc3
          have havail := availTokens_cons hn
          have hav1 := advance_avail hn hadv
          have hvk : versionKind t = true := by simp [versionKind, hk]
          have hcnt1 : ctx.availTokens.countP versionKind
              = (ctx.pushed_tokens.filterMap id ++ ctx.rest).countP versionKind + 1 := by
            rw [havail, List.countP_cons]
            simp [hvk]
          have htail : c3.availTokens = ctx.pushed_tokens.filterMap id ++ ctx.rest := by
            rw [hav1.2.1, havail, List.tail_cons]
          by_cases hhv : hv = true
          · rw [if_pos hhv] at hcnt
            omega
          · rw [if_neg hhv] at h
            refine ih c3 _ true lc _ tok txt ?_ h
            rw [if_neg hhv] at hcnt
            rw [htail, if_pos rfl]
            omega
        · rw [if_neg hb3] at h
          have hb3f : b3 = false := Bool.eq_false_iff.mpr hb3
          rw [hb3f] at hacc3
          rw [accept_ok_false hacc3] at h
          rcases exceptBindErr h with hacc4 | ⟨⟨b4, c4⟩, hacc4, h⟩
          · exact accept_no_parsing_error hacc4
          simp only [] at h
          by_cases hb4 : b4 = true
          · rw [if_pos hb4] at h
            rw [hb4] at hacc4
            obtain ⟨t, hn, hk, hadv⟩ := accept_ok_true hacc4
            have hav1 := advance_avail hn hadv
            refine ih c4 _ hv lc _ tok txt ?_ h
            have hle : c4.availTokens.countP versionKind
                ≤ ctx.availTokens.countP versionKind := by
              rw [hav1.2.1]
              exact countP_tail_le _ _
            omega
          · rw [if_neg hb4] at h
            have hb4f : b4 = false := Bool.eq_false_iff.mpr hb4
            rw [hb4f] at hacc4
            rw [accept_ok_false hacc4] at h
            rcases exceptBindErr h with hacc5 | ⟨⟨b5, c5⟩, hacc5, h⟩
            · exact accept_no_parsing_error hacc5
            simp only [] at h
            by_cases hb5 : b5 = true
            · rw [if_pos hb5] at h
              rw [hb5] at hacc5
              obtain ⟨t, hn, hk, hadv⟩ := accept_ok_true hacc5
              have hav1 := advance_avail hn hadv
              refine ih c5 _ hv lc _ tok txt ?_ h
              have hle : c5.availTokens.countP versionKind
                  ≤ ctx.availTokens.countP versionKind := by
                rw [hav1.2.1]
                exact countP_tail_le _ _
              omega
            · rw [if_neg hb5] at h
              have hb5f : b5 = false := Bool.eq_false_iff.mpr hb5
              rw [hb5f] at hacc5
              rw [accept_ok_false hacc5] at h
              rcases exceptBindErr h with hacc6 | ⟨⟨b6, c6⟩, hacc6, h⟩
              · exact accept_no_parsing_error hacc6
              simp only [] at h
              by_cases hb6 : b6 = true
              · rw [if_pos hb6] at h
                rw [hb6] at hacc6
                obtain ⟨t, hn, hk, hadv⟩ := accept_ok_true hacc6
                have hav1 := advance_avail hn hadv
                split at h
                · injection h with h
                  exact ParseErr.noConfusion h
                · refine ih c6 _ hv lc _ tok txt ?_ h
                  have hle : c6.availTokens.countP versionKind
                      ≤ ctx.availTokens.countP versionKind := by
                    rw [hav1.2.1]
                    exact countP_tail_le _ _
                  omega
              · rw [if_neg hb6] at h
                have hb6f : b6 = false := Bool.eq_false_iff.mpr hb6
                rw [hb6f] at hacc6
                rw [accept_ok_false hacc6] at h
                rcases exceptBindErr h with hacc7 | ⟨⟨b7, c7⟩, hacc7, h⟩
                · exact accept_no_parsing_error hacc7
                simp only [] at h
                by_cases hb7 : b7 = true
                · rw [if_pos hb7] at h
                  rw [hb7] at hacc7
                  obtain ⟨t, hn, hk, hadv⟩ := accept_ok_true hacc7
                  have hav1 := advance_avail hn hadv
                  split at h
                  · injection h with h
                    exact ParseErr.noConfusion h
                  · refine ih c7 _ hv lc _ tok txt ?_ h
                    have hle : c7.availTokens.countP versionKind
                        ≤ ctx.availTokens.countP versionKind := by
                      rw [hav1.2.1]
                      exact countP_tail_le _ _
                    omega
                · rw [if_neg hb7] at h
                  have hb7f : b7 = false := Bool.eq_false_iff.mpr hb7
                  rw [hb7f] at hacc7
                  rw [accept_ok_false hacc7] at h
                  split at h
                  · split at h
                    · exact Except.noConfusion h
                    · rcases exceptBindErr h with hacc8 | ⟨⟨b8, c8⟩, hacc8, h⟩
                      · exact accept_no_parsing_error hacc8
                      simp only [] at h
                      by_cases hb8 : b8 = true
                      · rw [hb8] at hacc8
                        obtain ⟨t, hn, hk, hadv⟩ := accept_ok_true hacc8
                        have hav1 := advance_avail hn hadv
                        refine ih c8 _ hv lc _ tok txt ?_ h
                        have hle : c8.availTokens.countP versionKind
                            ≤ ctx.availTokens.countP versionKind := by
                          rw [hav1.2.1]
                          exact countP_tail_le _ _
                        omega
                      · have hb8f : b8 = false := Bool.eq_false_iff.mpr hb8
                        rw [hb8f] at hacc8
                        rw [accept_ok_false hacc8] at h
                        exact ih _ _ hv lc _ tok txt hcnt h
                  · exact Except.noConfusion h

/-- **C2**: the second version clause of `"foo@1.0@2.0"` raises the
token-anchored `SpecParsingError` whose message is "Spec cannot have
multiple versions", anchored at the second `VERSION` token; and a node
parse whose available tokens hold at most one version clause can never
raise that error. -/
theorem second_version_clause_rejected :
    (parse_one_or_raise [] [] "foo@1.0@2.0" none
      = .error (.parsing "Spec cannot have multiple versions"
          (some { kind := SpecTokens.VERSION, value := "@2.0", start := 7, endPos := 11 })
          "foo@1.0@2.0")) ∧
    ∀ (literal : String) (fuel : Nat) (ctx : TokenContext) (spec : Spec)
      (lc : Option String) (w : List String) (tok : Option (Token SpecTokens))
      (txt : String),
      ctx.availTokens.countP versionKind ≤ 1 →
      nodeLoop literal fuel ctx spec false lc w
        ≠ .error (.parsing "Spec cannot have multiple versions" tok txt) := by
  constructor
  · rfl
  · intro literal fuel ctx spec lc w tok txt hcnt
    refine nodeLoop_single_version literal fuel ctx spec false lc w tok txt ?_
    simpa using hcnt

/-! ## The legacy rewriter (claims C6 and C7) -/

/-- With no compiler block recorded (`idx = -1`) the reorder step is the
identity. -/
theorem reorder_compiler_none (blocks : List (List (Token LegacyTokens))) :
    specStrReorderCompiler (-1) blocks = blocks := by
  unfold specStrReorderCompiler
  rw [if_pos]
  rintro ⟨h1, -⟩
  exact absurd h1 (by decide)

/-- The reorder step is the identity when the compiler block is last or
only whitespace blocks follow it. -/
theorem reorder_compiler_unchanged (i : Nat) (B : List (List (Token LegacyTokens)))
    (h : B.length = i + 1 ∨
      (B.drop (i + 1)).all (fun b => b.all (fun t => t.kind = LegacyTokens.WS)) = true) :
    specStrReorderCompiler (i : Int) B = B := by
  unfold specStrReorderCompiler
  rcases h with h | h
  · rw [if_pos]
    rintro ⟨-, h2⟩
    rw [h] at h2
    omega
  · by_cases hc : ¬ ((0 : Int) ≤ (i : Int) ∧ (i : Int) < (B.length : Int) - 1)
    · rw [if_pos hc]
    · rw [if_neg hc]
      rw [show ((i : Int)).toNat = i from rfl]
      rw [if_pos h]

/-- A whitespace-only tail is gathered into the pending block and the loop
finishes with the recorded compiler index. -/
theorem legacyFormatLoop_ws_tail :
    ∀ (rest : List (Token LegacyTokens)) (blocks : List (List (Token LegacyTokens)))
      (current : List (Token LegacyTokens)) (idx : Int) (inEdge : Bool),
    (∀ t ∈ rest, t.kind = LegacyTokens.WS) →
    legacyFormatLoop rest blocks current idx inEdge
      = .ok (some ((if current ++ rest ≠ [] then blocks ++ [current ++ rest] else blocks),
          idx)) := by
  intro rest
  induction rest with
  | nil =>
    intro blocks current idx inEdge _
    simp [legacyFormatLoop]
  | cons t rest ih =>
    intro blocks current idx inEdge hws
    have htk : t.kind = LegacyTokens.WS := hws t (List.mem_cons_self t rest)
    have hrec : legacyFormatLoop (t :: rest) blocks current idx inEdge
        = legacyFormatLoop rest blocks (current ++ [t]) idx inEdge := by
      simp only [legacyFormatLoop, htk]
      simp [isLegacyCompilerKind, isLegacyBlockStartKind, isLegacyClauseKind]
    rw [hrec, ih blocks (current ++ [t]) idx inEdge
      (fun x hx => hws x (List.mem_cons_of_mem t hx))]
    have hne1 : current ++ [t] ++ rest ≠ [] := by simp
    have hne2 : current ++ t :: rest ≠ [] := by simp
    rw [if_pos hne1, if_pos hne2]
    simp

/-- The raw legacy token values concatenate back to the input. -/
theorem legacyTokenizeRaw_flatten (text : String) :
    (((legacyTokenizeRaw text).map (fun t => t.value.data)).flatten) = text.data :=
  tokenizeWithAux_flatten legacyNextToken (fun cs h => legacyNextToken_none h)
    (fun cs k n sv h => legacyNextToken_bounds h) text.data.length 0 text.data le_rfl

/-- `_spec_str_format` returns "no change" when the token loop aborts. -/
theorem specStrFormat_of_loop_abort {text : String}
    (hloop : legacyFormatLoop (legacyTokenizeRaw text) [] [] (-1) false = .ok none) :
    specStrFormat text = .ok none := by
  simp only [specStrFormat, hloop]
  rfl

/-- `_spec_str_format` returns "no change" when the gathered blocks are
left untouched by the reorder step and flatten back to the input's token
stream. -/
theorem specStrFormat_of_loop_unchanged {text : String}
    {blocks : List (List (Token LegacyTokens))} {idx : Int}
    (hloop : legacyFormatLoop (legacyTokenizeRaw text) [] [] (-1) false
      = .ok (some (blocks, idx)))
    (hre : specStrReorderCompiler idx blocks = blocks)
    (hflat : blocks.flatMap id = legacyTokenizeRaw text) :
    specStrFormat text = .ok none := by
  simp only [specStrFormat, hloop]
  have hnew : (((blocks.flatMap id).map (fun t => t.value.data)).flatten).asString
      = text := by
    rw [hflat, legacyTokenizeRaw_flatten]
    rfl
  show (Except.ok (some (blocks, idx)) >>= _) = _
  rw [show ∀ (f : Option (List (List (Token LegacyTokens)) × Int)
        → Except ParseErr (Option String)),
      (Except.ok (some (blocks, idx)) >>= f) = f (some (blocks, idx)) from fun f => rfl]
  simp only [hre, hnew]
  rw [if_neg]
  intro hne
  exact hne rfl

/-- Traversing tokens that are no compiler clause, no unexpected token and
no filename keeps `idx = -1` and gathers the consumed tokens, in order,
into the blocks and the pending block. -/
theorem legacyFormatLoop_skips :
    ∀ (pre tail : List (Token LegacyTokens)) (blocks : List (List (Token LegacyTokens)))
      (current : List (Token LegacyTokens)) (inEdge : Bool),
    (∀ t ∈ pre, isLegacyCompilerKind t.kind = false ∧ t.kind ≠ LegacyTokens.UNEXPECTED ∧
      t.kind ≠ LegacyTokens.FILENAME) →
    ∃ blocks' current' inEdge',
      legacyFormatLoop (pre ++ tail) blocks current (-1) inEdge
        = legacyFormatLoop tail blocks' current' (-1) inEdge' ∧
      blocks'.flatMap id ++ current' = blocks.flatMap id ++ current ++ pre := by
  intro pre
  induction pre with
  | nil =>
    intro tail blocks current inEdge _
    exact ⟨blocks, current, inEdge, rfl, by simp⟩
  | cons t pre ih =>
    intro tail blocks current inEdge hpre
    have ht := hpre t (List.mem_cons_self t pre)
    have hpre' : ∀ x ∈ pre, isLegacyCompilerKind x.kind = false ∧
        x.kind ≠ LegacyTokens.UNEXPECTED ∧ x.kind ≠ LegacyTokens.FILENAME :=
      fun x hx => hpre x (List.mem_cons_of_mem t hx)
    have hnu : ¬ (t.kind = LegacyTokens.UNEXPECTED) := ht.2.1
    have hnc : ¬ (isLegacyCompilerKind t.kind = true) := by simp [ht.1]
    by_cases hbs : isLegacyBlockStartKind t.kind = true
    · have hstep : legacyFormatLoop ((t :: pre) ++ tail) blocks current (-1) inEdge
          = legacyFormatLoop (pre ++ tail) (blocks ++ [current ++ [t]]) [] (-1)
              (if t.kind = LegacyTokens.START_EDGE_PROPERTIES then true else inEdge) := by
        rw [List.cons_append]
        simp only [legacyFormatLoop]
        rw [if_neg hnu, if_neg hnc, if_pos hbs, reorder_compiler_none]
      obtain ⟨b2, c2, e2, heq, hflat⟩ := ih tail (blocks ++ [current ++ [t]]) []
        (if t.kind = LegacyTokens.START_EDGE_PROPERTIES then true else inEdge) hpre'
      refine ⟨b2, c2, e2, hstep.trans heq, ?_⟩
      rw [hflat]
      simp [List.flatMap_append]
    · by_cases hend : t.kind = LegacyTokens.END_EDGE_PROPERTIES
      · have hstep : legacyFormatLoop ((t :: pre) ++ tail) blocks current (-1) inEdge
            = legacyFormatLoop (pre ++ tail) (blocks ++ [current ++ [t]]) [] (-1) false := by
          rw [List.cons_append]
          simp only [legacyFormatLoop]
          rw [if_neg hnu, if_neg hnc, if_neg hbs, if_pos hend]
        obtain ⟨b2, c2, e2, heq, hflat⟩ := ih tail (blocks ++ [current ++ [t]]) [] false hpre'
        refine ⟨b2, c2, e2, hstep.trans heq, ?_⟩
        rw [hflat]
        simp [List.flatMap_append]
      · by_cases hie : inEdge = true
        · have hstep : legacyFormatLoop ((t :: pre) ++ tail) blocks current (-1) inEdge
              = legacyFormatLoop (pre ++ tail) blocks (current ++ [t]) (-1) inEdge := by
            rw [List.cons_append]
            simp only [legacyFormatLoop]
            rw [if_neg hnu, if_neg hnc, if_neg hbs, if_neg hend, if_pos hie]
          obtain ⟨b2, c2, e2, heq, hflat⟩ := ih tail blocks (current ++ [t]) inEdge hpre'
          refine ⟨b2, c2, e2, hstep.trans heq, ?_⟩
          rw [hflat]
          simp
        · by_cases hcl : isLegacyClauseKind t.kind = true
          · have hstep : legacyFormatLoop ((t :: pre) ++ tail) blocks current (-1) inEdge
                = legacyFormatLoop (pre ++ tail) (blocks ++ [current ++ [t]]) [] (-1)
                    inEdge := by
              rw [List.cons_append]
              simp only [legacyFormatLoop]
              rw [if_neg hnu, if_neg hnc, if_neg hbs, if_neg hend, if_neg hie, if_pos hcl]
            obtain ⟨b2, c2, e2, heq, hflat⟩ := ih tail (blocks ++ [current ++ [t]]) []
              inEdge hpre'
            refine ⟨b2, c2, e2, hstep.trans heq, ?_⟩
            rw [hflat]
            simp [List.flatMap_append]
          · by_cases hwsk : t.kind = LegacyTokens.WS
            · have hstep : legacyFormatLoop ((t :: pre) ++ tail) blocks current (-1) inEdge
                  = legacyFormatLoop (pre ++ tail) blocks (current ++ [t]) (-1) inEdge := by
                rw [List.cons_append]
                simp only [legacyFormatLoop]
                rw [if_neg hnu, if_neg hnc, if_neg hbs, if_neg hend, if_neg hie, if_neg hcl,
                  if_pos hwsk]
              obtain ⟨b2, c2, e2, heq, hflat⟩ := ih tail blocks (current ++ [t]) inEdge hpre'
              refine ⟨b2, c2, e2, hstep.trans heq, ?_⟩
              rw [hflat]
              simp
            · exfalso
              cases htk : t.kind <;>
                first
                  | exact hnu htk
                  | exact hend htk
                  | exact hwsk htk
                  | exact ht.2.2 htk
                  | exact hnc (by rw [htk]; decide)
                  | exact hbs (by rw [htk]; decide)
                  | exact hcl (by rw [htk]; decide)

/-- Once a compiler block is recorded (`idx ≠ -1`), a further compiler
clause or an unexpected token in the same node — no block start in
between — aborts the loop with "no change". -/
theorem legacyFormatLoop_abort :
    ∀ (rest : List (Token LegacyTokens)) (blocks : List (List (Token LegacyTokens)))
      (current : List (Token LegacyTokens)) (idx : Int) (inEdge : Bool),
    idx ≠ -1 →
    (∀ t ∈ rest, isLegacyBlockStartKind t.kind = false ∧ t.kind ≠ LegacyTokens.FILENAME) →
    (∃ t ∈ rest, isLegacyCompilerKind t.kind = true ∨ t.kind = LegacyTokens.UNEXPECTED) →
    legacyFormatLoop rest blocks current idx inEdge = .ok none := by
  intro rest
  induction rest with
  | nil =>
    intro _ _ _ _ _ _ hex
    obtain ⟨t, ht, -⟩ := hex
    exact absurd ht (List.not_mem_nil t)
  | cons t rest ih =>
    intro blocks current idx inEdge hidx hall hex
    have ht := hall t (List.mem_cons_self t rest)
    by_cases hnu : t.kind = LegacyTokens.UNEXPECTED
    · simp only [legacyFormatLoop]
      rw [if_pos hnu]
    · by_cases hnc : isLegacyCompilerKind t.kind = true
      · simp only [legacyFormatLoop]
        rw [if_neg hnu, if_pos hnc, if_pos hidx]
      · have hex' : ∃ x ∈ rest,
            isLegacyCompilerKind x.kind = true ∨ x.kind = LegacyTokens.UNEXPECTED := by
          obtain ⟨x, hx, hxp⟩ := hex
          rcases List.mem_cons.mp hx with rfl | hx2
          · rcases hxp with hh | hh
            · exact absurd hh hnc
            · exact absurd hh hnu
          · exact ⟨x, hx2, hxp⟩
        have hall' : ∀ x ∈ rest,
            isLegacyBlockStartKind x.kind = false ∧ x.kind ≠ LegacyTokens.FILENAME :=
          fun x hx => hall x (List.mem_cons_of_mem t hx)
        have hbs : ¬ (isLegacyBlockStartKind t.kind = true) := by simp [ht.1]
        by_cases hend : t.kind = LegacyTokens.END_EDGE_PROPERTIES
        · simp only [legacyFormatLoop]
          rw [if_neg hnu, if_neg hnc, if_neg hbs, if_pos hend]
          exact ih _ _ _ _ hidx hall' hex'
        · by_cases hie : inEdge = true
          · simp only [legacyFormatLoop]
            rw [if_neg hnu, if_neg hnc, if_neg hbs, if_neg hend, if_pos hie]
            exact ih _ _ _ _ hidx hall' hex'
          · by_cases hcl : isLegacyClauseKind t.kind = true
            · simp only [legacyFormatLoop]
              rw [if_neg hnu, if_neg hnc, if_neg hbs, if_neg hend, if_neg hie, if_pos hcl]
              exact ih _ _ _ _ hidx hall' hex'
            · by_cases hwsk : t.kind = LegacyTokens.WS
              · simp only [legacyFormatLoop]
                rw [if_neg hnu, if_neg hnc, if_neg hbs, if_neg hend, if_neg hie, if_neg hcl,
                  if_pos hwsk]
                exact ih _ _ _ _ hidx hall' hex'
              · exfalso
                cases htk : t.kind <;>
                  first
                    | exact hnu htk
                    | exact hend htk
                    | exact hwsk htk
                    | exact ht.2 htk
                    | exact hnc (by rw [htk]; decide)
                    | exact hbs (by rw [htk]; decide)
                    | exact hcl (by rw [htk]; decide)

/-- An unexpected token with no filename token before it makes the loop
return "no change", whatever state it is reached in. -/
theorem legacyFormatLoop_unexpected :
    ∀ (pre : List (Token LegacyTokens)) (u : Token LegacyTokens)
      (post : List (Token LegacyTokens)),
    u.kind = LegacyTokens.UNEXPECTED →
    (∀ t ∈ pre, t.kind ≠ LegacyTokens.FILENAME) →
    ∀ (blocks : List (List (Token LegacyTokens))) (current : List (Token LegacyTokens))
      (idx : Int) (inEdge : Bool),
    legacyFormatLoop (pre ++ u :: post) blocks current idx inEdge = .ok none := by
  intro pre
  induction pre with
  | nil =>
    intro u post hu _ blocks current idx inEdge
    rw [List.nil_append]
    simp only [legacyFormatLoop]
    rw [if_pos hu]
  | cons t pre ih =>
    intro u post hu hpre blocks current idx inEdge
    have ht : t.kind ≠ LegacyTokens.FILENAME := hpre t (List.mem_cons_self t pre)
    have hpre' : ∀ x ∈ pre, x.kind ≠ LegacyTokens.FILENAME :=
      fun x hx => hpre x (List.mem_cons_of_mem t hx)
    rw [List.cons_append]
    by_cases hnu : t.kind = LegacyTokens.UNEXPECTED
    · simp only [legacyFormatLoop]
      rw [if_pos hnu]
    · by_cases hnc : isLegacyCompilerKind t.kind = true
      · simp only [legacyFormatLoop]
        rw [if_neg hnu, if_pos hnc]
        by_cases hidx : idx ≠ -1
        · rw [if_pos hidx]
        · rw [if_neg hidx]
          exact ih u post hu hpre' _ _ _ _
      · by_cases hbs : isLegacyBlockStartKind t.kind = true
        · simp only [legacyFormatLoop]
          rw [if_neg hnu, if_neg hnc, if_pos hbs]
          exact ih u post hu hpre' _ _ _ _
        · by_cases hend : t.kind = LegacyTokens.END_EDGE_PROPERTIES
          · simp only [legacyFormatLoop]
            rw [if_neg hnu, if_neg hnc, if_neg hbs, if_pos hend]
            exact ih u post hu hpre' _ _ _ _
          · by_cases hie : inEdge = true
            · simp only [legacyFormatLoop]
              rw [if_neg hnu, if_neg hnc, if_neg hbs, if_neg hend, if_pos hie]
              exact ih u post hu hpre' _ _ _ _
            · by_cases hcl : isLegacyClauseKind t.kind = true
              · simp only [legacyFormatLoop]
                rw [if_neg hnu, if_neg hnc, if_neg hbs, if_neg hend, if_neg hie, if_pos hcl]
                exact ih u post hu hpre' _ _ _ _
              · by_cases hwsk : t.kind = LegacyTokens.WS
                · simp only [legacyFormatLoop]
                  rw [if_neg hnu, if_neg hnc, if_neg hbs, if_neg hend, if_neg hie,
                    if_neg hcl, if_pos hwsk]
                  exact ih u post hu hpre' _ _ _ _
                · exfalso
                  cases htk : t.kind <;>
                    first
                      | exact hnu htk
                      | exact hend htk
                      | exact hwsk htk
                      | exact ht htk
                      | exact hnc (by rw [htk]; decide)
                      | exact hbs (by rw [htk]; decide)
                      | exact hcl (by rw [htk]; decide)

/-- Closing the pending block appends it to the flattened blocks. -/
theorem flatMap_close (b2 : List (List (Token LegacyTokens)))
    (c2 : List (Token LegacyTokens)) :
    ((if c2 ≠ [] then b2 ++ [c2] else b2).flatMap id) = b2.flatMap id ++ c2 := by
  by_cases h : c2 = []
  · rw [if_neg (by simp [h]), h, List.append_nil]
  · rw [if_pos h, List.flatMap_append]
    simp

/-- **C6** (counterexample to the unrestricted claim).  The legacy rewriter
does not return a rewrite or "no change" on every input: a `FILENAME`
token outside an edge-attribute block falls through every branch of the
token loop and raises `ValueError`. -/
theorem legacy_filename_raises :
    specStrFormat "./a.yaml" = .error (.valueError "unexpected token ./a.yaml") := rfl

/-- **C6** (corrected).  The legacy rewriter moves a node's single compiler
clause with its leading whitespace behind the node's other clauses
(witnessed by the spec's own example), and returns "no change" when the
input has no compiler clause at all, or when the compiler clause is
followed by whitespace only (already last); `legacy_filename_raises`
refutes the claim's universal reading, a filename reference raising
`ValueError` instead. -/
theorem legacy_compiler_rotation :
    (specStrFormat "foo @3.1 +foo %gcc@3.1 +baz"
      = .ok (some "foo @3.1 +foo +baz %gcc@3.1")) ∧
    (∀ text : String,
      (∀ t ∈ legacyTokenizeRaw text, isLegacyCompilerKind t.kind = false ∧
        t.kind ≠ LegacyTokens.UNEXPECTED ∧ t.kind ≠ LegacyTokens.FILENAME) →
      specStrFormat text = .ok none) ∧
    (∀ (text : String) (pre ws : List (Token LegacyTokens)) (c : Token LegacyTokens),
      legacyTokenizeRaw text = pre ++ c :: ws →
      isLegacyCompilerKind c.kind = true →
      (∀ t ∈ pre, isLegacyCompilerKind t.kind = false ∧
        t.kind ≠ LegacyTokens.UNEXPECTED ∧ t.kind ≠ LegacyTokens.FILENAME) →
      (∀ t ∈ ws, t.kind = LegacyTokens.WS) →
      specStrFormat text = .ok none) := by
  refine ⟨rfl, ?_, ?_⟩
  · intro text hall
    obtain ⟨b2, c2, e2, heq, hflat⟩ :=
      legacyFormatLoop_skips (legacyTokenizeRaw text) [] [] [] false hall
    rw [List.append_nil] at heq
    have hloop : legacyFormatLoop (legacyTokenizeRaw text) [] [] (-1) false
        = .ok (some ((if c2 ≠ [] then b2 ++ [c2] else b2), -1)) := by
      rw [heq]
      rfl
    refine specStrFormat_of_loop_unchanged hloop (reorder_compiler_none _) ?_
    rw [flatMap_close]
    simpa using hflat
  · intro text pre ws c htoks hc hpre hws
    obtain ⟨b2, c2, e2, heq, hflat⟩ :=
      legacyFormatLoop_skips pre (c :: ws) [] [] false hpre
    have hflat2 : b2.flatMap id ++ c2 = pre := by simpa using hflat
    have hcnu : ¬ (c.kind = LegacyTokens.UNEXPECTED) := by
      intro hh
      rw [hh] at hc
      exact absurd hc (by decide)
    have hneg : ¬ ((-1 : Int) ≠ -1) := fun hh => hh rfl
    have hstep : legacyFormatLoop (c :: ws) b2 c2 (-1) e2
        = legacyFormatLoop ws (b2 ++ [c2 ++ [c]]) [] ((b2.length : Int)) e2 := by
      simp only [legacyFormatLoop]
      rw [if_neg hcnu, if_pos hc, if_neg hneg]
    have hwst := legacyFormatLoop_ws_tail ws (b2 ++ [c2 ++ [c]]) [] ((b2.length : Int))
      e2 hws
    rw [List.nil_append] at hwst
    have hloop : legacyFormatLoop (legacyTokenizeRaw text) [] [] (-1) false
        = .ok (some ((if ws ≠ [] then (b2 ++ [c2 ++ [c]]) ++ [ws] else b2 ++ [c2 ++ [c]]),
            (b2.length : Int))) := by
      rw [htoks, heq, hstep, hwst]
    refine specStrFormat_of_loop_unchanged hloop ?_ ?_
    · by_cases hw0 : ws = []
      · rw [if_neg (by simp [hw0])]
        exact reorder_compiler_unchanged b2.length _ (Or.inl (by simp))
      · rw [if_pos hw0]
        refine reorder_compiler_unchanged b2.length _ (Or.inr ?_)
        have h1 : b2.length + 1 = (b2 ++ [c2 ++ [c]]).length := by simp
        rw [h1, List.drop_left]
        simp only [List.all_cons, List.all_nil, Bool.and_true]
        rw [List.all_eq_true]
        intro t htm
        simp [hws t htm]
    · rw [flatMap_close, htoks]
      calc (b2 ++ [c2 ++ [c]]).flatMap id ++ ws
          = (b2.flatMap id ++ (c2 ++ [c])) ++ ws := by
            rw [List.flatMap_append]
            simp
        _ = (b2.flatMap id ++ c2) ++ ([c] ++ ws) := by simp [List.append_assoc]
        _ = pre ++ c :: ws := by rw [hflat2]; rfl

/-- **C7** (counterexample to the unrestricted claim).  Two compiler
clauses on two different nodes are not aborted: a block-start token
resets the recorded compiler index, so both nodes are rewritten. -/
theorem legacy_two_compilers_two_nodes_rewrites :
    specStrFormat "foo %gcc +x bar %clang" = .ok (some "foo +x %gcc bar %clang") := rfl

/-- **C7** (corrected).  A second compiler clause on the *same* node — no
block start between the two — aborts the rewrite with "no change" rather
than raising, and an unexpected token not preceded by a filename token
likewise yields "no change"; `legacy_two_compilers_two_nodes_rewrites`
refutes the claim's reading for compiler clauses on distinct nodes. -/
theorem legacy_second_compiler_same_node_aborts :
    (∀ (text : String) (pre mid : List (Token LegacyTokens)) (c1 : Token LegacyTokens),
      legacyTokenizeRaw text = pre ++ c1 :: mid →
      isLegacyCompilerKind c1.kind = true →
      (∀ t ∈ pre, isLegacyCompilerKind t.kind = false ∧
        t.kind ≠ LegacyTokens.UNEXPECTED ∧ t.kind ≠ LegacyTokens.FILENAME) →
      (∀ t ∈ mid, isLegacyBlockStartKind t.kind = false ∧
        t.kind ≠ LegacyTokens.FILENAME) →
      (∃ t ∈ mid, isLegacyCompilerKind t.kind = true ∨
        t.kind = LegacyTokens.UNEXPECTED) →
      specStrFormat text = .ok none) ∧
    (∀ (text : String) (pre post : List (Token LegacyTokens)) (u : Token LegacyTokens),
      legacyTokenizeRaw text = pre ++ u :: post →
      u.kind = LegacyTokens.UNEXPECTED →
      (∀ t ∈ pre, t.kind ≠ LegacyTokens.FILENAME) →
      specStrFormat text = .ok none) := by
  constructor
  · intro text pre mid c1 htoks hc1 hpre hmid hex
    obtain ⟨b2, c2, e2, heq, hflat⟩ :=
      legacyFormatLoop_skips pre (c1 :: mid) [] [] false hpre
    have hcnu : ¬ (c1.kind = LegacyTokens.UNEXPECTED) := by
      intro hh
      rw [hh] at hc1
      exact absurd hc1 (by decide)
    have hneg : ¬ ((-1 : Int) ≠ -1) := fun hh => hh rfl
    have hstep : legacyFormatLoop (c1 :: mid) b2 c2 (-1) e2
        = legacyFormatLoop mid (b2 ++ [c2 ++ [c1]]) [] ((b2.length : Int)) e2 := by
      simp only [legacyFormatLoop]
      rw [if_neg hcnu, if_pos hc1, if_neg hneg]
    have habort := legacyFormatLoop_abort mid (b2 ++ [c2 ++ [c1]]) [] ((b2.length : Int))
      e2 (by omega) hmid hex
    exact specStrFormat_of_loop_abort (by rw [htoks, heq, hstep, habort])
  · intro text pre post u htoks hu hpre
    exact specStrFormat_of_loop_abort
      (by rw [htoks]; exact legacyFormatLoop_unexpected pre u post hu hpre [] [] (-1) false)

/-! ## The two virtual-substitution forms (claim C1) -/

theorem id_ne {c d : Char} (hc : isIdChar c = true) (hd : isIdChar d = false) : c ≠ d := by
  intro h
  subst h
  rw [hc] at hd
  exact Bool.noConfusion hd

theorem word_isId {c : Char} (hw : isWordChar c = true) : isIdChar c = true := by
  simp [isIdChar, hw]

theorem word_ne {c d : Char} (hw : isWordChar c = true)
    (hd : isWordChar d = false) : c ≠ d := by
  intro h
  subst h
  rw [hw] at hd
  exact Bool.noConfusion hd

theorem id_not_space {c : Char} (hc : isIdChar c = true) : isSpaceChar c = false := by
  by_contra h
  rw [Bool.not_eq_false] at h
  simp only [isSpaceChar, Bool.or_eq_true, decide_eq_true_eq] at h
  rcases h with ((((h | h) | h) | h) | h) | h <;> subst h <;> exact absurd hc (by decide)

theorem id_isName {c : Char} (hc : isIdChar c = true) : isNameChar c = true := by
  simp only [isIdChar, Bool.or_eq_true] at hc
  rcases hc with h | h <;> simp [isNameChar, h]

theorem id_isValue {c : Char} (hc : isIdChar c = true) : isValueChar c = true := by
  simp only [isIdChar, Bool.or_eq_true] at hc
  rcases hc with h | h
  · simp [isValueChar, h]
  · simp [isValueChar, h]

theorem id_isFnPrefix {c : Char} (hc : isIdChar c = true) : isFnPrefixChar c = true := by
  simp only [isIdChar, isWordChar, Bool.or_eq_true, decide_eq_true_eq,
    Bool.and_eq_true] at hc
  rcases hc with (((h | h) | h) | h) | h <;>
    simp [isFnPrefixChar, h]

theorem runLen_cons_pos {p : Char → Bool} {c : Char} (cs : List Char) (h : p c = true) :
    runLen p (c :: cs) = 1 + runLen p cs := by
  simp [runLen, List.takeWhile_cons, h]
  omega

theorem runLen_cons_neg {p : Char → Bool} {c : Char} (cs : List Char) (h : p c = false) :
    runLen p (c :: cs) = 0 := by
  simp [runLen, List.takeWhile_cons, h]

theorem runLen_append_all {p : Char → Bool} :
    ∀ (A B : List Char), (∀ c ∈ A, p c = true) →
    runLen p (A ++ B) = A.length + runLen p B := by
  intro A
  induction A with
  | nil => intro B _; simp
  | cons a A ih =>
    intro B hA
    rw [List.cons_append, runLen_cons_pos _ (hA a (List.mem_cons_self a A)),
      ih B (fun c hc => hA c (List.mem_cons_of_mem a hc)), List.length_cons]
    omega

theorem runLen_all {p : Char → Bool} (A : List Char) (h : ∀ c ∈ A, p c = true) :
    runLen p A = A.length := by
  have h2 := runLen_append_all A [] h
  simpa using h2

theorem matchId_shape {c : Char} {cs rest : List Char}
    (hw : isWordChar c = true) (hcs : ∀ x ∈ cs, isIdChar x = true)
    (hr : runLen isIdChar rest = 0) :
    matchId (c :: cs ++ rest) = some (1 + cs.length) := by
  rw [show matchId (c :: cs ++ rest)
      = if isWordChar c = true then some (1 + runLen isIdChar (cs ++ rest)) else none
    from rfl]
  rw [if_pos hw, runLen_append_all cs rest hcs, hr, Nat.add_zero]

theorem matchId_all {c : Char} {cs : List Char}
    (hw : isWordChar c = true) (hcs : ∀ x ∈ cs, isIdChar x = true) :
    matchId (c :: cs) = some (1 + cs.length) := by
  have h := @matchId_shape c cs [] hw hcs rfl
  simpa using h

theorem dottedTailAux_nil (fuel : Nat) : dottedTailAux fuel [] = (0, 0) := by
  cases fuel <;> rfl

theorem dottedTailAux_no_dot {fuel : Nat} {cs : List Char}
    (h : cs.head? ≠ some '.') : dottedTailAux fuel cs = (0, 0) := by
  cases fuel with
  | zero => rfl
  | succ fuel =>
    cases cs with
    | nil => rfl
    | cons c rest =>
      simp only [dottedTailAux]
      split
      · simp_all
      · rfl

theorem commaIdTailAux_nil (fuel : Nat) : commaIdTailAux fuel [] = 0 := by
  cases fuel <;> rfl

theorem commaIdTailAux_no_comma {fuel : Nat} {cs : List Char}
    (h : cs.head? ≠ some ',') : commaIdTailAux fuel cs = 0 := by
  cases fuel with
  | zero => rfl
  | succ fuel =>
    cases cs with
    | nil => rfl
    | cons c rest =>
      simp only [commaIdTailAux]
      split
      · simp_all
      · rfl

theorem runLen_flatMap_rest (vs : List String) (rest : List Char)
    (hr : runLen isIdChar rest = 0) :
    runLen isIdChar (vs.flatMap (fun v => ',' :: v.data) ++ rest) = 0 := by
  cases vs with
  | nil => simpa using hr
  | cons w ws =>
    rw [List.flatMap_cons, List.cons_append, List.cons_append]
    exact runLen_cons_neg _ (by decide)

theorem matchDottedId_ident {c : Char} {cs : List Char}
    (hw : isWordChar c = true) (hcs : ∀ x ∈ cs, isIdChar x = true) :
    matchDottedId (c :: cs) = none := by
  simp only [matchDottedId, matchId_all hw hcs]
  have hd : (c :: cs).drop (1 + cs.length) = [] :=
    List.drop_eq_nil_of_le (by simp [Nat.add_comm])
  rw [hd]
  rfl

theorem commaIdTailAux_join :
    ∀ (vrest : List String) (rest : List Char) (fuel : Nat),
    (∀ v ∈ vrest, ∃ c cs, v.data = c :: cs ∧ isWordChar c = true ∧
      ∀ x ∈ cs, isIdChar x = true) →
    runLen isIdChar rest = 0 → rest.head? ≠ some ',' →
    (vrest.flatMap (fun v => ',' :: v.data)).length + rest.length ≤ fuel →
    commaIdTailAux fuel (vrest.flatMap (fun v => ',' :: v.data) ++ rest)
      = (vrest.flatMap (fun v => ',' :: v.data)).length := by
  intro vrest
  induction vrest with
  | nil =>
    intro rest fuel _ hr hc hf
    simp only [List.flatMap_nil, List.nil_append, List.length_nil]
    exact commaIdTailAux_no_comma hc
  | cons v vs ih =>
    intro rest fuel hv hr hc hf
    obtain ⟨c, cs, hvd, hw, hcs⟩ := hv v (List.mem_cons_self v vs)
    cases fuel with
    | zero =>
      exfalso
      rw [List.flatMap_cons, List.length_append, List.length_cons] at hf
      omega
    | succ fuel =>
      have hrl : runLen isIdChar (vs.flatMap (fun v => ',' :: v.data) ++ rest) = 0 :=
        runLen_flatMap_rest vs rest hr
      rw [List.flatMap_cons, hvd]
      simp only [List.cons_append, List.append_assoc]
      simp only [commaIdTailAux]
      rw [← List.cons_append]
      rw [matchId_shape hw hcs hrl]
      simp only []
      have hdrop : ((c :: cs) ++ (vs.flatMap (fun v => ',' :: v.data) ++ rest)).drop
          (1 + cs.length) = vs.flatMap (fun v => ',' :: v.data) ++ rest := by
        rw [show (1 + cs.length) = (c :: cs).length from by simp [Nat.add_comm]]
        exact List.drop_left _ _
      rw [hdrop]
      have hih := ih rest fuel (fun x hx => hv x (List.mem_cons_of_mem v hx)) hr hc
        (by
          rw [List.flatMap_cons, List.length_append, List.length_cons] at hf
          omega)
      rw [hih]
      simp only [List.length_cons, List.length_append]
      omega

theorem commaIdTail_join (vrest : List String) (rest : List Char)
    (hv : ∀ v ∈ vrest, ∃ c cs, v.data = c :: cs ∧ isWordChar c = true ∧
      ∀ x ∈ cs, isIdChar x = true)
    (hr : runLen isIdChar rest = 0) (hc : rest.head? ≠ some ',') :
    commaIdTail (vrest.flatMap (fun v => ',' :: v.data) ++ rest)
      = (vrest.flatMap (fun v => ',' :: v.data)).length := by
  unfold commaIdTail
  exact commaIdTailAux_join vrest rest _ hv hr hc (by rw [List.length_append])

theorem matchVirtualAssignment_ident {c : Char} {cs : List Char}
    (hw : isWordChar c = true) (hcs : ∀ x ∈ cs, isIdChar x = true) :
    matchVirtualAssignment (c :: cs) = none := by
  simp only [matchVirtualAssignment]
  rw [matchId_all hw hcs]
  simp only []
  have hdrop : (c :: cs).drop (1 + cs.length) = [] :=
    List.drop_eq_nil_of_le (by simp [Nat.add_comm])
  rw [hdrop]
  rw [show commaIdTail [] = 0 from rfl, Nat.add_zero, hdrop]

theorem matchStartEdgeProperties_no_bracket {a c : Char} {cs : List Char}
    (h : c ≠ '[') : matchStartEdgeProperties (a :: c :: cs) = none := by
  unfold matchStartEdgeProperties
  split
  · simp_all
  · rfl

theorem matchEndEdgeProperties_ne {c : Char} {cs : List Char} (h : c ≠ ']') :
    matchEndEdgeProperties (c :: cs) = none := by
  unfold matchEndEdgeProperties
  split
  · simp_all
  · rfl

theorem matchDependency_ne {c : Char} {cs : List Char}
    (h1 : c ≠ '^') (h2 : c ≠ '%') : matchDependency (c :: cs) = none := by
  simp only [matchDependency]
  rw [if_neg]
  intro hcond
  simp only [Bool.or_eq_true, decide_eq_true_eq] at hcond
  rcases hcond with h | h
  · exact h1 h
  · exact h2 h

theorem matchVersionHashPair_ne {c : Char} {cs : List Char} (h : c ≠ '@') :
    matchVersionHashPair (c :: cs) = none := by
  unfold matchVersionHashPair
  split
  · simp_all
  · rfl

theorem matchGitVersion_ne {c : Char} {cs : List Char} (h : c ≠ '@') :
    matchGitVersion (c :: cs) = none := by
  unfold matchGitVersion
  split
  · simp_all
  · rfl

theorem matchVersionToken_ne {c : Char} {cs : List Char} (h : c ≠ '@') :
    matchVersionToken (c :: cs) = none := by
  unfold matchVersionToken
  split
  · simp_all
  · rfl

theorem matchDagHash_ne {c : Char} {cs : List Char} (h : c ≠ '/') :
    matchDagHash (c :: cs) = none := by
  unfold matchDagHash
  split
  · simp_all
  · rfl

theorem matchPropagatedBoolVariant_word {c : Char} {cs : List Char}
    (hw : isWordChar c = true) : matchPropagatedBoolVariant (c :: cs) = none := by
  cases cs with
  | nil => rfl
  | cons b rest =>
    simp only [matchPropagatedBoolVariant]
    rw [if_neg]
    intro hcond
    simp only [Bool.or_eq_true, Bool.and_eq_true, decide_eq_true_eq] at hcond
    rcases hcond with (⟨h, -⟩ | ⟨h, -⟩) | ⟨h, -⟩ <;> subst h <;> exact absurd hw (by decide)

theorem matchBoolVariant_word {c : Char} {cs : List Char}
    (hw : isWordChar c = true) : matchBoolVariant (c :: cs) = none := by
  simp only [matchBoolVariant]
  rw [if_neg]
  intro hcond
  simp only [Bool.or_eq_true, decide_eq_true_eq] at hcond
  rcases hcond with (h | h) | h <;> subst h <;> exact absurd hw (by decide)

theorem matchName_ident {c : Char} {cs : List Char}
    (hw : isWordChar c = true) (hcs : ∀ x ∈ cs, isIdChar x = true) :
    matchName (c :: cs) = some (1 + cs.length) := by
  simp only [matchName]
  rw [if_pos hw, runLen_all cs (fun x hx => id_isName (hcs x hx))]

theorem matchKvpWith1_ident_end {c : Char} {cs : List Char}
    (hw : isWordChar c = true) (hcs : ∀ x ∈ cs, isIdChar x = true) :
    matchKvpWith 1 (c :: cs) = none := by
  simp only [matchKvpWith]
  rw [matchName_ident hw hcs]
  simp only []
  have hdrop : (c :: cs).drop (1 + cs.length) = [] :=
    List.drop_eq_nil_of_le (by simp [Nat.add_comm])
  rw [hdrop]
  rfl

theorem matchKvpWith2_ident_end {c : Char} {cs : List Char}
    (hw : isWordChar c = true) (hcs : ∀ x ∈ cs, isIdChar x = true) :
    matchKvpWith 2 (c :: cs) = none := by
  simp only [matchKvpWith]
  rw [matchName_ident hw hcs]
  simp only []
  have hdrop : (c :: cs).drop (1 + cs.length) = [] :=
    List.drop_eq_nil_of_le (by simp [Nat.add_comm])
  rw [hdrop]
  rfl

theorem matchFilename_ident {c : Char} {cs : List Char}
    (hw : isWordChar c = true) (hcs : ∀ x ∈ cs, isIdChar x = true) :
    matchFilename (c :: cs) = none := by
  have hr : runLen isFnPrefixChar (c :: cs) = cs.length + 1 := by
    rw [runLen_all]
    · simp
    · intro x hx
      rcases List.mem_cons.mp hx with rfl | hx2
      · exact id_isFnPrefix (word_isId hw)
      · exact id_isFnPrefix (hcs x hx2)
  simp only [matchFilename]
  split
  · rfl
  · next n heq =>
    exfalso
    split at heq
    · rename_i hpat
      obtain ⟨rfl, -⟩ := hpat
      exact absurd hw (by decide)
    · rename_i hpat
      obtain ⟨rfl, -⟩ := hpat
      exact absurd hw (by decide)
    · rw [hr] at heq
      have hgd : ((c :: cs).getD (cs.length + 1) ' ') = ' ' :=
        List.getD_eq_default _ _ (by simp)
      rw [hgd] at heq
      rw [if_neg (by decide)] at heq
      exact Option.noConfusion heq

theorem matchUnqualifiedName_ident {c : Char} {cs : List Char}
    (hw : isWordChar c = true) (hcs : ∀ x ∈ cs, isIdChar x = true) :
    matchUnqualifiedName (c :: cs) = some (1 + cs.length) := by
  simp only [matchUnqualifiedName]
  rw [matchId_all hw hcs]

theorem matchValueOrQuoted_shape {V rest : List Char}
    (hV : V ≠ []) (hvc : ∀ c ∈ V, isValueChar c = true)
    (hr : runLen isValueChar rest = 0) :
    matchValueOrQuoted (V ++ rest) = some V.length := by
  simp only [matchValueOrQuoted]
  rw [runLen_append_all V rest hvc, hr, Nat.add_zero]
  rw [if_pos]
  cases V with
  | nil => exact absurd rfl hV
  | cons a as => simp

theorem matchStartEdgeProperties_ident {c : Char} {cs : List Char}
    (hcs : ∀ x ∈ cs, isIdChar x = true) :
    matchStartEdgeProperties (c :: cs) = none := by
  cases cs with
  | nil => rfl
  | cons b bs =>
    exact matchStartEdgeProperties_no_bracket
      (id_ne (hcs b (List.mem_cons_self b bs)) (by decide))

theorem contains_false_of_not_mem {l : List Char} {a : Char} (h : a ∉ l) :
    l.contains a = false := by
  induction l with
  | nil => rfl
  | cons d ds ih =>
    rw [show (d :: ds).contains a = (a == d || ds.contains a) from rfl]
    rw [ih (fun hm => h (List.mem_cons_of_mem d hm))]
    have hne : a ≠ d := fun he => h (he ▸ List.mem_cons_self d ds)
    simp [hne]

theorem ident_no_dot {c : Char} {cs : List Char}
    (hw : isWordChar c = true) (hcs : ∀ x ∈ cs, isIdChar x = true) :
    (c :: cs).contains '.' = false := by
  apply contains_false_of_not_mem
  intro hm
  rcases List.mem_cons.mp hm with he | hm2
  · exact word_ne hw (by decide) he.symm
  · exact id_ne (hcs _ hm2) (by decide) rfl

theorem ident_ne_star {s : String} {c : Char} {cs : List Char}
    (h : s.data = c :: cs) (hw : isWordChar c = true) : ¬ (s = "*") := by
  intro he
  subst he
  rw [show ("*" : String).data = ['*'] from rfl] at h
  injection h with h1 _
  rw [← h1] at hw
  exact absurd hw (by decide)

theorem quoteStrip_contains_id {c : Char} (hc : isIdChar c = true) :
    (['\'', '"', ' '].contains c) = false := by
  apply contains_false_of_not_mem
  intro hm
  rcases List.mem_cons.mp hm with rfl | hm
  · exact absurd hc (by decide)
  rcases List.mem_cons.mp hm with rfl | hm
  · exact absurd hc (by decide)
  rcases List.mem_cons.mp hm with rfl | hm
  · exact absurd hc (by decide)
  · simp at hm

theorem mem_virtuals_join {c0 : Char} {c0s : List Char} {vrest : List String}
    (h0w : isWordChar c0 = true) (h0i : ∀ x ∈ c0s, isIdChar x = true)
    (hvs : ∀ v ∈ vrest, ∃ c cs, v.data = c :: cs ∧ isWordChar c = true ∧
      ∀ x ∈ cs, isIdChar x = true) :
    ∀ x ∈ (c0 :: c0s) ++ vrest.flatMap (fun v => ',' :: v.data),
      x = ',' ∨ isIdChar x = true := by
  intro x hx
  rcases List.mem_append.mp hx with hx | hx
  · rcases List.mem_cons.mp hx with rfl | hx
    · exact Or.inr (word_isId h0w)
    · exact Or.inr (h0i x hx)
  · rcases List.mem_flatMap.mp hx with ⟨v, hv, hxv⟩
    rcases List.mem_cons.mp hxv with rfl | hx2
    · exact Or.inl rfl
    · obtain ⟨c, cs, hd, hw, hcs⟩ := hvs v hv
      rw [hd] at hx2
      rcases List.mem_cons.mp hx2 with rfl | hx3
      · exact Or.inr (word_isId hw)
      · exact Or.inr (hcs x hx3)

theorem dropWhile_all_false {p : Char → Bool} :
    ∀ {l : List Char}, (∀ c ∈ l, p c = false) → l.dropWhile p = l := by
  intro l h
  cases l with
  | nil => rfl
  | cons c cs =>
    rw [List.dropWhile_cons, h c (List.mem_cons_self c cs)]
    simp

theorem stripChars_id {chars cs : List Char}
    (h : ∀ c ∈ cs, chars.contains c = false) :
    stripChars chars cs = cs := by
  unfold stripChars
  rw [dropWhile_all_false (fun c hc => h c hc)]
  rw [dropWhile_all_false (fun c hc => h c (List.mem_reverse.mp hc))]
  exact List.reverse_reverse cs

theorem splitOnChar_ne_nil (sep : Char) : ∀ (l : List Char), splitOnChar sep l ≠ [] := by
  intro l
  induction l with
  | nil => simp [splitOnChar]
  | cons c rest ih =>
    simp only [splitOnChar]
    split
    · split <;> simp
    · split <;> simp

theorem splitOnChar_cons_sep (sep : Char) (rest : List Char) :
    splitOnChar sep (sep :: rest) = [] :: splitOnChar sep rest := by
  obtain ⟨g, gs, h⟩ : ∃ g gs, splitOnChar sep rest = g :: gs := by
    cases hh : splitOnChar sep rest with
    | nil => exact absurd hh (splitOnChar_ne_nil sep rest)
    | cons g gs => exact ⟨g, gs, rfl⟩
  simp only [splitOnChar]
  rw [h]
  simp

theorem splitOnChar_prepend {sep : Char} {g : List Char} {gs : List (List Char)}
    {rest : List Char} (hsplit : splitOnChar sep rest = g :: gs) :
    ∀ (A : List Char), (∀ c ∈ A, c ≠ sep) →
    splitOnChar sep (A ++ rest) = (A ++ g) :: gs := by
  intro A
  induction A with
  | nil =>
    intro _
    simpa using hsplit
  | cons a as ih =>
    intro hA
    rw [List.cons_append]
    simp only [splitOnChar]
    rw [ih (fun c hc => hA c (List.mem_cons_of_mem a hc))]
    simp only []
    rw [if_neg (hA a (List.mem_cons_self a as))]
    rfl

theorem splitOnChar_flatMap (vrest : List String)
    (hv : ∀ v ∈ vrest, ∀ c ∈ v.data, c ≠ ',') :
    splitOnChar ',' (vrest.flatMap (fun v => ',' :: v.data))
      = [] :: vrest.map (fun v => v.data) := by
  induction vrest with
  | nil => rfl
  | cons v vs ih =>
    rw [List.flatMap_cons]
    rw [show (',' :: v.data) ++ vs.flatMap (fun v => ',' :: v.data)
        = ',' :: (v.data ++ vs.flatMap (fun v => ',' :: v.data)) from rfl]
    rw [splitOnChar_cons_sep]
    rw [splitOnChar_prepend (ih (fun w hw => hv w (List.mem_cons_of_mem v hw)))
      v.data (hv v (List.mem_cons_self v vs))]
    simp

theorem ident_data_ne_comma {v : String} {c : Char} {cs : List Char}
    (hd : v.data = c :: cs) (hw : isWordChar c = true)
    (hcs : ∀ x ∈ cs, isIdChar x = true) :
    ∀ x ∈ v.data, x ≠ ',' := by
  intro x hx
  rw [hd] at hx
  rcases List.mem_cons.mp hx with rfl | hx2
  · exact word_ne hw (by decide)
  · exact id_ne (hcs x hx2) (by decide)

theorem strSplit_join {v0 vstr : String} {c0 : Char} {c0s : List Char}
    {vrest : List String}
    (h0 : v0.data = c0 :: c0s) (h0w : isWordChar c0 = true)
    (h0i : ∀ x ∈ c0s, isIdChar x = true)
    (hvs : ∀ v ∈ vrest, ∃ c cs, v.data = c :: cs ∧ isWordChar c = true ∧
      ∀ x ∈ cs, isIdChar x = true)
    (hj : vstr.data = v0.data ++ vrest.flatMap (fun v => ',' :: v.data)) :
    strSplit vstr ',' = v0 :: vrest := by
  unfold strSplit
  rw [hj]
  have hflat : splitOnChar ',' (vrest.flatMap (fun v => ',' :: v.data))
      = [] :: vrest.map (fun v => v.data) := by
    apply splitOnChar_flatMap
    intro v hv
    obtain ⟨c, cs, hd, hw, hcs⟩ := hvs v hv
    exact ident_data_ne_comma hd hw hcs
  rw [splitOnChar_prepend hflat v0.data (ident_data_ne_comma h0 h0w h0i)]
  rw [List.append_nil]
  rw [List.map_cons, List.map_map]
  show v0.data.asString :: vrest.map (fun v => v) = v0 :: vrest
  rw [List.map_id']
  rfl

theorem matchVirtualAssignment_join {c0 pc : Char} {c0s pcs : List Char}
    {vrest : List String}
    (h0w : isWordChar c0 = true) (h0i : ∀ x ∈ c0s, isIdChar x = true)
    (hvs : ∀ v ∈ vrest, ∃ c cs, v.data = c :: cs ∧ isWordChar c = true ∧
      ∀ x ∈ cs, isIdChar x = true)
    (hpw : isWordChar pc = true) (hpi : ∀ x ∈ pcs, isIdChar x = true) :
    matchVirtualAssignment
        (((c0 :: c0s) ++ vrest.flatMap (fun v => ',' :: v.data)) ++ '=' :: pc :: pcs)
      = some (((c0 :: c0s) ++ vrest.flatMap (fun v => ',' :: v.data)).length + 1
            + (pc :: pcs).length,
          ⟨((c0 :: c0s) ++ vrest.flatMap (fun v => ',' :: v.data)).asString,
           (pc :: pcs).asString⟩) := by
  have hrR : runLen isIdChar ('=' :: pc :: pcs) = 0 := runLen_cons_neg _ (by decide)
  have hrFR : runLen isIdChar
      (vrest.flatMap (fun v => ',' :: v.data) ++ '=' :: pc :: pcs) = 0 :=
    runLen_flatMap_rest vrest _ hrR
  have hlen : (1 : Nat) + c0s.length + (vrest.flatMap (fun v => ',' :: v.data)).length
      = ((c0 :: c0s) ++ vrest.flatMap (fun v => ',' :: v.data)).length := by
    simp only [List.length_append, List.length_cons]
    omega
  simp only [matchVirtualAssignment]
  rw [List.append_assoc]
  rw [matchId_shape h0w h0i hrFR]
  simp only []
  have hd1 : ((c0 :: c0s) ++ (vrest.flatMap (fun v => ',' :: v.data)
        ++ '=' :: pc :: pcs)).drop (1 + c0s.length)
      = vrest.flatMap (fun v => ',' :: v.data) ++ '=' :: pc :: pcs := by
    rw [show (1 + c0s.length) = (c0 :: c0s).length from by simp [Nat.add_comm]]
    exact List.drop_left _ _
  rw [hd1]
  rw [commaIdTail_join vrest _ hvs hrR (by simp)]
  have hd2 : ((c0 :: c0s) ++ (vrest.flatMap (fun v => ',' :: v.data)
        ++ '=' :: pc :: pcs)).drop
        (1 + c0s.length + (vrest.flatMap (fun v => ',' :: v.data)).length)
      = '=' :: pc :: pcs := by
    rw [← List.append_assoc, hlen]
    exact List.drop_left _ _
  rw [hd2]
  simp only []
  rw [show (matchDottedId (pc :: pcs) <|> matchId (pc :: pcs))
      = some (1 + pcs.length) from by
    rw [matchDottedId_ident hpw hpi, matchId_all hpw hpi]
    rfl]
  simp only []
  have ht1 : ((c0 :: c0s) ++ (vrest.flatMap (fun v => ',' :: v.data)
        ++ '=' :: pc :: pcs)).take
        (1 + c0s.length + (vrest.flatMap (fun v => ',' :: v.data)).length)
      = (c0 :: c0s) ++ vrest.flatMap (fun v => ',' :: v.data) := by
    rw [← List.append_assoc, hlen]
    exact List.take_left _ _
  have ht2 : (pc :: pcs).take (1 + pcs.length) = pc :: pcs :=
    List.take_of_length_le (by simp [Nat.add_comm])
  rw [ht1, ht2]
  simp only [Option.some.injEq, Prod.mk.injEq, List.length_append, List.length_cons]
  exact ⟨by omega, trivial⟩

theorem specNextToken_fooHead (rest : List Char) :
    specNextToken ('f' :: 'o' :: 'o' :: ' ' :: rest)
      = some (.UNQUALIFIED_PACKAGE_NAME, 3, none) := rfl

theorem specNextToken_ws_caret (rest : List Char) :
    specNextToken (' ' :: '^' :: rest) = some (.WS, 1, none) := rfl

theorem specNextToken_start_edge (rest : List Char) :
    specNextToken ('^' :: '[' :: rest)
      = some (.START_EDGE_PROPERTIES, 2, none) := rfl

theorem specNextToken_ws_ident {pc : Char} {pcs : List Char}
    (hpw : isWordChar pc = true) :
    specNextToken (' ' :: pc :: pcs) = some (.WS, 1, none) := by
  have hstart : matchStartEdgeProperties (' ' :: pc :: pcs) = none :=
    matchStartEdgeProperties_no_bracket (word_ne hpw (by decide))
  have hws : matchWs (' ' :: pc :: pcs) = some 1 := by
    simp only [matchWs]
    rw [runLen_cons_pos _ (by decide), runLen_cons_neg _ (id_not_space (word_isId hpw))]
    decide
  simp only [specNextToken, hstart, hws,
    show matchEndEdgeProperties (' ' :: pc :: pcs) = none from rfl,
    show matchDependency (' ' :: pc :: pcs) = none from rfl,
    show matchVersionHashPair (' ' :: pc :: pcs) = none from rfl,
    show matchGitVersion (' ' :: pc :: pcs) = none from rfl,
    show matchVersionToken (' ' :: pc :: pcs) = none from rfl,
    show matchPropagatedBoolVariant (' ' :: pc :: pcs) = none from rfl,
    show matchBoolVariant (' ' :: pc :: pcs) = none from rfl,
    show matchKvpWith 2 (' ' :: pc :: pcs) = none from rfl,
    show matchKvpWith 1 (' ' :: pc :: pcs) = none from rfl,
    show matchFilename (' ' :: pc :: pcs) = none from rfl,
    show matchDottedId (' ' :: pc :: pcs) = none from rfl,
    show matchUnqualifiedName (' ' :: pc :: pcs) = none from rfl,
    show matchDagHash (' ' :: pc :: pcs) = none from rfl]

theorem specNextToken_ident {pc : Char} {pcs : List Char}
    (hpw : isWordChar pc = true) (hpi : ∀ x ∈ pcs, isIdChar x = true) :
    specNextToken (pc :: pcs) = some (.UNQUALIFIED_PACKAGE_NAME, 1 + pcs.length, none) := by
  simp only [specNextToken,
    matchStartEdgeProperties_ident hpi,
    matchEndEdgeProperties_ne (word_ne hpw (by decide)),
    matchDependency_ne (word_ne hpw (by decide)) (word_ne hpw (by decide)),
    matchVersionHashPair_ne (word_ne hpw (by decide)),
    matchGitVersion_ne (word_ne hpw (by decide)),
    matchVersionToken_ne (word_ne hpw (by decide)),
    matchPropagatedBoolVariant_word hpw,
    matchBoolVariant_word hpw,
    matchKvpWith2_ident_end hpw hpi,
    matchKvpWith1_ident_end hpw hpi,
    matchFilename_ident hpw hpi,
    matchDottedId_ident hpw hpi,
    matchUnqualifiedName_ident hpw hpi]

theorem specNextToken_end_bracket {pc : Char} {pcs : List Char}
    (hpw : isWordChar pc = true) (hpi : ∀ x ∈ pcs, isIdChar x = true) :
    specNextToken (']' :: ' ' :: pc :: pcs) = some (.END_EDGE_PROPERTIES, 1, none) := by
  have hend : matchEndEdgeProperties (']' :: ' ' :: pc :: pcs) = some (1, none) := by
    simp only [matchEndEdgeProperties]
    rw [runLen_cons_pos _ (by decide), runLen_cons_neg _ (id_not_space (word_isId hpw))]
    rw [show ((' ' :: pc :: pcs).drop (1 + 0)) = pc :: pcs from rfl]
    rw [matchVirtualAssignment_ident hpw hpi]
  simp only [specNextToken,
    show matchStartEdgeProperties (']' :: ' ' :: pc :: pcs) = none from rfl,
    hend]

theorem specNextToken_dependency {c0 pc : Char} {c0s pcs : List Char}
    {vrest : List String}
    (h0w : isWordChar c0 = true) (h0i : ∀ x ∈ c0s, isIdChar x = true)
    (hvs : ∀ v ∈ vrest, ∃ c cs, v.data = c :: cs ∧ isWordChar c = true ∧
      ∀ x ∈ cs, isIdChar x = true)
    (hpw : isWordChar pc = true) (hpi : ∀ x ∈ pcs, isIdChar x = true) :
    specNextToken
        ('^' :: (((c0 :: c0s) ++ vrest.flatMap (fun v => ',' :: v.data))
          ++ '=' :: pc :: pcs))
      = some (.DEPENDENCY,
          1 + (((c0 :: c0s) ++ vrest.flatMap (fun v => ',' :: v.data)).length + 1
            + (pc :: pcs).length),
          some ⟨((c0 :: c0s) ++ vrest.flatMap (fun v => ',' :: v.data)).asString,
                (pc :: pcs).asString⟩) := by
  have hX : ((c0 :: c0s) ++ vrest.flatMap (fun v => ',' :: v.data)) ++ '=' :: pc :: pcs
      = c0 :: (c0s ++ (vrest.flatMap (fun v => ',' :: v.data) ++ '=' :: pc :: pcs)) := by
    simp
  have hstart : matchStartEdgeProperties
      ('^' :: (((c0 :: c0s) ++ vrest.flatMap (fun v => ',' :: v.data))
        ++ '=' :: pc :: pcs)) = none := by
    rw [hX]
    exact matchStartEdgeProperties_no_bracket (word_ne h0w (by decide))
  have hws : runLen isSpaceChar
      (((c0 :: c0s) ++ vrest.flatMap (fun v => ',' :: v.data)) ++ '=' :: pc :: pcs)
      = 0 := by
    rw [hX]
    exact runLen_cons_neg _ (id_not_space (word_isId h0w))
  have hdep : matchDependency
      ('^' :: (((c0 :: c0s) ++ vrest.flatMap (fun v => ',' :: v.data))
        ++ '=' :: pc :: pcs))
      = some (1 + (((c0 :: c0s) ++ vrest.flatMap (fun v => ',' :: v.data)).length + 1
            + (pc :: pcs).length),
          some ⟨((c0 :: c0s) ++ vrest.flatMap (fun v => ',' :: v.data)).asString,
                (pc :: pcs).asString⟩) := by
    rw [show matchDependency
        ('^' :: (((c0 :: c0s) ++ vrest.flatMap (fun v => ',' :: v.data))
          ++ '=' :: pc :: pcs))
        = (match matchVirtualAssignment
            ((((c0 :: c0s) ++ vrest.flatMap (fun v => ',' :: v.data))
              ++ '=' :: pc :: pcs).drop
              (runLen isSpaceChar
                (((c0 :: c0s) ++ vrest.flatMap (fun v => ',' :: v.data))
                  ++ '=' :: pc :: pcs))) with
          | some (n, sv) => some (1 + runLen isSpaceChar
              (((c0 :: c0s) ++ vrest.flatMap (fun v => ',' :: v.data))
                ++ '=' :: pc :: pcs) + n, some sv)
          | none => some (1, none)) from rfl]
    rw [hws, List.drop_zero]
    rw [matchVirtualAssignment_join h0w h0i hvs hpw hpi]
  simp only [specNextToken, hstart, hdep,
    show matchEndEdgeProperties
      ('^' :: (((c0 :: c0s) ++ vrest.flatMap (fun v => ',' :: v.data))
        ++ '=' :: pc :: pcs)) = none from rfl]

theorem specNextToken_virtuals_kvp {c0 pc : Char} {c0s pcs : List Char}
    {vrest : List String}
    (h0w : isWordChar c0 = true) (h0i : ∀ x ∈ c0s, isIdChar x = true)
    (hvs : ∀ v ∈ vrest, ∃ c cs, v.data = c :: cs ∧ isWordChar c = true ∧
      ∀ x ∈ cs, isIdChar x = true) :
    specNextToken ('v' :: 'i' :: 'r' :: 't' :: 'u' :: 'a' :: 'l' :: 's' :: '=' ::
        (((c0 :: c0s) ++ vrest.flatMap (fun v => ',' :: v.data)) ++ ']' :: ' ' :: pc :: pcs))
      = some (.KEY_VALUE_PAIR,
          9 + ((c0 :: c0s) ++ vrest.flatMap (fun v => ',' :: v.data)).length, none) := by
  have hXc : ((c0 :: c0s) ++ vrest.flatMap (fun v => ',' :: v.data))
        ++ ']' :: ' ' :: pc :: pcs
      = c0 :: (c0s ++ (vrest.flatMap (fun v => ',' :: v.data)
        ++ ']' :: ' ' :: pc :: pcs)) := by
    simp
  have hk2 : matchKvpWith 2 ('v' :: 'i' :: 'r' :: 't' :: 'u' :: 'a' :: 'l' :: 's' :: '=' ::
      (((c0 :: c0s) ++ vrest.flatMap (fun v => ',' :: v.data)) ++ ']' :: ' ' :: pc :: pcs))
      = none := by
    rw [show matchKvpWith 2 ('v' :: 'i' :: 'r' :: 't' :: 'u' :: 'a' :: 'l' :: 's' :: '=' ::
        (((c0 :: c0s) ++ vrest.flatMap (fun v => ',' :: v.data)) ++ ']' :: ' ' :: pc :: pcs))
        = (if ('=' :: (((c0 :: c0s) ++ vrest.flatMap (fun v => ',' :: v.data))
              ++ ']' :: ' ' :: pc :: pcs)).take 2 = List.replicate 2 '=' then
            (match matchValueOrQuoted (('=' :: (((c0 :: c0s)
                ++ vrest.flatMap (fun v => ',' :: v.data))
                ++ ']' :: ' ' :: pc :: pcs)).drop 2) with
              | some v => some (8 + 0 + 2 + v)
              | none => none)
          else none) from rfl]
    rw [hXc]
    rw [if_neg (by simp [word_ne h0w (by decide : isWordChar '=' = false)])]
  have hk1 : matchKvpWith 1 ('v' :: 'i' :: 'r' :: 't' :: 'u' :: 'a' :: 'l' :: 's' :: '=' ::
      (((c0 :: c0s) ++ vrest.flatMap (fun v => ',' :: v.data)) ++ ']' :: ' ' :: pc :: pcs))
      = some (9 + ((c0 :: c0s) ++ vrest.flatMap (fun v => ',' :: v.data)).length) := by
    rw [show matchKvpWith 1 ('v' :: 'i' :: 'r' :: 't' :: 'u' :: 'a' :: 'l' :: 's' :: '=' ::
        (((c0 :: c0s) ++ vrest.flatMap (fun v => ',' :: v.data)) ++ ']' :: ' ' :: pc :: pcs))
        = (match matchValueOrQuoted (((c0 :: c0s) ++ vrest.flatMap (fun v => ',' :: v.data))
            ++ ']' :: ' ' :: pc :: pcs) with
          | some v => some (8 + 0 + 1 + v)
          | none => none) from rfl]
    have hvq : matchValueOrQuoted (((c0 :: c0s) ++ vrest.flatMap (fun v => ',' :: v.data))
        ++ ']' :: ' ' :: pc :: pcs)
        = some ((c0 :: c0s) ++ vrest.flatMap (fun v => ',' :: v.data)).length := by
      apply matchValueOrQuoted_shape
      · simp
      · intro c hc
        rcases mem_virtuals_join h0w h0i hvs c hc with rfl | hid
        · decide
        · exact id_isValue hid
      · exact runLen_cons_neg _ (by decide)
    rw [hvq]
  simp only [specNextToken, hk2, hk1,
    show matchStartEdgeProperties ('v' :: 'i' :: 'r' :: 't' :: 'u' :: 'a' :: 'l' :: 's' ::
      '=' :: (((c0 :: c0s) ++ vrest.flatMap (fun v => ',' :: v.data))
        ++ ']' :: ' ' :: pc :: pcs)) = none from rfl,
    show matchEndEdgeProperties ('v' :: 'i' :: 'r' :: 't' :: 'u' :: 'a' :: 'l' :: 's' ::
      '=' :: (((c0 :: c0s) ++ vrest.flatMap (fun v => ',' :: v.data))
        ++ ']' :: ' ' :: pc :: pcs)) = none from rfl,
    show matchDependency ('v' :: 'i' :: 'r' :: 't' :: 'u' :: 'a' :: 'l' :: 's' ::
      '=' :: (((c0 :: c0s) ++ vrest.flatMap (fun v => ',' :: v.data))
        ++ ']' :: ' ' :: pc :: pcs)) = none from rfl,
    show matchVersionHashPair ('v' :: 'i' :: 'r' :: 't' :: 'u' :: 'a' :: 'l' :: 's' ::
      '=' :: (((c0 :: c0s) ++ vrest.flatMap (fun v => ',' :: v.data))
        ++ ']' :: ' ' :: pc :: pcs)) = none from rfl,
    show matchGitVersion ('v' :: 'i' :: 'r' :: 't' :: 'u' :: 'a' :: 'l' :: 's' ::
      '=' :: (((c0 :: c0s) ++ vrest.flatMap (fun v => ',' :: v.data))
        ++ ']' :: ' ' :: pc :: pcs)) = none from rfl,
    show matchVersionToken ('v' :: 'i' :: 'r' :: 't' :: 'u' :: 'a' :: 'l' :: 's' ::
      '=' :: (((c0 :: c0s) ++ vrest.flatMap (fun v => ',' :: v.data))
        ++ ']' :: ' ' :: pc :: pcs)) = none from rfl,
    show matchPropagatedBoolVariant ('v' :: 'i' :: 'r' :: 't' :: 'u' :: 'a' :: 'l' :: 's' ::
      '=' :: (((c0 :: c0s) ++ vrest.flatMap (fun v => ',' :: v.data))
        ++ ']' :: ' ' :: pc :: pcs)) = none from rfl,
    show matchBoolVariant ('v' :: 'i' :: 'r' :: 't' :: 'u' :: 'a' :: 'l' :: 's' ::
      '=' :: (((c0 :: c0s) ++ vrest.flatMap (fun v => ',' :: v.data))
        ++ ']' :: ' ' :: pc :: pcs)) = none from rfl]

theorem specAux_fuel {fuel fuel' pos : Nat} {cs : List Char}
    (h : cs.length ≤ fuel) (h' : cs.length ≤ fuel') :
    tokenizeWithAux specNextToken fuel pos cs
      = tokenizeWithAux specNextToken fuel' pos cs :=
  tokenizeWithAux_fuel specNextToken rfl
    (fun cs k n sv hs => (specNextToken_bounds hs).1) fuel fuel' pos cs h h'

theorem specAux_cons {cs : List Char} {k : SpecTokens} {n : Nat} {sv : Option Subvalues}
    (h : specNextToken cs = some (k, n, sv)) (fuel pos : Nat) (hf : cs.length ≤ fuel) :
    tokenizeWithAux specNextToken fuel pos cs
      = ⟨k, (cs.take n).asString, pos, pos + n, sv⟩ ::
        tokenizeWithAux specNextToken (fuel - n) (pos + n) (cs.drop n) := by
  cases fuel with
  | zero =>
    have h2 : cs = [] := List.length_eq_zero.mp (by omega)
    subst h2
    rw [show specNextToken [] = none from rfl] at h
    exact Option.noConfusion h
  | succ fuel =>
    simp only [tokenizeWithAux, h]
    refine congrArg (List.cons _) ?_
    have hb := specNextToken_bounds h
    have hdl : (cs.drop n).length = cs.length - n := List.length_drop _ _
    exact specAux_fuel (by omega) (by omega)

theorem tokenizeRaw_inline {pkg v0 vstr : String} {pc c0 : Char} {pcs c0s : List Char}
    {vrest : List String}
    (hp : pkg.data = pc :: pcs) (hpw : isWordChar pc = true)
    (hpi : ∀ x ∈ pcs, isIdChar x = true)
    (h0 : v0.data = c0 :: c0s) (h0w : isWordChar c0 = true)
    (h0i : ∀ x ∈ c0s, isIdChar x = true)
    (hvs : ∀ v ∈ vrest, ∃ c cs, v.data = c :: cs ∧ isWordChar c = true ∧
      ∀ x ∈ cs, isIdChar x = true)
    (hj : vstr.data = v0.data ++ vrest.flatMap (fun v => ',' :: v.data)) :
    tokenizeRaw ("foo ^" ++ vstr ++ "=" ++ pkg)
      = [⟨.UNQUALIFIED_PACKAGE_NAME, "foo", 0, 3, none⟩,
         ⟨.WS, " ", 3, 4, none⟩,
         ⟨.DEPENDENCY, ('^' :: (vstr.data ++ '=' :: pkg.data)).asString, 4,
           4 + (1 + (vstr.data.length + 1 + pkg.data.length)), some ⟨vstr, pkg⟩⟩] := by
  have hA : ((c0 :: c0s) ++ vrest.flatMap (fun v => ',' :: v.data)) = vstr.data := by
    rw [hj, h0]
  have s3 : ∀ fuel pos, ('^' :: (((c0 :: c0s) ++ vrest.flatMap (fun v => ',' :: v.data)) ++ '=' :: pc :: pcs)).length ≤ fuel →
      tokenizeWithAux specNextToken fuel pos ('^' :: (((c0 :: c0s) ++ vrest.flatMap (fun v => ',' :: v.data)) ++ '=' :: pc :: pcs))
      = [⟨.DEPENDENCY, ('^' :: (((c0 :: c0s) ++ vrest.flatMap (fun v => ',' :: v.data)) ++ '=' :: pc :: pcs)).asString, pos,
          pos + (1 + (((c0 :: c0s) ++ vrest.flatMap (fun v => ',' :: v.data)).length + 1 + (pc :: pcs).length)),
          some ⟨((c0 :: c0s) ++ vrest.flatMap (fun v => ',' :: v.data)).asString, (pc :: pcs).asString⟩⟩] := by
    intro fuel pos hf
    rw [specAux_cons (specNextToken_dependency h0w h0i hvs hpw hpi) fuel pos hf]
    rw [show ('^' :: (((c0 :: c0s) ++ vrest.flatMap (fun v => ',' :: v.data)) ++ '=' :: pc :: pcs)).take
          (1 + (((c0 :: c0s) ++ vrest.flatMap (fun v => ',' :: v.data)).length + 1 + (pc :: pcs).length))
        = '^' :: (((c0 :: c0s) ++ vrest.flatMap (fun v => ',' :: v.data)) ++ '=' :: pc :: pcs) from
      List.take_of_length_le (by
        simp only [List.length_cons, List.length_append, List.length_nil]
        omega)]
    rw [show ('^' :: (((c0 :: c0s) ++ vrest.flatMap (fun v => ',' :: v.data)) ++ '=' :: pc :: pcs)).drop
          (1 + (((c0 :: c0s) ++ vrest.flatMap (fun v => ',' :: v.data)).length + 1 + (pc :: pcs).length))
        = [] from
      List.drop_eq_nil_of_le (by
        simp only [List.length_cons, List.length_append, List.length_nil]
        omega)]
    rw [tokenizeWithAux_nil specNextToken rfl]
  have s2 : ∀ fuel pos, (' ' :: '^' :: (((c0 :: c0s) ++ vrest.flatMap (fun v => ',' :: v.data)) ++ '=' :: pc :: pcs)).length ≤ fuel →
      tokenizeWithAux specNextToken fuel pos (' ' :: '^' :: (((c0 :: c0s) ++ vrest.flatMap (fun v => ',' :: v.data)) ++ '=' :: pc :: pcs))
      = ⟨.WS, " ", pos, pos + 1, none⟩ ::
        [⟨.DEPENDENCY, ('^' :: (((c0 :: c0s) ++ vrest.flatMap (fun v => ',' :: v.data)) ++ '=' :: pc :: pcs)).asString, pos + 1,
          pos + 1 + (1 + (((c0 :: c0s) ++ vrest.flatMap (fun v => ',' :: v.data)).length + 1 + (pc :: pcs).length)),
          some ⟨((c0 :: c0s) ++ vrest.flatMap (fun v => ',' :: v.data)).asString, (pc :: pcs).asString⟩⟩] := by
    intro fuel pos hf
    rw [specAux_cons (specNextToken_ws_caret _) fuel pos hf]
    rw [show ((' ' :: '^' :: (((c0 :: c0s) ++ vrest.flatMap (fun v => ',' :: v.data)) ++ '=' :: pc :: pcs)).drop 1)
        = '^' :: (((c0 :: c0s) ++ vrest.flatMap (fun v => ',' :: v.data)) ++ '=' :: pc :: pcs) from rfl]
    exact congrArg (List.cons _) (s3 (fuel - 1) (pos + 1) (by
      simp only [List.length_cons, List.length_append, List.length_nil] at hf ⊢
      omega))
  have s1 : ∀ fuel pos,
      ('f' :: 'o' :: 'o' :: ' ' :: '^' :: (((c0 :: c0s) ++ vrest.flatMap (fun v => ',' :: v.data)) ++ '=' :: pc :: pcs)).length ≤ fuel →
      tokenizeWithAux specNextToken fuel pos
        ('f' :: 'o' :: 'o' :: ' ' :: '^' :: (((c0 :: c0s) ++ vrest.flatMap (fun v => ',' :: v.data)) ++ '=' :: pc :: pcs))
      = ⟨.UNQUALIFIED_PACKAGE_NAME, "foo", pos, pos + 3, none⟩ ::
        ⟨.WS, " ", pos + 3, pos + 3 + 1, none⟩ ::
        [⟨.DEPENDENCY, ('^' :: (((c0 :: c0s) ++ vrest.flatMap (fun v => ',' :: v.data)) ++ '=' :: pc :: pcs)).asString, pos + 3 + 1,
          pos + 3 + 1 + (1 + (((c0 :: c0s) ++ vrest.flatMap (fun v => ',' :: v.data)).length + 1 + (pc :: pcs).length)),
          some ⟨((c0 :: c0s) ++ vrest.flatMap (fun v => ',' :: v.data)).asString, (pc :: pcs).asString⟩⟩] := by
    intro fuel pos hf
    rw [specAux_cons (specNextToken_fooHead _) fuel pos hf]
    rw [show (('f' :: 'o' :: 'o' :: ' ' :: '^' :: (((c0 :: c0s) ++ vrest.flatMap (fun v => ',' :: v.data)) ++ '=' :: pc :: pcs)).drop 3)
        = ' ' :: '^' :: (((c0 :: c0s) ++ vrest.flatMap (fun v => ',' :: v.data)) ++ '=' :: pc :: pcs) from rfl]
    exact congrArg (List.cons _) (s2 (fuel - 3) (pos + 3) (by
      simp only [List.length_cons, List.length_append, List.length_nil] at hf ⊢
      omega))
  have hD : ("foo ^" ++ vstr ++ "=" ++ pkg).data
      = 'f' :: 'o' :: 'o' :: ' ' :: '^' :: (((c0 :: c0s) ++ vrest.flatMap (fun v => ',' :: v.data)) ++ '=' :: pc :: pcs) := by
    simp only [show ∀ s t : String, (s ++ t).data = s.data ++ t.data from fun s t => rfl]
    rw [hj, h0, hp]
    simp
  unfold tokenizeRaw
  rw [hD]
  rw [s1 _ 0 (le_refl _)]
  rw [hA, ← hp]
  rfl

theorem tokenizeRaw_bracket {pkg v0 vstr : String} {pc c0 : Char} {pcs c0s : List Char}
    {vrest : List String}
    (hp : pkg.data = pc :: pcs) (hpw : isWordChar pc = true)
    (hpi : ∀ x ∈ pcs, isIdChar x = true)
    (h0 : v0.data = c0 :: c0s) (h0w : isWordChar c0 = true)
    (h0i : ∀ x ∈ c0s, isIdChar x = true)
    (hvs : ∀ v ∈ vrest, ∃ c cs, v.data = c :: cs ∧ isWordChar c = true ∧
      ∀ x ∈ cs, isIdChar x = true)
    (hj : vstr.data = v0.data ++ vrest.flatMap (fun v => ',' :: v.data)) :
    tokenizeRaw ("foo ^[virtuals=" ++ vstr ++ "] " ++ pkg)
      = [⟨.UNQUALIFIED_PACKAGE_NAME, "foo", 0, 3, none⟩,
         ⟨.WS, " ", 3, 4, none⟩,
         ⟨.START_EDGE_PROPERTIES, "^[", 4, 6, none⟩,
         ⟨.KEY_VALUE_PAIR, ("virtuals=".data ++ vstr.data).asString, 6,
           6 + (9 + vstr.data.length), none⟩,
         ⟨.END_EDGE_PROPERTIES, "]", 6 + (9 + vstr.data.length),
           6 + (9 + vstr.data.length) + 1, none⟩,
         ⟨.WS, " ", 6 + (9 + vstr.data.length) + 1,
           6 + (9 + vstr.data.length) + 1 + 1, none⟩,
         ⟨.UNQUALIFIED_PACKAGE_NAME, pkg, 6 + (9 + vstr.data.length) + 1 + 1,
           6 + (9 + vstr.data.length) + 1 + 1 + (1 + pcs.length), none⟩] := by
  have hA : ((c0 :: c0s) ++ vrest.flatMap (fun v => ',' :: v.data)) = vstr.data := by
    rw [hj, h0]
  have s7 : ∀ fuel pos, (pc :: pcs).length ≤ fuel →
      tokenizeWithAux specNextToken fuel pos (pc :: pcs)
      = [⟨.UNQUALIFIED_PACKAGE_NAME, (pc :: pcs).asString, pos, pos + (1 + pcs.length), none⟩] := by
    intro fuel pos hf
    rw [specAux_cons (specNextToken_ident hpw hpi) fuel pos hf]
    rw [show ((pc :: pcs).take (1 + pcs.length)) = pc :: pcs from
      List.take_of_length_le (by simp [Nat.add_comm])]
    rw [show ((pc :: pcs).drop (1 + pcs.length)) = [] from
      List.drop_eq_nil_of_le (by simp [Nat.add_comm])]
    rw [tokenizeWithAux_nil specNextToken rfl]
  have s6 : ∀ fuel pos, (' ' :: pc :: pcs).length ≤ fuel →
      tokenizeWithAux specNextToken fuel pos (' ' :: pc :: pcs)
      = ⟨.WS, " ", pos, pos + 1, none⟩ ::
        [⟨.UNQUALIFIED_PACKAGE_NAME, (pc :: pcs).asString, pos + 1,
          pos + 1 + (1 + pcs.length), none⟩] := by
    intro fuel pos hf
    rw [specAux_cons (specNextToken_ws_ident hpw) fuel pos hf]
    rw [show ((' ' :: pc :: pcs).drop 1) = pc :: pcs from rfl]
    exact congrArg (List.cons _) (s7 (fuel - 1) (pos + 1) (by
      simp only [List.length_cons, List.length_append, List.length_nil] at hf ⊢
      omega))
  have s5 : ∀ fuel pos, (']' :: ' ' :: pc :: pcs).length ≤ fuel →
      tokenizeWithAux specNextToken fuel pos (']' :: ' ' :: pc :: pcs)
      = ⟨.END_EDGE_PROPERTIES, "]", pos, pos + 1, none⟩ ::
        ⟨.WS, " ", pos + 1, pos + 1 + 1, none⟩ ::
        [⟨.UNQUALIFIED_PACKAGE_NAME, (pc :: pcs).asString, pos + 1 + 1,
          pos + 1 + 1 + (1 + pcs.length), none⟩] := by
    intro fuel pos hf
    rw [specAux_cons (specNextToken_end_bracket hpw hpi) fuel pos hf]
    rw [show ((']' :: ' ' :: pc :: pcs).drop 1) = ' ' :: pc :: pcs from rfl]
    exact congrArg (List.cons _) (s6 (fuel - 1) (pos + 1) (by
      simp only [List.length_cons, List.length_append, List.length_nil] at hf ⊢
      omega))
  have s4 : ∀ fuel pos,
      ('v' :: 'i' :: 'r' :: 't' :: 'u' :: 'a' :: 'l' :: 's' :: '=' ::
        (((c0 :: c0s) ++ vrest.flatMap (fun v => ',' :: v.data)) ++ ']' :: ' ' :: pc :: pcs)).length ≤ fuel →
      tokenizeWithAux specNextToken fuel pos
        ('v' :: 'i' :: 'r' :: 't' :: 'u' :: 'a' :: 'l' :: 's' :: '=' ::
          (((c0 :: c0s) ++ vrest.flatMap (fun v => ',' :: v.data)) ++ ']' :: ' ' :: pc :: pcs))
      = ⟨.KEY_VALUE_PAIR, ("virtuals=".data ++ ((c0 :: c0s) ++ vrest.flatMap (fun v => ',' :: v.data))).asString, pos,
          pos + (9 + ((c0 :: c0s) ++ vrest.flatMap (fun v => ',' :: v.data)).length), none⟩ ::
        ⟨.END_EDGE_PROPERTIES, "]", pos + (9 + ((c0 :: c0s) ++ vrest.flatMap (fun v => ',' :: v.data)).length),
          pos + (9 + ((c0 :: c0s) ++ vrest.flatMap (fun v => ',' :: v.data)).length) + 1, none⟩ ::
        ⟨.WS, " ", pos + (9 + ((c0 :: c0s) ++ vrest.flatMap (fun v => ',' :: v.data)).length) + 1,
          pos + (9 + ((c0 :: c0s) ++ vrest.flatMap (fun v => ',' :: v.data)).length) + 1 + 1, none⟩ ::
        [⟨.UNQUALIFIED_PACKAGE_NAME, (pc :: pcs).asString, pos + (9 + ((c0 :: c0s) ++ vrest.flatMap (fun v => ',' :: v.data)).length) + 1 + 1,
          pos + (9 + ((c0 :: c0s) ++ vrest.flatMap (fun v => ',' :: v.data)).length) + 1 + 1 + (1 + pcs.length), none⟩] := by
    intro fuel pos hf
    rw [specAux_cons (specNextToken_virtuals_kvp h0w h0i hvs) fuel pos hf]
    rw [show ('v' :: 'i' :: 'r' :: 't' :: 'u' :: 'a' :: 'l' :: 's' :: '=' ::
          (((c0 :: c0s) ++ vrest.flatMap (fun v => ',' :: v.data)) ++ ']' :: ' ' :: pc :: pcs))
        = ("virtuals=".data ++ ((c0 :: c0s) ++ vrest.flatMap (fun v => ',' :: v.data))) ++ (']' :: ' ' :: pc :: pcs) from by simp]
    rw [show (9 : Nat) + ((c0 :: c0s) ++ vrest.flatMap (fun v => ',' :: v.data)).length = ("virtuals=".data ++ ((c0 :: c0s) ++ vrest.flatMap (fun v => ',' :: v.data))).length from by
      simp only [List.length_append]
      rfl]
    rw [List.take_left, List.drop_left]
    refine congrArg (List.cons _) ?_
    have h5 := s5 (fuel - ("virtuals=".data ++ ((c0 :: c0s) ++ vrest.flatMap (fun v => ',' :: v.data))).length)
      (pos + ("virtuals=".data ++ ((c0 :: c0s) ++ vrest.flatMap (fun v => ',' :: v.data))).length) (by
        simp only [List.length_cons, List.length_append, List.length_nil] at hf ⊢
        omega)
    exact h5
  have s3 : ∀ fuel pos,
      ('^' :: '[' :: 'v' :: 'i' :: 'r' :: 't' :: 'u' :: 'a' :: 'l' :: 's' :: '=' ::
        (((c0 :: c0s) ++ vrest.flatMap (fun v => ',' :: v.data)) ++ ']' :: ' ' :: pc :: pcs)).length ≤ fuel →
      tokenizeWithAux specNextToken fuel pos
        ('^' :: '[' :: 'v' :: 'i' :: 'r' :: 't' :: 'u' :: 'a' :: 'l' :: 's' :: '=' ::
          (((c0 :: c0s) ++ vrest.flatMap (fun v => ',' :: v.data)) ++ ']' :: ' ' :: pc :: pcs))
      = ⟨.START_EDGE_PROPERTIES, "^[", pos, pos + 2, none⟩ ::
        ⟨.KEY_VALUE_PAIR, ("virtuals=".data ++ ((c0 :: c0s) ++ vrest.flatMap (fun v => ',' :: v.data))).asString, pos + 2,
          pos + 2 + (9 + ((c0 :: c0s) ++ vrest.flatMap (fun v => ',' :: v.data)).length), none⟩ ::
        ⟨.END_EDGE_PROPERTIES, "]", pos + 2 + (9 + ((c0 :: c0s) ++ vrest.flatMap (fun v => ',' :: v.data)).length),
          pos + 2 + (9 + ((c0 :: c0s) ++ vrest.flatMap (fun v => ',' :: v.data)).length) + 1, none⟩ ::
        ⟨.WS, " ", pos + 2 + (9 + ((c0 :: c0s) ++ vrest.flatMap (fun v => ',' :: v.data)).length) + 1,
          pos + 2 + (9 + ((c0 :: c0s) ++ vrest.flatMap (fun v => ',' :: v.data)).length) + 1 + 1, none⟩ ::
        [⟨.UNQUALIFIED_PACKAGE_NAME, (pc :: pcs).asString, pos + 2 + (9 + ((c0 :: c0s) ++ vrest.flatMap (fun v => ',' :: v.data)).length) + 1 + 1,
          pos + 2 + (9 + ((c0 :: c0s) ++ vrest.flatMap (fun v => ',' :: v.data)).length) + 1 + 1 + (1 + pcs.length), none⟩] := by
    intro fuel pos hf
    rw [specAux_cons (specNextToken_start_edge _) fuel pos hf]
    rw [show (('^' :: '[' :: 'v' :: 'i' :: 'r' :: 't' :: 'u' :: 'a' :: 'l' :: 's' :: '=' ::
          (((c0 :: c0s) ++ vrest.flatMap (fun v => ',' :: v.data)) ++ ']' :: ' ' :: pc :: pcs)).drop 2)
        = 'v' :: 'i' :: 'r' :: 't' :: 'u' :: 'a' :: 'l' :: 's' :: '=' ::
          (((c0 :: c0s) ++ vrest.flatMap (fun v => ',' :: v.data)) ++ ']' :: ' ' :: pc :: pcs) from rfl]
    exact congrArg (List.cons _) (s4 (fuel - 2) (pos + 2) (by
      simp only [List.length_cons, List.length_append, List.length_nil] at hf ⊢
      omega))
  have s2 : ∀ fuel pos,
      (' ' :: '^' :: '[' :: 'v' :: 'i' :: 'r' :: 't' :: 'u' :: 'a' :: 'l' :: 's' :: '=' ::
        (((c0 :: c0s) ++ vrest.flatMap (fun v => ',' :: v.data)) ++ ']' :: ' ' :: pc :: pcs)).length ≤ fuel →
      tokenizeWithAux specNextToken fuel pos
        (' ' :: '^' :: '[' :: 'v' :: 'i' :: 'r' :: 't' :: 'u' :: 'a' :: 'l' :: 's' :: '=' ::
          (((c0 :: c0s) ++ vrest.flatMap (fun v => ',' :: v.data)) ++ ']' :: ' ' :: pc :: pcs))
      = ⟨.WS, " ", pos, pos + 1, none⟩ ::
        ⟨.START_EDGE_PROPERTIES, "^[", pos + 1, pos + 1 + 2, none⟩ ::
        ⟨.KEY_VALUE_PAIR, ("virtuals=".data ++ ((c0 :: c0s) ++ vrest.flatMap (fun v => ',' :: v.data))).asString, pos + 1 + 2,
          pos + 1 + 2 + (9 + ((c0 :: c0s) ++ vrest.flatMap (fun v => ',' :: v.data)).length), none⟩ ::
        ⟨.END_EDGE_PROPERTIES, "]", pos + 1 + 2 + (9 + ((c0 :: c0s) ++ vrest.flatMap (fun v => ',' :: v.data)).length),
          pos + 1 + 2 + (9 + ((c0 :: c0s) ++ vrest.flatMap (fun v => ',' :: v.data)).length) + 1, none⟩ ::
        ⟨.WS, " ", pos + 1 + 2 + (9 + ((c0 :: c0s) ++ vrest.flatMap (fun v => ',' :: v.data)).length) + 1,
          pos + 1 + 2 + (9 + ((c0 :: c0s) ++ vrest.flatMap (fun v => ',' :: v.data)).length) + 1 + 1, none⟩ ::
        [⟨.UNQUALIFIED_PACKAGE_NAME, (pc :: pcs).asString,
          pos + 1 + 2 + (9 + ((c0 :: c0s) ++ vrest.flatMap (fun v => ',' :: v.data)).length) + 1 + 1,
          pos + 1 + 2 + (9 + ((c0 :: c0s) ++ vrest.flatMap (fun v => ',' :: v.data)).length) + 1 + 1 + (1 + pcs.length), none⟩] := by
    intro fuel pos hf
    rw [specAux_cons (specNextToken_ws_caret _) fuel pos hf]
    rw [show ((' ' :: '^' :: '[' :: 'v' :: 'i' :: 'r' :: 't' :: 'u' :: 'a' :: 'l' :: 's' ::
          '=' :: (((c0 :: c0s) ++ vrest.flatMap (fun v => ',' :: v.data)) ++ ']' :: ' ' :: pc :: pcs)).drop 1)
        = '^' :: '[' :: 'v' :: 'i' :: 'r' :: 't' :: 'u' :: 'a' :: 'l' :: 's' :: '=' ::
          (((c0 :: c0s) ++ vrest.flatMap (fun v => ',' :: v.data)) ++ ']' :: ' ' :: pc :: pcs) from rfl]
    exact congrArg (List.cons _) (s3 (fuel - 1) (pos + 1) (by
      simp only [List.length_cons, List.length_append, List.length_nil] at hf ⊢
      omega))
  have hD : ("foo ^[virtuals=" ++ vstr ++ "] " ++ pkg).data
      = 'f' :: 'o' :: 'o' :: ' ' :: '^' :: '[' :: 'v' :: 'i' :: 'r' :: 't' :: 'u' ::
        'a' :: 'l' :: 's' :: '=' :: (((c0 :: c0s) ++ vrest.flatMap (fun v => ',' :: v.data)) ++ ']' :: ' ' :: pc :: pcs) := by
    simp only [show ∀ s t : String, (s ++ t).data = s.data ++ t.data from fun s t => rfl]
    rw [hj, h0, hp]
    simp
  unfold tokenizeRaw
  rw [hD]
  rw [specAux_cons (specNextToken_fooHead _) _ 0 (le_refl _)]
  rw [show (('f' :: 'o' :: 'o' :: ' ' :: '^' :: '[' :: 'v' :: 'i' :: 'r' :: 't' :: 'u' ::
        'a' :: 'l' :: 's' :: '=' :: (((c0 :: c0s) ++ vrest.flatMap (fun v => ',' :: v.data)) ++ ']' :: ' ' :: pc :: pcs)).drop 3)
      = ' ' :: '^' :: '[' :: 'v' :: 'i' :: 'r' :: 't' :: 'u' :: 'a' :: 'l' :: 's' :: '=' ::
        (((c0 :: c0s) ++ vrest.flatMap (fun v => ',' :: v.data)) ++ ']' :: ' ' :: pc :: pcs) from rfl]
  rw [s2 _ 3 (by
    simp only [List.length_cons, List.length_append, List.length_nil]
    omega)]
  rw [hA, ← hp]
  rfl

set_option maxHeartbeats 4000000 in
/-- C1: for every identifier-shaped package name and non-empty comma-separated
list of identifier-shaped virtual names, parsing the inline
virtual-substitution shorthand (`"foo ^" ++ virtuals-list ++ "=" ++ pkg`) and
parsing the bracketed form (`"foo ^[virtuals=" ++ virtuals-list ++ "] " ++ pkg`)
produce structurally identical results: the same root node (named `foo`), and
one edge with the same list of virtuals, the same child name `pkg`, and the
same `direct = false` flag. -/
theorem virtual_shorthand_equivalence {pkg v0 vstr : String} {pc c0 : Char}
    {pcs c0s : List Char} {vrest : List String}
    (hp : pkg.data = pc :: pcs) (hpw : isWordChar pc = true)
    (hpi : ∀ x ∈ pcs, isIdChar x = true)
    (h0 : v0.data = c0 :: c0s) (h0w : isWordChar c0 = true)
    (h0i : ∀ x ∈ c0s, isIdChar x = true)
    (hvs : ∀ v ∈ vrest, ∃ c cs, v.data = c :: cs ∧ isWordChar c = true ∧
      ∀ x ∈ cs, isIdChar x = true)
    (hj : vstr.data = v0.data ++ vrest.flatMap (fun v => ',' :: v.data)) :
    parse_one_or_raise [] [] ("foo ^" ++ vstr ++ "=" ++ pkg) none
      = .ok (Spec.mk { name := some "foo" }
          [{ child := Spec.mk { name := some pkg } [], direct := false,
             virtuals := v0 :: vrest, depflag := 0, cond := none }]) ∧
    parse_one_or_raise [] [] ("foo ^[virtuals=" ++ vstr ++ "] " ++ pkg) none
      = .ok (Spec.mk { name := some "foo" }
          [{ child := Spec.mk { name := some pkg } [], direct := false,
             virtuals := v0 :: vrest, depflag := 0, cond := none }]) := by
  have hdot : pkg.data.contains '.' = false := by
    rw [hp]
    exact ident_no_dot hpw hpi
  have hsp2 : strSplit vstr ',' = v0 :: vrest := strSplit_join h0 h0w h0i hvs hj
  have hne : ¬ (pkg = "*") := ident_ne_star hp hpw
  constructor
  · have init_eq : TokenContext.init ("foo ^" ++ vstr ++ "=" ++ pkg)
        = .ok ({ current_token := none, next_token := some ⟨.UNQUALIFIED_PACKAGE_NAME, "foo", 0, 3, none⟩, pushed_tokens := [], rest := [⟨.DEPENDENCY, ('^' :: (vstr.data ++ '=' :: pkg.data)).asString, 4, 4 + (1 + (vstr.data.length + 1 + pkg.data.length)), some ⟨vstr, pkg⟩⟩], badTail := false, text := ("foo ^" ++ vstr ++ "=" ++ pkg) }) := by
      unfold TokenContext.init
      rw [tokenizeRaw_inline hp hpw hpi h0 h0w h0i hvs hj]
      rfl
    have hnp2 : nodeParse ("foo ^" ++ vstr ++ "=" ++ pkg) 3 ({ current_token := some ⟨.DEPENDENCY, ('^' :: (vstr.data ++ '=' :: pkg.data)).asString, 4, 4 + (1 + (vstr.data.length + 1 + pkg.data.length)), some ⟨vstr, pkg⟩⟩, next_token := some ⟨(if pkg.data.contains '.' = true then SpecTokens.FULLY_QUALIFIED_PACKAGE_NAME else SpecTokens.UNQUALIFIED_PACKAGE_NAME), pkg, firstIndexOfSub ('^' :: (vstr.data ++ '=' :: pkg.data)).asString.data pkg.data, firstIndexOfSub ('^' :: (vstr.data ++ '=' :: pkg.data)).asString.data pkg.data + pkg.length, none⟩, pushed_tokens := [none], rest := [], badTail := false, text := ("foo ^" ++ vstr ++ "=" ++ pkg) }) none true
        = .ok (Spec.mk { name := some pkg } [], [], { current_token := some ⟨SpecTokens.UNQUALIFIED_PACKAGE_NAME, pkg, firstIndexOfSub ('^' :: (vstr.data ++ '=' :: pkg.data)).asString.data pkg.data, firstIndexOfSub ('^' :: (vstr.data ++ '=' :: pkg.data)).asString.data pkg.data + pkg.length, none⟩, next_token := none, pushed_tokens := [], rest := [], badTail := false, text := ("foo ^" ++ vstr ++ "=" ++ pkg) }) := by
      rw [show ({ current_token := some ⟨.DEPENDENCY, ('^' :: (vstr.data ++ '=' :: pkg.data)).asString, 4, 4 + (1 + (vstr.data.length + 1 + pkg.data.length)), some ⟨vstr, pkg⟩⟩, next_token := some ⟨(if pkg.data.contains '.' = true then SpecTokens.FULLY_QUALIFIED_PACKAGE_NAME else SpecTokens.UNQUALIFIED_PACKAGE_NAME), pkg, firstIndexOfSub ('^' :: (vstr.data ++ '=' :: pkg.data)).asString.data pkg.data, firstIndexOfSub ('^' :: (vstr.data ++ '=' :: pkg.data)).asString.data pkg.data + pkg.length, none⟩, pushed_tokens := [none], rest := [], badTail := false, text := ("foo ^" ++ vstr ++ "=" ++ pkg) } : TokenContext) = ({ current_token := some ⟨.DEPENDENCY, ('^' :: (vstr.data ++ '=' :: pkg.data)).asString, 4, 4 + (1 + (vstr.data.length + 1 + pkg.data.length)), some ⟨vstr, pkg⟩⟩, next_token := some ⟨SpecTokens.UNQUALIFIED_PACKAGE_NAME, pkg, firstIndexOfSub ('^' :: (vstr.data ++ '=' :: pkg.data)).asString.data pkg.data, firstIndexOfSub ('^' :: (vstr.data ++ '=' :: pkg.data)).asString.data pkg.data + pkg.length, none⟩, pushed_tokens := [none], rest := [], badTail := false, text := ("foo ^" ++ vstr ++ "=" ++ pkg) } : TokenContext) from by
        rw [hdot]
        rfl]
      rw [show nodeParse ("foo ^" ++ vstr ++ "=" ++ pkg) 3 ({ current_token := some ⟨.DEPENDENCY, ('^' :: (vstr.data ++ '=' :: pkg.data)).asString, 4, 4 + (1 + (vstr.data.length + 1 + pkg.data.length)), some ⟨vstr, pkg⟩⟩, next_token := some ⟨SpecTokens.UNQUALIFIED_PACKAGE_NAME, pkg, firstIndexOfSub ('^' :: (vstr.data ++ '=' :: pkg.data)).asString.data pkg.data, firstIndexOfSub ('^' :: (vstr.data ++ '=' :: pkg.data)).asString.data pkg.data + pkg.length, none⟩, pushed_tokens := [none], rest := [], badTail := false, text := ("foo ^" ++ vstr ++ "=" ++ pkg) }) none true
          = Except.ok ((if ¬ pkg = "*" then Spec.mk { name := some pkg } [] else Spec.empty),
              [], { current_token := some ⟨SpecTokens.UNQUALIFIED_PACKAGE_NAME, pkg, firstIndexOfSub ('^' :: (vstr.data ++ '=' :: pkg.data)).asString.data pkg.data, firstIndexOfSub ('^' :: (vstr.data ++ '=' :: pkg.data)).asString.data pkg.data + pkg.length, none⟩, next_token := none, pushed_tokens := [], rest := [], badTail := false, text := ("foo ^" ++ vstr ++ "=" ++ pkg) }) from rfl]
      rw [if_pos hne]
    unfold parse_one_or_raise
    change (TokenContext.init ("foo ^" ++ vstr ++ "=" ++ pkg) >>= _) = _
    rw [init_eq]
    change ((((if (((strSplit vstr ',').isEmpty && _) = true) then _ else _ :
        Except ParseErr (Spec × List String × TokenContext))) >>= _) >>= _) = _
    rw [hsp2]
    rw [if_neg (by simp)]
    change (((nodeParse ("foo ^" ++ vstr ++ "=" ++ pkg) 3 ({ current_token := some ⟨.DEPENDENCY, ('^' :: (vstr.data ++ '=' :: pkg.data)).asString, 4, 4 + (1 + (vstr.data.length + 1 + pkg.data.length)), some ⟨vstr, pkg⟩⟩, next_token := some ⟨(if pkg.data.contains '.' = true then SpecTokens.FULLY_QUALIFIED_PACKAGE_NAME else SpecTokens.UNQUALIFIED_PACKAGE_NAME), pkg, firstIndexOfSub ('^' :: (vstr.data ++ '=' :: pkg.data)).asString.data pkg.data, firstIndexOfSub ('^' :: (vstr.data ++ '=' :: pkg.data)).asString.data pkg.data + pkg.length, none⟩, pushed_tokens := [none], rest := [], badTail := false, text := ("foo ^" ++ vstr ++ "=" ++ pkg) }) none true >>= _) >>= _) >>= _) = _
    rw [hnp2]
    rfl
  · have hstripv : stripChars ['\'', '"', ' '] vstr.data = vstr.data := by
      apply stripChars_id
      intro c hc
      rw [hj, h0] at hc
      rcases mem_virtuals_join h0w h0i hvs c hc with rfl | hid
      · decide
      · exact quoteStrip_contains_id hid
    have hval : (splitOnChar ',' (stripChars ['\'', '"', ' '] vstr.data)).map List.asString
        = v0 :: vrest := by
      rw [hstripv]
      exact strSplit_join h0 h0w h0i hvs hj
    have init_eq : TokenContext.init ("foo ^[virtuals=" ++ vstr ++ "] " ++ pkg)
        = .ok ({ current_token := none, next_token := some ⟨.UNQUALIFIED_PACKAGE_NAME, "foo", 0, 3, none⟩, pushed_tokens := [], rest := [⟨.START_EDGE_PROPERTIES, "^[", 4, 6, none⟩, ⟨.KEY_VALUE_PAIR, ("virtuals=".data ++ vstr.data).asString, 6, 6 + (9 + vstr.data.length), none⟩, ⟨.END_EDGE_PROPERTIES, "]", 6 + (9 + vstr.data.length), 6 + (9 + vstr.data.length) + 1, none⟩, ⟨.UNQUALIFIED_PACKAGE_NAME, pkg, 6 + (9 + vstr.data.length) + 1 + 1, 6 + (9 + vstr.data.length) + 1 + 1 + (1 + pcs.length), none⟩], badTail := false, text := ("foo ^[virtuals=" ++ vstr ++ "] " ++ pkg) }) := by
      unfold TokenContext.init
      rw [tokenizeRaw_bracket hp hpw hpi h0 h0w h0i hvs hj]
      rfl
    unfold parse_one_or_raise
    change (TokenContext.init ("foo ^[virtuals=" ++ vstr ++ "] " ++ pkg) >>= _) = _
    rw [init_eq]
    change Except.ok (Spec.mk { name := some "foo" }
      [{ child := (if ¬ pkg = "*" then Spec.mk { name := some pkg } [] else Spec.empty),
         direct := false,
         virtuals := (splitOnChar ',' (stripChars ['\'', '"', ' '] vstr.data)).map
           List.asString ++ [],
         depflag := 0, cond := none }]) = _
    rw [if_pos hne, List.append_nil, hval]

set_option maxHeartbeats 4000000 in
/-- Witness for C1 at the spec's own example: `"foo ^c,cxx=gcc"` and
`"foo ^[virtuals=c,cxx] gcc"` both parse to a `foo` root with one non-direct
edge to `gcc` carrying virtuals `["c", "cxx"]`. -/
theorem virtual_shorthand_equivalence_witness :
    parse_one_or_raise [] [] "foo ^c,cxx=gcc" none
      = .ok (Spec.mk { name := some "foo" }
          [{ child := Spec.mk { name := some "gcc" } [], direct := false,
             virtuals := ["c", "cxx"], depflag := 0, cond := none }]) ∧
    parse_one_or_raise [] [] "foo ^[virtuals=c,cxx] gcc" none
      = .ok (Spec.mk { name := some "foo" }
          [{ child := Spec.mk { name := some "gcc" } [], direct := false,
             virtuals := ["c", "cxx"], depflag := 0, cond := none }]) :=
  @virtual_shorthand_equivalence "gcc" "c" "c,cxx" 'g' 'c' ['c', 'c'] [] ["cxx"]
    rfl (by decide) (by decide) rfl (by decide) (by decide)
    (by
      intro v hv
      rw [List.mem_singleton] at hv
      subst hv
      exact ⟨'c', ['x', 'x'], rfl, by decide, by decide⟩)
    rfl

end Spack
